import Mathlib

/-!
Shallow embedding of the in-memory matching engine of the crypto-exchange
backend (src/app/services/trading_engine/order_book.py) together with the
validation layer of the order service (src/app/services/order/order_service.py)
and the schema constraints (src/app/schemas/order.py).

Modelling conventions:
* Python floats for prices/quantities are modelled as exact integers (ℤ):
  the engine applies only `+`, `-`, unary negation, `min` and comparisons to
  them (it never divides), these agree with exact arithmetic on the decimal
  values the spec's scenarios use, and none of the claims concerns float
  rounding behaviour.
* `datetime.utcnow()` is modelled by an explicit clock argument `now : Nat`
  passed to every engine operation; `created_at`/`updated_at` are `Nat`.
* Python dicts are modelled as insertion-ordered association lists; `defaultdict`
  access is modelled by getters that default to the empty value and setters that
  create the slot on first write (observationally equal to the source).
* Python objects are aliased: the registry `self.orders` is the single store,
  price levels hold order ids, and every field read/write goes through the
  registry, which reproduces the source's reference semantics.
* Exceptions (`ValueError`, `TypeError`) are modelled with `Except`; mutations
  performed before a raise are kept in the returned state, as in Python.
* `heapq.heappush` / `heapq.heapify` are translated literally from CPython's
  `heapq` (pure-Python reference implementation); the loops are expressed with
  an explicit fuel argument that is always sufficient (see the comments there).
-/

namespace OB

/-- `OrderSide` of order_book.py. -/
inductive OrderSide : Type
  | buy
  | sell
  deriving DecidableEq, Repr

/-- `OrderType` of order_book.py. -/
inductive OrderType : Type
  | market
  | limit
  | stop
  deriving DecidableEq, Repr

/-- `OrderStatus` of order_book.py: PENDING, PARTIAL, FILLED, CANCELLED.
The source enum has no REJECTED member (only the pydantic schema enum in
schemas/order.py lists "rejected", and the engine never assigns it). -/
inductive OrderStatus : Type
  | pending
  | partFilled
  | filled
  | cancelled
  deriving DecidableEq, Repr

/-- The `Order` dataclass of order_book.py. -/
structure Order : Type where
  id : Nat
  user_id : Nat
  symbol : String
  side : OrderSide
  order_type : OrderType
  quantity : ℤ
  filled_quantity : ℤ
  price : Option ℤ
  stop_price : Option ℤ
  status : OrderStatus
  created_at : Nat
  updated_at : Nat
  deriving DecidableEq, Repr

/-- The `OrderBookEntry` dataclass: one price level.  The source stores the
resident `Order` objects by reference; here `orders` holds their ids and every
access goes through the registry.  `order_count` is a Python int, so `Int`. -/
structure OrderBookEntry : Type where
  price : ℤ
  total_quantity : ℤ
  order_count : Int
  orders : List Nat
  deriving DecidableEq, Repr

/-- The `Trade` dataclass.  `price` is copied from `matching_order.price`
(an `Optional[float]` field), hence `Option ℤ`. -/
structure Trade : Type where
  id : Nat
  symbol : String
  buy_order_id : Nat
  sell_order_id : Nat
  quantity : ℤ
  price : Option ℤ
  executed_at : Nat
  deriving DecidableEq, Repr

/-- Python exceptions raised by the engine: `TypeError` (comparing a float
price level against a `None` price) and `ValueError` (cancel failures). -/
inductive PyErr : Type
  | typeError
  | valueError (msg : String)
  deriving DecidableEq, Repr

/-- Rendering of an `OrderStatus` inside a Python f-string. -/
def statusRepr : OrderStatus → String
  | .pending => "OrderStatus.PENDING"
  | .partFilled => "OrderStatus.PARTIAL"
  | .filled => "OrderStatus.FILLED"
  | .cancelled => "OrderStatus.CANCELLED"

/-- A bids/asks pair, used for price levels and for the heap index. -/
structure BookSides (α : Type) : Type where
  bids : α
  asks : α
  deriving DecidableEq, Repr

/-- Entries of the `order_books` heaps: `(heap_price, price)` tuples. -/
abbrev HeapEntry : Type := ℤ × ℤ

/-- Python tuple comparison `(a, b) < (c, d)` (lexicographic), as used by
`heapq` on the `(heap_price, price)` tuples. -/
def entryLt (a b : HeapEntry) : Bool :=
  decide (a.1 < b.1) || (decide (a.1 = b.1) && decide (a.2 < b.2))

/-- CPython `heapq._siftdown(heap, startpos, pos)` with `newitem = heap[pos]`
read once at entry.  The `while pos > startpos` loop moves parents down and
finally writes `newitem`; each step replaces `pos` by `(pos - 1) // 2`, so the
loop runs at most `pos` times and `fuel := pos` is always sufficient.  When the
fuel is `0` we have `pos = 0 ≤ startpos`, and the exhausted branch coincides
with the loop exit. -/
def siftdownAux (newitem : HeapEntry) (startpos : Nat) :
    Nat → List HeapEntry → Nat → List HeapEntry
  | 0, heap, pos => heap.set pos newitem
  | fuel + 1, heap, pos =>
    if startpos < pos then
      let parentpos := (pos - 1) / 2
      let parent := heap.getD parentpos default
      if entryLt newitem parent then
        siftdownAux newitem startpos fuel (heap.set pos parent) parentpos
      else
        heap.set pos newitem
    else
      heap.set pos newitem

/-- CPython `heapq._siftdown(heap, startpos, pos)`. -/
def siftdown (heap : List HeapEntry) (startpos pos : Nat) : List HeapEntry :=
  siftdownAux (heap.getD pos default) startpos pos heap pos

/-- CPython `heapq._siftup(heap, pos)` with `newitem = heap[pos]` read at
entry.  The `while childpos < endpos` loop moves the smaller child up; each
step at least increments `pos`, so `fuel := heap.length` is always sufficient.
At fuel `0` the exhausted branch coincides with the loop exit followed by
`heap[pos] = newitem; _siftdown(heap, startpos, pos)`. -/
def siftupAux (newitem : HeapEntry) (startpos : Nat) :
    Nat → List HeapEntry → Nat → List HeapEntry
  | 0, heap, pos => siftdownAux newitem startpos pos (heap.set pos newitem) pos
  | fuel + 1, heap, pos =>
    if 2 * pos + 1 < heap.length then
      if 2 * pos + 2 < heap.length ∧
          ¬ entryLt (heap.getD (2 * pos + 1) default) (heap.getD (2 * pos + 2) default) then
        siftupAux newitem startpos fuel
          (heap.set pos (heap.getD (2 * pos + 2) default)) (2 * pos + 2)
      else
        siftupAux newitem startpos fuel
          (heap.set pos (heap.getD (2 * pos + 1) default)) (2 * pos + 1)
    else
      siftdownAux newitem startpos pos (heap.set pos newitem) pos

/-- CPython `heapq._siftup(heap, pos)`. -/
def siftup (heap : List HeapEntry) (pos : Nat) : List HeapEntry :=
  siftupAux (heap.getD pos default) pos heap.length heap pos

/-- CPython `heapq.heappush`: append, then sift down from the last index. -/
def heappush (heap : List HeapEntry) (item : HeapEntry) : List HeapEntry :=
  siftdown (heap ++ [item]) 0 heap.length

/-- The loop of CPython `heapq.heapify`: `for i in reversed(range(n // 2)):
_siftup(x, i)`. -/
def heapifyAux : List HeapEntry → Nat → List HeapEntry
  | heap, 0 => heap
  | heap, i + 1 => heapifyAux (siftup heap i) i

/-- CPython `heapq.heapify`. -/
def heapify (heap : List HeapEntry) : List HeapEntry :=
  heapifyAux heap (heap.length / 2)

/-- Association-list lookup: Python `d.get(k)` / `k in d`. -/
def alistGet {α β : Type} [DecidableEq α] : List (α × β) → α → Option β
  | [], _ => none
  | kv :: rest, k => if kv.1 = k then some kv.2 else alistGet rest k

/-- Association-list store: Python `d[k] = v` (update in place, else append,
matching dict insertion order). -/
def alistSet {α β : Type} [DecidableEq α] : List (α × β) → α → β → List (α × β)
  | [], k, v => [(k, v)]
  | kv :: rest, k, v => if kv.1 = k then (k, v) :: rest else kv :: alistSet rest k v

/-- Association-list delete: Python `del d[k]` (keys are unique). -/
def alistDel {α β : Type} [DecidableEq α] (l : List (α × β)) (k : α) : List (α × β) :=
  l.filter (fun kv => kv.1 ≠ k)

/-- Concatenation of the images of `f`, preserving order (a `for` loop that
appends). -/
def cmap {α β : Type} (f : α → List β) : List α → List β
  | [] => []
  | x :: xs => f x ++ cmap f xs

/-- Stable insertion used by `stableSort`. -/
def sInsert {α : Type} (lt : α → α → Bool) (x : α) : List α → List α
  | [] => [x]
  | y :: ys => if lt y x then y :: sInsert lt x ys else x :: y :: ys

/-- A stable sort: Python's `list.sort` is documented stable, and with
`reverse=True` it sorts descending while still preserving the original order
of equal keys.  `lt` is the strict "must come earlier" comparison. -/
def stableSort {α : Type} (lt : α → α → Bool) : List α → List α
  | [] => []
  | x :: xs => sInsert lt x (stableSort lt xs)

/-- The whole state of the `OrderBook` object. -/
structure EngineState : Type where
  orders : List (Nat × Order)
  next_order_id : Nat
  next_trade_id : Nat
  order_books : List (String × BookSides (List HeapEntry))
  price_levels : List (String × BookSides (List (ℤ × OrderBookEntry)))
  trades : List (String × List Trade)
  deriving DecidableEq, Repr

/-- `OrderBook.__init__`. -/
def initState : EngineState :=
  { orders := [], next_order_id := 1, next_trade_id := 1,
    order_books := [], price_levels := [], trades := [] }

/-- `self.orders[order_id]` (read). -/
def lookupOrder (s : EngineState) (i : Nat) : Option Order :=
  alistGet s.orders i

/-- Store an order object under its key (aliasing: all book references go
through this registry). -/
def updateOrder (s : EngineState) (i : Nat) (o : Order) : EngineState :=
  { s with orders := alistSet s.orders i o }

/-- The state after lines 104-105 of `add_order`: bump the id counter and
store the freshly built order object under its id. -/
def insertFresh (s : EngineState) (o : Order) : EngineState :=
  { s with next_order_id := s.next_order_id + 1, orders := alistSet s.orders o.id o }

/-- `self.price_levels[symbol][side_key]` (read; `defaultdict` yields `{}`). -/
def getLevels (s : EngineState) (symbol : String) (sd : OrderSide) :
    List (ℤ × OrderBookEntry) :=
  match alistGet s.price_levels symbol with
  | none => []
  | some sides => match sd with
    | .buy => sides.bids
    | .sell => sides.asks

/-- `self.price_levels[symbol][side_key]` (write). -/
def setLevels (s : EngineState) (symbol : String) (sd : OrderSide)
    (lv : List (ℤ × OrderBookEntry)) : EngineState :=
  let sides := (alistGet s.price_levels symbol).getD ⟨[], []⟩
  let sides := match sd with
    | .buy => { sides with bids := lv }
    | .sell => { sides with asks := lv }
  { s with price_levels := alistSet s.price_levels symbol sides }

/-- `self.order_books[symbol][side_key]` (read). -/
def getHeap (s : EngineState) (symbol : String) (sd : OrderSide) : List HeapEntry :=
  match alistGet s.order_books symbol with
  | none => []
  | some sides => match sd with
    | .buy => sides.bids
    | .sell => sides.asks

/-- `self.order_books[symbol][side_key]` (write). -/
def setHeap (s : EngineState) (symbol : String) (sd : OrderSide)
    (h : List HeapEntry) : EngineState :=
  let sides := (alistGet s.order_books symbol).getD ⟨[], []⟩
  let sides := match sd with
    | .buy => { sides with bids := h }
    | .sell => { sides with asks := h }
  { s with order_books := alistSet s.order_books symbol sides }

/-- `self.trades[symbol]` (read; `defaultdict(list)`). -/
def tradesOf (s : EngineState) (symbol : String) : List Trade :=
  (alistGet s.trades symbol).getD []

/-- `OrderSide.SELL if order.side == OrderSide.BUY else OrderSide.BUY`. -/
def opposite : OrderSide → OrderSide
  | .buy => .sell
  | .sell => .buy

/-- `OrderBook._add_to_order_book(order)`; the caller guarantees
`order.price = some p` with `p` truthy. -/
def addToOrderBook (s : EngineState) (o : Order) (p : ℤ) : EngineState :=
  let lv := getLevels s o.symbol o.side
  match alistGet lv p with
  | none =>
    let entry : OrderBookEntry :=
      { price := p, total_quantity := o.quantity, order_count := 1, orders := [o.id] }
    let s := setLevels s o.symbol o.side (alistSet lv p entry)
    let hp := if o.side = .buy then -p else p
    setHeap s o.symbol o.side (heappush (getHeap s o.symbol o.side) (hp, p))
  | some entry =>
    let entry :=
      { entry with
        total_quantity := entry.total_quantity + o.quantity,
        order_count := entry.order_count + 1,
        orders := entry.orders ++ [o.id] }
    setLevels s o.symbol o.side (alistSet lv p entry)

/-- `OrderBook._remove_from_order_book(order)`.  The source subtracts the
FULL `order.quantity` (not the remaining quantity) from the level total,
removes the order from the queue, and deletes the level (rebuilding the heap
by filtering and `heapify`) when the total or the count drops to zero.
`price in dict` is `False` when `order.price` is `None`. -/
def removeFromOrderBook (s : EngineState) (o : Order) : EngineState :=
  match o.price with
  | none => s
  | some p =>
    let lv := getLevels s o.symbol o.side
    match alistGet lv p with
    | none => s
    | some entry =>
      let entry :=
        { entry with
          total_quantity := entry.total_quantity - o.quantity,
          order_count := entry.order_count - 1,
          orders := entry.orders.filter (fun i => i ≠ o.id) }
      if entry.total_quantity ≤ 0 ∨ entry.order_count ≤ 0 then
        let s := setLevels s o.symbol o.side (alistDel lv p)
        let h := (getHeap s o.symbol o.side).filter (fun e => e.2 ≠ p)
        setHeap s o.symbol o.side (heapify h)
      else
        setLevels s o.symbol o.side (alistSet lv p entry)

/-- The eligibility filter of both matching-order collectors: status in
`[PENDING, PARTIAL]` and `order_type == LIMIT`.  In the source the level holds
the `Order` objects themselves; resident ids always resolve in the registry. -/
def eligible (s : EngineState) (i : Nat) : Option Order :=
  match lookupOrder s i with
  | none => none
  | some o =>
    if (o.status = .pending ∨ o.status = .partFilled) ∧ o.order_type = .limit
    then some o else none

/-- Comparison of the sort keys `x.price` (an `Optional[float]`).  Collected
matching orders are resting LIMIT orders, whose price is always set, so the
`none` branches are unreachable. -/
def priceLt (a b : Option ℤ) : Bool :=
  match a, b with
  | some x, some y => decide (x < y)
  | _, _ => false

/-- Ascending-by-price strict comparison for the stable sort. -/
def ltAsc (a b : Order) : Bool := priceLt a.price b.price

/-- Descending-by-price strict comparison (`reverse=True`). -/
def ltDesc (a b : Order) : Bool := priceLt b.price a.price

/-- `OrderBook._get_matching_orders(symbol, side, quantity)`: collect all
resting eligible LIMIT orders on `side`'s book (no price guard), then sort
ascending by price when `side == SELL`, else descending.  Returns the order
ids in matching order. -/
def getMatchingOrders (s : EngineState) (symbol : String) (sd : OrderSide)
    (_quantity : ℤ) : List Nat :=
  let ms := cmap (fun pe => pe.2.orders.filterMap (eligible s)) (getLevels s symbol sd)
  let ms := if sd = .sell then stableSort ltAsc ms else stableSort ltDesc ms
  ms.map (fun o => o.id)

/-- The price guard of `_get_matching_orders_with_price` (lines 348-356): a
level at `lp` is skipped (`continue`) when it is beyond the incoming order's
limit price `pr`. -/
def keepLevel (pr : ℤ) (order_side : OrderSide) (lp : ℤ) : Bool :=
  match order_side with
  | .buy => ! decide (lp > pr)
  | .sell => ! decide (lp < pr)

/-- The level loop of `_get_matching_orders_with_price`: the price guard
compares each level price against `price`; when `price` is `None`, Python
raises `TypeError` on the first comparison. -/
def gatherLevels (s : EngineState) (price : Option ℤ) (order_side : OrderSide) :
    List (ℤ × OrderBookEntry) → Except PyErr (List Order)
  | [] => .ok []
  | (lp, e) :: rest =>
    match price with
    | none => .error .typeError
    | some pr =>
      let keep : Bool := keepLevel pr order_side lp
      match gatherLevels s price order_side rest with
      | .error err => .error err
      | .ok tail =>
        .ok (if keep then e.orders.filterMap (eligible s) ++ tail else tail)

/-- `OrderBook._get_matching_orders_with_price(symbol, side, quantity, price,
order_side)`.  `side` is the opposite (resting) side. -/
def getMatchingOrdersWithPrice (s : EngineState) (symbol : String) (sd : OrderSide)
    (_quantity : ℤ) (price : Option ℤ) (order_side : OrderSide) :
    Except PyErr (List Nat) :=
  match gatherLevels s price order_side (getLevels s symbol sd) with
  | .error err => .error err
  | .ok ms =>
    let ms := if sd = .sell then stableSort ltAsc ms else stableSort ltDesc ms
    .ok (ms.map (fun o => o.id))

/-- One iteration of the trade-execution loop of `_match_order`
(lines 276-319), for matching order `m` stored under registry key `mid`.
`ocur` is the incoming order object (aliased with the registry entry
`ocur.id`); all mutations of either order go through the registry, which
reproduces the source's object aliasing. -/
def tradeStep (now : Nat) (sym : String) (oside : OrderSide) (s : EngineState)
    (ocur : Order) (remaining : ℤ) (mid : Nat) (m : Order) :
    EngineState × Order × ℤ :=
  let oid := ocur.id
  let available := m.quantity - m.filled_quantity
  let tq := min remaining available
  let tprice := m.price
  let bid := if oside = .buy then oid else m.id
  let sid := if oside = .buy then m.id else oid
  let tr : Trade :=
    { id := s.next_trade_id, symbol := sym, buy_order_id := bid,
      sell_order_id := sid, quantity := tq, price := tprice, executed_at := now }
  let s := { s with next_trade_id := s.next_trade_id + 1,
                    trades := alistSet s.trades sym (tradesOf s sym ++ [tr]) }
  let ocur := { ocur with filled_quantity := ocur.filled_quantity + tq }
  let s := updateOrder s oid ocur
  let m := { m with filled_quantity := m.filled_quantity + tq }
  let s := updateOrder s mid m
  let remaining := remaining - tq
  let ocur := if ocur.quantity ≤ ocur.filled_quantity
    then { ocur with status := .filled }
    else { ocur with status := .partFilled }
  let s := updateOrder s oid ocur
  let ms :=
    if m.quantity ≤ m.filled_quantity then
      let m := { m with status := .filled }
      let s := updateOrder s mid m
      let s := if m.order_type = .limit then removeFromOrderBook s m else s
      (m, s)
    else
      let m := { m with status := .partFilled }
      (m, updateOrder s mid m)
  let m := ms.1
  let s := ms.2
  let ocur := { ocur with updated_at := now }
  let s := updateOrder s oid ocur
  let m := { m with updated_at := now }
  let s := updateOrder s mid m
  (s, ocur, remaining)

/-- The trade-execution loop of `_match_order` (lines 272-319): process the
collected matching orders in order, stopping when the remaining quantity is
exhausted. -/
def execTrades (now : Nat) (sym : String) (oside : OrderSide) :
    EngineState → Order → ℤ → List Nat → EngineState × Order × ℤ
  | s, ocur, remaining, [] => (s, ocur, remaining)
  | s, ocur, remaining, mid :: rest =>
    if remaining ≤ 0 then (s, ocur, remaining)
    else
      match lookupOrder s mid with
      | none => execTrades now sym oside s ocur remaining rest
      | some m =>
        let r := tradeStep now sym oside s ocur remaining mid m
        execTrades now sym oside r.1 r.2.1 r.2.2 rest

/-- The executed quantity of one loop iteration:
`min(remaining_quantity, available_quantity)`. -/
def tqOf (remaining : ℤ) (m : Order) : ℤ :=
  min remaining (m.quantity - m.filled_quantity)

/-- The incoming order object as it stands after one loop iteration. -/
def tsOcur (now : Nat) (ocur : Order) (remaining : ℤ) (m : Order) : Order :=
  let tq := tqOf remaining m
  let o1 := { ocur with filled_quantity := ocur.filled_quantity + tq }
  let o2 := if o1.quantity ≤ o1.filled_quantity
    then { o1 with status := OrderStatus.filled }
    else { o1 with status := OrderStatus.partFilled }
  { o2 with updated_at := now }

/-- The matching order object as it stands after one loop iteration. -/
def tsMatch (now : Nat) (remaining : ℤ) (m : Order) : Order :=
  let tq := tqOf remaining m
  let m1 := { m with filled_quantity := m.filled_quantity + tq }
  let m2 := if m1.quantity ≤ m1.filled_quantity
    then { m1 with status := OrderStatus.filled }
    else { m1 with status := OrderStatus.partFilled }
  { m2 with updated_at := now }

/-- The trade record appended by one loop iteration. -/
def tsTrade (now : Nat) (sym : String) (oside : OrderSide) (s : EngineState)
    (ocur : Order) (remaining : ℤ) (m : Order) : Trade :=
  { id := s.next_trade_id, symbol := sym,
    buy_order_id := if oside = .buy then ocur.id else m.id,
    sell_order_id := if oside = .buy then m.id else ocur.id,
    quantity := tqOf remaining m, price := m.price, executed_at := now }

/-- `OrderBook._match_order(order)`.  A `TypeError` raised while collecting
matching orders propagates before any trade executes. -/
def matchOrder (s : EngineState) (now : Nat) (o : Order) :
    Except PyErr Unit × EngineState :=
  if o.status ≠ .pending then (.ok (), s)
  else
    let oppositeSide := opposite o.side
    let remaining := o.quantity
    let cands : Except PyErr (List Nat) :=
      if o.order_type = .market then
        .ok (getMatchingOrders s o.symbol oppositeSide remaining)
      else
        getMatchingOrdersWithPrice s o.symbol oppositeSide remaining o.price o.side
    match cands with
    | .error e => (.error e, s)
    | .ok ms =>
      let (s, _, _) := execTrades now o.symbol o.side s o remaining ms
      (.ok (), s)

/-- Python truthiness of an `Optional[float]`: `None` and `0.0` are falsy. -/
def truthy : Option ℤ → Bool
  | none => false
  | some p => decide (p ≠ 0)

/-- `OrderBook.add_order`.  The order is created, stored, inserted into the
book when it is a LIMIT order with a truthy price, and then matched.  If
matching raises, the mutations made before the raise persist (as in Python)
and the exception propagates. -/
def add_order (s : EngineState) (now : Nat) (user_id : Nat) (symbol : String)
    (side : OrderSide) (order_type : OrderType) (quantity : ℤ)
    (price stop_price : Option ℤ) : Except PyErr Order × EngineState :=
  let o : Order :=
    { id := s.next_order_id, user_id := user_id, symbol := symbol, side := side,
      order_type := order_type, quantity := quantity, filled_quantity := 0,
      price := price, stop_price := stop_price, status := .pending,
      created_at := now, updated_at := now }
  let s := { s with next_order_id := s.next_order_id + 1,
                    orders := alistSet s.orders o.id o }
  let s := if order_type = .limit ∧ truthy price then
      addToOrderBook s o (price.getD 0)
    else s
  match matchOrder s now o with
  | (.error e, s) => (.error e, s)
  | (.ok _, s) => (.ok ((lookupOrder s o.id).getD o), s)

/-- `OrderBook.cancel_order(order_id, user_id)`. -/
def cancel_order (s : EngineState) (now : Nat) (order_id user_id : Nat) :
    Except PyErr Order × EngineState :=
  match lookupOrder s order_id with
  | none => (.error (.valueError "Order not found"), s)
  | some o =>
    if o.user_id ≠ user_id then
      (.error (.valueError "Order does not belong to user"), s)
    else if o.status = .filled ∨ o.status = .cancelled then
      (.error (.valueError ("Cannot cancel order with status: " ++ statusRepr o.status)), s)
    else
      let o := { o with status := .cancelled, updated_at := now }
      let s := updateOrder s order_id o
      let s := if o.order_type = .limit ∧ truthy o.price then
          removeFromOrderBook s o
        else s
      (.ok o, s)

/-- Remaining (unfilled) quantity of an order. -/
def availQ (o : Order) : ℤ := o.quantity - o.filled_quantity

/-- Σ (quantity − filled_quantity) over a list of resident order ids, resolved
through the registry.  This is the spec's `total_remaining_quantity`. -/
def levelResidual (s : EngineState) (ids : List Nat) : ℤ :=
  ((ids.filterMap (lookupOrder s)).map availQ).sum

/-- Σ quantity (the FULL quantity) over a list of resident order ids. -/
def levelQuantitySum (s : EngineState) (ids : List Nat) : ℤ :=
  ((ids.filterMap (lookupOrder s)).map (fun o => o.quantity)).sum

/-- Total opposite-side liquidity available to an incoming order on side
`oside`: the sum of remaining quantity over all resting eligible (PENDING or
PARTIAL, LIMIT) orders on the opposite book side. -/
def oppLiquidity (s : EngineState) (symbol : String) (oside : OrderSide) : ℤ :=
  ((cmap (fun pe => pe.2.orders.filterMap (eligible s))
      (getLevels s symbol (opposite oside))).map availQ).sum

/-- Remaining quantity of the order stored under key `i` (0 when absent). -/
def availOf (s : EngineState) (i : Nat) : ℤ :=
  match lookupOrder s i with
  | some m => m.quantity - m.filled_quantity
  | none => 0

/-- Total remaining quantity over a list of registry keys. -/
def availSum (s : EngineState) (ms : List Nat) : ℤ :=
  (ms.map (availOf s)).sum

/-- Every price level of `X` comes from a level of `Y` with the same or fewer
resident orders: the matching loop only ever shrinks the book. -/
def LevelsSub (X Y : EngineState) : Prop :=
  ∀ sym sd pe, pe ∈ getLevels X sym sd →
    ∃ pe0, pe0 ∈ getLevels Y sym sd ∧ pe.2.orders ⊆ pe0.2.orders

/-- Errors surfaced by the submission pipeline: pydantic schema validation
(HTTP 422), `OrderService.create_order` validation (`HTTPException` 400), or
an engine exception propagating uncaught. -/
inductive SubmitErr : Type
  | schema422
  | badRequest (detail : String)
  | uncaught (e : PyErr)
  deriving DecidableEq, Repr

/-- The `OrderCreate` schema payload (schemas/order.py). -/
structure OrderCreate : Type where
  symbol : String
  side : OrderSide
  order_type : OrderType
  quantity : ℤ
  price : Option ℤ
  stop_price : Option ℤ
  deriving DecidableEq, Repr

/-- The pydantic field constraints of `OrderBase`: `quantity` with `gt=0`,
`price` and `stop_price` with `gt=0` when present. -/
def schemaOk (d : OrderCreate) : Bool :=
  decide (0 < d.quantity) &&
  (match d.price with | none => true | some p => decide (0 < p)) &&
  (match d.stop_price with | none => true | some sp => decide (0 < sp))

/-- `OrderService.create_order` (order_service.py lines 14-44): reject a LIMIT
order without a (truthy) price and a STOP order without a (truthy) stop price
with HTTP 400, otherwise call the engine.  Nothing is stored on rejection; the
service has no try/except around `add_order`, so engine exceptions propagate. -/
def create_order (s : EngineState) (now user_id : Nat) (d : OrderCreate) :
    Except SubmitErr Order × EngineState :=
  if d.order_type = .limit ∧ ¬ truthy d.price then
    (.error (.badRequest "Limit orders must have a price"), s)
  else if d.order_type = .stop ∧ ¬ truthy d.stop_price then
    (.error (.badRequest "Stop orders must have a stop price"), s)
  else
    match add_order s now user_id d.symbol d.side d.order_type d.quantity
        d.price d.stop_price with
    | (.ok o, s) => (.ok o, s)
    | (.error e, s) => (.error (.uncaught e), s)

/-- The full submission pipeline: pydantic schema validation (a 422 before
the handler runs), then `OrderService.create_order`. -/
def submitRequest (s : EngineState) (now user_id : Nat) (d : OrderCreate) :
    Except SubmitErr Order × EngineState :=
  if ¬ schemaOk d then (.error .schema422, s) else create_order s now user_id d

/-- Positivity of an optional price, as required by the schema for present
values. -/
def posPrice : Option ℤ → Bool
  | none => false
  | some p => decide (0 < p)

/-- One engine operation, for statements about operation sequences. -/
inductive EVOp : Type
  | add (now user_id : Nat) (symbol : String) (side : OrderSide)
      (order_type : OrderType) (quantity : ℤ) (price stop_price : Option ℤ)
  | cancel (now order_id user_id : Nat)
  deriving DecidableEq, Repr

/-- Apply one operation (exceptions keep their partial mutations, as in the
source). -/
def stepOp (s : EngineState) : EVOp → EngineState
  | .add now uid sym sd ot q p sp => (add_order s now uid sym sd ot q p sp).2
  | .cancel now oid uid => (cancel_order s now oid uid).2

/-- Run a sequence of engine operations. -/
def runOps : EngineState → List EVOp → EngineState
  | s, [] => s
  | s, op :: ops => runOps (stepOp s op) ops

/-- A LIMIT submission, for the submit/cancel round-trip statements. -/
structure Sub : Type where
  now : Nat
  user_id : Nat
  symbol : String
  side : OrderSide
  quantity : ℤ
  price : ℤ
  deriving DecidableEq, Repr

/-- Submit one LIMIT order. -/
def subAdd (s : EngineState) (sb : Sub) : Except PyErr Order × EngineState :=
  add_order s sb.now sb.user_id sb.symbol sb.side .limit sb.quantity (some sb.price) none

/-- Submit each order in turn, collecting the (assigned id, owner) pairs. -/
def submitAll : EngineState → List Sub → EngineState × List (Nat × Nat)
  | s, [] => (s, [])
  | s, sb :: rest =>
    let i := s.next_order_id
    let s1 := (subAdd s sb).2
    let (s2, ids) := submitAll s1 rest
    (s2, (i, sb.user_id) :: ids)

/-- Cancel each listed order in turn, collecting the results. -/
def cancelAll : EngineState → List (Nat × Nat) → List (Except PyErr Order) × EngineState
  | s, [] => ([], s)
  | s, iu :: rest =>
    let (r, s1) := cancel_order s 0 iu.1 iu.2
    let (rs, s2) := cancelAll s1 rest
    (r :: rs, s2)

/-- Submit a batch of LIMIT orders, then cancel all of them (most recent
first). -/
def roundTrip (s : EngineState) (subs : List Sub) :
    List (Except PyErr Order) × EngineState :=
  let (s1, ids) := submitAll s subs
  cancelAll s1 ids.reverse

instance {ε α : Type} [DecidableEq ε] [DecidableEq α] : DecidableEq (Except ε α)
  | .ok a, .ok b =>
    if h : a = b then isTrue (by rw [h]) else isFalse (by simp [h])
  | .ok _, .error _ => isFalse (by simp)
  | .error _, .ok _ => isFalse (by simp)
  | .error e, .error f =>
    if h : e = f then isTrue (by rw [h]) else isFalse (by simp [h])

/-- `sb` does not cross the book at `s`: the matching-order collection that
`add_order` runs for it comes back empty. -/
def NoCross (s : EngineState) (sb : Sub) : Prop :=
  getMatchingOrdersWithPrice s sb.symbol (opposite sb.side) sb.quantity
    (some sb.price) sb.side = .ok []

instance (s : EngineState) (sb : Sub) : Decidable (NoCross s sb) := by
  unfold NoCross; infer_instance

/-- Every submission of the batch is non-crossing at the state where it is
admitted. -/
def NcRun : EngineState → List Sub → Prop
  | _, [] => True
  | s, sb :: rest => NoCross s sb ∧ NcRun (subAdd s sb).2 rest

instance instDecNcRun : (s : EngineState) → (l : List Sub) → Decidable (NcRun s l)
  | _, [] => isTrue trivial
  | s, sb :: rest =>
    have : Decidable (NcRun (subAdd s sb).2 rest) := instDecNcRun _ rest
    inferInstanceAs (Decidable (NoCross s sb ∧ NcRun (subAdd s sb).2 rest))

/-- Registry wellformedness: these facts hold for every order stored by the
engine in any reachable state (ids are the registry keys and stay below the
counter; fills lie between 0 and the quantity; PENDING means unfilled and
PARTIAL means strictly between). -/
def WfReg (s : EngineState) : Prop :=
  1 ≤ s.next_order_id ∧
  (s.orders.map Prod.fst).Nodup ∧
  ∀ ko ∈ s.orders, ko.2.id = ko.1 ∧ ko.1 < s.next_order_id ∧
    0 < ko.2.quantity ∧ 0 ≤ ko.2.filled_quantity ∧
    ko.2.filled_quantity ≤ ko.2.quantity ∧
    (ko.2.status = .pending → ko.2.filled_quantity = 0) ∧
    (ko.2.status = .partFilled → ko.2.filled_quantity < ko.2.quantity)

instance (s : EngineState) : Decidable (WfReg s) := by
  unfold WfReg; infer_instance

/-- A resident id of a price level resolves in the registry to a live LIMIT
order of this symbol, side and price. -/
def residentOk (s : EngineState) (sym : String) (sd : OrderSide) (p : ℤ) (i : Nat) :
    Prop :=
  match lookupOrder s i with
  | none => False
  | some o => o.symbol = sym ∧ o.side = sd ∧ o.order_type = .limit ∧
      o.price = some p ∧ o.status ≠ .cancelled

instance (s : EngineState) (sym : String) (sd : OrderSide) (p : ℤ) (i : Nat) :
    Decidable (residentOk s sym sd p i) :=
  match hl : lookupOrder s i with
  | none => isFalse (by simp [residentOk, hl])
  | some o =>
    decidable_of_iff
      (o.symbol = sym ∧ o.side = sd ∧ o.order_type = .limit ∧
        o.price = some p ∧ o.status ≠ .cancelled)
      (by simp [residentOk, hl])

/-- Wellformedness of one price level (at key `pe.1`): the stored aggregates
are the length of the queue and the sum of FULL quantities of the resident
orders (which is what the source maintains), the queue is nonempty, and all
residents resolve correctly. -/
def LevelOk (s : EngineState) (sym : String) (sd : OrderSide)
    (pe : ℤ × OrderBookEntry) : Prop :=
  pe.2.price = pe.1 ∧ pe.1 ≠ 0 ∧ pe.2.orders ≠ [] ∧
  pe.2.order_count = (pe.2.orders.length : Int) ∧
  pe.2.total_quantity = levelQuantitySum s pe.2.orders ∧
  ∀ i ∈ pe.2.orders, residentOk s sym sd pe.1 i

instance (s : EngineState) (sym : String) (sd : OrderSide) (pe : ℤ × OrderBookEntry) :
    Decidable (LevelOk s sym sd pe) := by
  unfold LevelOk; infer_instance

/-- Wellformedness of one book side: distinct price keys, globally distinct
resident ids, every level wellformed. -/
def SideOk (s : EngineState) (sym : String) (sd : OrderSide) : Prop :=
  ((getLevels s sym sd).map Prod.fst).Nodup ∧
  (cmap (fun pe => pe.2.orders) (getLevels s sym sd)).Nodup ∧
  ∀ pe ∈ getLevels s sym sd, LevelOk s sym sd pe

instance (s : EngineState) (sym : String) (sd : OrderSide) : Decidable (SideOk s sym sd) := by
  unfold SideOk; infer_instance

/-- Wellformedness of all book sides. -/
def WfLevels (s : EngineState) : Prop :=
  ∀ sl ∈ s.price_levels, SideOk s sl.1 .buy ∧ SideOk s sl.1 .sell

instance (s : EngineState) : Decidable (WfLevels s) := by
  unfold WfLevels; infer_instance

/-- Every heap entry's price is a key of the corresponding level table. -/
def HeapSubAt (s : EngineState) (sym : String) (sd : OrderSide) : Prop :=
  ∀ e ∈ getHeap s sym sd, e.2 ∈ (getLevels s sym sd).map Prod.fst

instance (s : EngineState) (sym : String) (sd : OrderSide) : Decidable (HeapSubAt s sym sd) := by
  unfold HeapSubAt; infer_instance

/-- Heap wellformedness on every symbol that has a heap slot. -/
def WfHeapSub (s : EngineState) : Prop :=
  ∀ hb ∈ s.order_books, HeapSubAt s hb.1 .buy ∧ HeapSubAt s hb.1 .sell

instance (s : EngineState) : Decidable (WfHeapSub s) := by
  unfold WfHeapSub; infer_instance

/-- A concrete book used to exercise the MARKET path: one resting LIMIT SELL
of quantity 1 at price 30000 on BTC/USD. -/
def c3State : EngineState :=
  (add_order initState 1 1 "BTC/USD" .sell .limit 1 (some 30000) none).2

/-- The order object that `add_order` builds for a LIMIT submission `sb`. -/
def subOrder (s : EngineState) (sb : Sub) : Order :=
  { id := s.next_order_id, user_id := sb.user_id, symbol := sb.symbol,
    side := sb.side, order_type := .limit, quantity := sb.quantity,
    filled_quantity := 0, price := some sb.price, stop_price := none,
    status := .pending, created_at := sb.now, updated_at := sb.now }

/-- A book with three resting LIMIT SELL orders on symbol H, whose ask heap
array is `[(10,10),(30,30),(20,20)]`. -/
def c8Base : EngineState :=
  (add_order (add_order (add_order initState 0 1 "H" .sell .limit 1 (some 10) none).2
    0 1 "H" .sell .limit 1 (some 30) none).2 0 1 "H" .sell .limit 1 (some 20) none).2

/-- All trade objects stored across symbols, in table order. -/
def tradePool (s : EngineState) : List Trade :=
  cmap (fun st => st.2) s.trades

/-- The ids of all stored trades. -/
def allTradeIds (s : EngineState) : List Nat :=
  (tradePool s).map (fun t => t.id)

/-- The identifier discipline of the engine: both counters stay positive;
registry keys are strictly increasing in insertion order, positive, and below
`next_order_id`; each symbol's trade list has strictly increasing ids; every
stored trade id is positive and below `next_trade_id`; and no trade id occurs
twice anywhere. -/
def IdInv (s : EngineState) : Prop :=
  1 ≤ s.next_order_id ∧ 1 ≤ s.next_trade_id ∧
  (s.orders.map Prod.fst).Pairwise (· < ·) ∧
  (∀ k ∈ s.orders.map Prod.fst, 1 ≤ k ∧ k < s.next_order_id) ∧
  (∀ st ∈ s.trades, (st.2.map (fun t => t.id)).Pairwise (· < ·)) ∧
  (∀ t ∈ tradePool s, 1 ≤ t.id ∧ t.id < s.next_trade_id) ∧
  (allTradeIds s).Nodup

/-- Scenario S3's book: two LIMIT SELL orders of quantity 1 at the same price
30000, admitted at t=0 (user 1, id 1) and t=1 (user 2, id 2). -/
def c4State : EngineState :=
  (add_order (add_order initState 0 1 "BTC/USD" .sell .limit 1 (some 30000) none).2
    1 2 "BTC/USD" .sell .limit 1 (some 30000) none).2

/-! ### Association-list lemmas -/

theorem alistGet_alistSet_self {α β : Type} [DecidableEq α]
    (l : List (α × β)) (k : α) (v : β) : alistGet (alistSet l k v) k = some v := by
  induction l with
  | nil => simp [alistGet, alistSet]
  | cons kv rest ih =>
    by_cases h : kv.1 = k
    · simp [alistGet, alistSet, h]
    · simp [alistGet, alistSet, h, ih]

theorem alistGet_alistSet_ne {α β : Type} [DecidableEq α]
    (l : List (α × β)) (k k' : α) (v : β) (hne : k' ≠ k) :
    alistGet (alistSet l k v) k' = alistGet l k' := by
  induction l with
  | nil => simp [alistGet, alistSet, hne, Ne.symm hne]
  | cons kv rest ih =>
    by_cases h : kv.1 = k
    · simp [alistGet, alistSet, h, hne, Ne.symm hne]
    · by_cases h2 : kv.1 = k'
      · simp [alistGet, alistSet, h, h2, hne, Ne.symm hne]
      · simp [alistGet, alistSet, h, h2, hne, Ne.symm hne, ih]

theorem alistGet_eq_none_iff {α β : Type} [DecidableEq α]
    (l : List (α × β)) (k : α) :
    alistGet l k = none ↔ k ∉ l.map Prod.fst := by
  induction l with
  | nil => simp [alistGet]
  | cons kv rest ih =>
    by_cases h : kv.1 = k
    · simp [alistGet, h]
    · simp [alistGet, h, ih, Ne.symm h]

theorem alistGet_isSome_of_mem_keys {α β : Type} [DecidableEq α]
    {l : List (α × β)} {k : α} (h : k ∈ l.map Prod.fst) :
    ∃ v, alistGet l k = some v := by
  rcases hg : alistGet l k with _ | v
  · exact absurd ((alistGet_eq_none_iff l k).1 hg) (by simp [h])
  · exact ⟨v, rfl⟩

theorem alistGet_some_mem {α β : Type} [DecidableEq α]
    {l : List (α × β)} {k : α} {v : β} (h : alistGet l k = some v) :
    (k, v) ∈ l := by
  induction l with
  | nil => simp [alistGet] at h
  | cons kv rest ih =>
    by_cases hk : kv.1 = k
    · rw [alistGet, if_pos hk] at h
      cases h
      obtain ⟨a, b⟩ := kv
      cases hk
      exact List.mem_cons_self _ _
    · rw [alistGet, if_neg hk] at h
      exact List.mem_cons_of_mem _ (ih h)

theorem mem_keys_of_alistGet_some {α β : Type} [DecidableEq α]
    {l : List (α × β)} {k : α} {v : β} (h : alistGet l k = some v) :
    k ∈ l.map Prod.fst := by
  have := alistGet_some_mem h
  exact List.mem_map.2 ⟨(k, v), this, rfl⟩

theorem alistSet_of_none {α β : Type} [DecidableEq α]
    {l : List (α × β)} {k : α} (v : β) (h : alistGet l k = none) :
    alistSet l k v = l ++ [(k, v)] := by
  induction l with
  | nil => simp [alistSet]
  | cons kv rest ih =>
    by_cases hk : kv.1 = k
    · rw [alistGet, if_pos hk] at h
      cases h
    · rw [alistGet, if_neg hk] at h
      simp [alistSet, hk, ih h]

theorem alistSet_self {α β : Type} [DecidableEq α]
    {l : List (α × β)} {k : α} {v : β} (h : alistGet l k = some v) :
    alistSet l k v = l := by
  induction l with
  | nil => simp [alistGet] at h
  | cons kv rest ih =>
    by_cases hk : kv.1 = k
    · rw [alistGet, if_pos hk] at h
      cases h
      cases kv
      simp_all [alistSet]
    · rw [alistGet, if_neg hk] at h
      simp [alistSet, hk, ih h]

theorem alistSet_map_fst_of_some {α β : Type} [DecidableEq α]
    {l : List (α × β)} {k : α} {w : β} (v : β) (h : alistGet l k = some w) :
    (alistSet l k v).map Prod.fst = l.map Prod.fst := by
  induction l with
  | nil => simp [alistGet] at h
  | cons kv rest ih =>
    by_cases hk : kv.1 = k
    · simp [alistSet, hk]
    · rw [alistGet, if_neg hk] at h
      simp [alistSet, hk, ih h]

theorem alistDel_of_not_mem {α β : Type} [DecidableEq α]
    {l : List (α × β)} {k : α} (h : k ∉ l.map Prod.fst) :
    alistDel l k = l := by
  apply List.filter_eq_self.2
  intro kv hkv
  have hne : kv.1 ≠ k := fun hh => h (List.mem_map.2 ⟨kv, hkv, hh⟩)
  simpa using hne

theorem alistDel_append_fresh {α β : Type} [DecidableEq α]
    {l : List (α × β)} {k : α} (v : β) (h : k ∉ l.map Prod.fst) :
    alistDel (l ++ [(k, v)]) k = l := by
  unfold alistDel
  rw [List.filter_append]
  have h1 : List.filter (fun kv => decide (kv.1 ≠ k)) [(k, v)] = [] := by simp
  rw [h1, List.append_nil]
  exact alistDel_of_not_mem h

/-! ### `cmap` lemmas -/

theorem cmap_append {α β : Type} (f : α → List β) (l1 l2 : List α) :
    cmap f (l1 ++ l2) = cmap f l1 ++ cmap f l2 := by
  induction l1 with
  | nil => rfl
  | cons x xs ih => simp [cmap, ih]

theorem sublist_cmap_of_mem {α β : Type} (f : α → List β) {l : List α} {x : α}
    (h : x ∈ l) {u : List β} (hu : u.Sublist (f x)) : u.Sublist (cmap f l) := by
  induction h with
  | head as =>
    show u.Sublist (f x ++ cmap f as)
    exact hu.trans (List.sublist_append_left _ _)
  | tail b _ ih =>
    show u.Sublist (f b ++ _)
    exact ih.trans (List.sublist_append_right _ _)

theorem sublist_cmap_of_sublist {α β : Type} (f : α → List β) {l1 l2 : List α}
    (h : l1.Sublist l2) : (cmap f l1).Sublist (cmap f l2) := by
  induction h with
  | slnil => exact List.Sublist.refl _
  | cons a _ ih =>
    show (cmap f _).Sublist (f a ++ cmap f _)
    exact ih.trans (List.sublist_append_right _ _)
  | cons₂ a _ ih =>
    show (f a ++ cmap f _).Sublist (f a ++ cmap f _)
    exact List.Sublist.append (List.Sublist.refl _) ih

/-! ### Stable-sort lemmas -/

theorem sInsert_perm {α : Type} (lt : α → α → Bool) (x : α) (l : List α) :
    (sInsert lt x l).Perm (x :: l) := by
  induction l with
  | nil => exact List.Perm.refl _
  | cons y ys ih =>
    unfold sInsert
    by_cases h : lt y x
    · simp only [if_pos h]
      exact (ih.cons y).trans (List.Perm.swap x y ys)
    · simp only [if_neg h]
      exact List.Perm.refl _

theorem stableSort_perm {α : Type} (lt : α → α → Bool) (l : List α) :
    (stableSort lt l).Perm l := by
  induction l with
  | nil => exact List.Perm.refl _
  | cons x xs ih =>
    exact (sInsert_perm lt x (stableSort lt xs)).trans (ih.cons x)

theorem sublist_sInsert {α : Type} (lt : α → α → Bool) (a : α) {u v : List α}
    (h : u.Sublist v) : u.Sublist (sInsert lt a v) := by
  induction v generalizing u with
  | nil =>
    cases List.sublist_nil.1 h
    exact List.nil_sublist _
  | cons z v ih =>
    unfold sInsert
    by_cases hz : lt z a
    · simp only [if_pos hz]
      cases h with
      | cons _ h1 => exact (ih h1).cons z
      | cons₂ _ h1 => exact (ih h1).cons₂ z
    · simp only [if_neg hz]
      exact h.cons a

theorem sInsert_keeps {α : Type} (lt : α → α → Bool) (x : α) {y : α}
    (hyx : lt y x = false) : ∀ {v : List α}, [y].Sublist v →
    [x, y].Sublist (sInsert lt x v) := by
  intro v
  induction v with
  | nil => intro h; cases List.sublist_nil.1 h
  | cons z v ih =>
    intro h
    unfold sInsert
    by_cases hz : lt z x
    · simp only [if_pos hz]
      cases h with
      | cons _ h1 => exact (ih h1).cons z
      | cons₂ _ h1 =>
        rw [hyx] at hz
        cases hz
    · simp only [if_neg hz]
      exact (h.cons₂ x)

theorem stableSort_pair {α : Type} (lt : α → α → Bool) {l : List α} {x y : α}
    (h : [x, y].Sublist l) (hyx : lt y x = false) :
    [x, y].Sublist (stableSort lt l) := by
  induction l with
  | nil => cases List.sublist_nil.1 h
  | cons z l ih =>
    cases h with
    | cons _ h1 =>
      exact sublist_sInsert lt z (ih h1)
    | cons₂ _ h1 =>
      have hy : y ∈ stableSort lt l :=
        ((stableSort_perm lt l).mem_iff).2 (List.singleton_sublist.1 h1)
      exact sInsert_keeps lt x hyx (List.singleton_sublist.2 hy)

/-! ### Heap permutation lemmas -/

theorem getD_set_ne {α : Type} (d : α) (l : List α) {i j : Nat} (h : i ≠ j) (b : α) :
    (l.set j b).getD i d = l.getD i d := by
  induction l generalizing i j with
  | nil => simp
  | cons a l ih =>
    cases j with
    | zero =>
      cases i with
      | zero => exact absurd rfl h
      | succ i => simp [List.getD]
    | succ j =>
      cases i with
      | zero => simp [List.getD]
      | succ i =>
        simp only [List.set, List.getD_cons_succ]
        exact ih (fun hh => h (congrArg Nat.succ hh))

theorem set_getD_self {α : Type} (d : α) (l : List α) (i : Nat) (h : i < l.length) :
    l.set i (l.getD i d) = l := by
  induction l generalizing i with
  | nil => simp at h
  | cons a l ih =>
    cases i with
    | zero => simp [List.getD]
    | succ i =>
      simp only [List.getD_cons_succ, List.set]
      rw [ih i (by simpa using h)]

theorem perm_cons_set {α : Type} : ∀ (l : List α) (j : Nat), j < l.length →
    ∀ a b : α, (a :: l.set j b).Perm (b :: l.set j a)
  | [], j, h, _, _ => by simp at h
  | x :: l, 0, _, a, b => by
    simp only [List.set]
    exact List.Perm.swap b a l
  | x :: l, j + 1, h, a, b => by
    simp only [List.set]
    refine (List.Perm.swap x a (l.set j b)).trans ?_
    refine (((perm_cons_set l j (by simpa using h) a b)).cons x).trans ?_
    exact List.Perm.swap b x (l.set j a)

theorem perm_set_pair {α : Type} : ∀ (l : List α) (i j : Nat), i < l.length →
    j < l.length → i ≠ j → ∀ a b : α,
    ((l.set i a).set j b).Perm ((l.set i b).set j a)
  | [], i, _, hi, _, _, _, _ => by simp at hi
  | x :: l, 0, 0, _, _, hij, _, _ => absurd rfl hij
  | x :: l, 0, j + 1, _, hj, _, a, b => by
    simp only [List.set]
    exact perm_cons_set l j (by simpa using hj) a b
  | x :: l, i + 1, 0, hi, _, _, a, b => by
    simp only [List.set]
    exact perm_cons_set l i (by simpa using hi) b a
  | x :: l, i + 1, j + 1, hi, hj, hij, a, b => by
    simp only [List.set]
    exact (perm_set_pair l i j (by simpa using hi) (by simpa using hj)
      (fun hh => hij (congrArg Nat.succ hh)) a b).cons x

theorem siftdownAux_length (newitem : HeapEntry) (startpos : Nat) :
    ∀ (fuel : Nat) (heap : List HeapEntry) (pos : Nat),
    (siftdownAux newitem startpos fuel heap pos).length = heap.length := by
  intro fuel
  induction fuel with
  | zero => intro heap pos; simp [siftdownAux]
  | succ fuel ih =>
    intro heap pos
    unfold siftdownAux
    by_cases h1 : startpos < pos
    · simp only [if_pos h1]
      by_cases h2 : entryLt newitem (heap.getD ((pos - 1) / 2) default)
      · simp only [if_pos h2, ih, List.length_set]
      · simp only [if_neg h2, List.length_set]
    · simp only [if_neg h1, List.length_set]

theorem siftdownAux_perm (newitem : HeapEntry) (startpos : Nat) :
    ∀ (fuel : Nat) (heap : List HeapEntry) (pos : Nat), pos < heap.length →
    (siftdownAux newitem startpos fuel heap pos).Perm (heap.set pos newitem) := by
  intro fuel
  induction fuel with
  | zero => intro heap pos _; exact List.Perm.refl _
  | succ fuel ih =>
    intro heap pos hpos
    unfold siftdownAux
    by_cases h1 : startpos < pos
    · simp only [if_pos h1]
      by_cases h2 : entryLt newitem (heap.getD ((pos - 1) / 2) default)
      · simp only [if_pos h2]
        have hpp : (pos - 1) / 2 < pos := by omega
        have hlen : (pos - 1) / 2 < (heap.set pos (heap.getD ((pos - 1) / 2) default)).length := by
          rw [List.length_set]; omega
        refine (ih _ _ hlen).trans ?_
        refine (perm_set_pair heap pos ((pos - 1) / 2) hpos (by omega)
          (by omega) (heap.getD ((pos - 1) / 2) default) newitem).trans ?_
        have hgd : heap.getD ((pos - 1) / 2) default
            = (heap.set pos newitem).getD ((pos - 1) / 2) default :=
          (getD_set_ne _ _ (by omega) _).symm
        rw [hgd, set_getD_self _ _ _ (by rw [List.length_set]; omega)]
      · simp only [if_neg h2]
        exact List.Perm.refl _
    · simp only [if_neg h1]
      exact List.Perm.refl _

theorem siftupAux_length (newitem : HeapEntry) (startpos : Nat) :
    ∀ (fuel : Nat) (heap : List HeapEntry) (pos : Nat),
    (siftupAux newitem startpos fuel heap pos).length = heap.length := by
  intro fuel
  induction fuel with
  | zero => intro heap pos; simp [siftupAux, siftdownAux_length, List.length_set]
  | succ fuel ih =>
    intro heap pos
    unfold siftupAux
    by_cases h1 : 2 * pos + 1 < heap.length
    · simp only [if_pos h1]
      by_cases h2 : 2 * pos + 2 < heap.length ∧
          ¬ entryLt (heap.getD (2 * pos + 1) default) (heap.getD (2 * pos + 2) default)
      · simp only [if_pos h2, ih, List.length_set]
      · simp only [if_neg h2, ih, List.length_set]
    · simp only [if_neg h1, siftdownAux_length, List.length_set]

theorem siftupAux_perm (newitem : HeapEntry) (startpos : Nat) :
    ∀ (fuel : Nat) (heap : List HeapEntry) (pos : Nat), pos < heap.length →
    (siftupAux newitem startpos fuel heap pos).Perm (heap.set pos newitem) := by
  intro fuel
  induction fuel with
  | zero =>
    intro heap pos hpos
    show (siftdownAux newitem startpos pos _ pos).Perm _
    refine (siftdownAux_perm newitem startpos pos _ pos
      (by rw [List.length_set]; exact hpos)).trans ?_
    rw [List.set_set]
  | succ fuel ih =>
    intro heap pos hpos
    unfold siftupAux
    by_cases h1 : 2 * pos + 1 < heap.length
    · simp only [if_pos h1]
      by_cases h2 : 2 * pos + 2 < heap.length ∧
          ¬ entryLt (heap.getD (2 * pos + 1) default) (heap.getD (2 * pos + 2) default)
      · simp only [if_pos h2]
        refine ((ih _ _ (by rw [List.length_set]; exact h2.1)).trans ?_)
        refine (perm_set_pair heap pos (2 * pos + 2) hpos h2.1 (by omega)
          (heap.getD (2 * pos + 2) default) newitem).trans ?_
        have hgd : heap.getD (2 * pos + 2) default
            = (heap.set pos newitem).getD (2 * pos + 2) default :=
          (getD_set_ne _ _ (by omega) _).symm
        rw [hgd, set_getD_self _ _ _ (by rw [List.length_set]; exact h2.1)]
      · simp only [if_neg h2]
        refine ((ih _ _ (by rw [List.length_set]; exact h1)).trans ?_)
        refine (perm_set_pair heap pos (2 * pos + 1) hpos h1 (by omega)
          (heap.getD (2 * pos + 1) default) newitem).trans ?_
        have hgd : heap.getD (2 * pos + 1) default
            = (heap.set pos newitem).getD (2 * pos + 1) default :=
          (getD_set_ne _ _ (by omega) _).symm
        rw [hgd, set_getD_self _ _ _ (by rw [List.length_set]; exact h1)]
    · simp only [if_neg h1]
      refine (siftdownAux_perm newitem startpos pos _ pos
        (by rw [List.length_set]; exact hpos)).trans ?_
      rw [List.set_set]

theorem siftup_perm (heap : List HeapEntry) (pos : Nat) (h : pos < heap.length) :
    (siftup heap pos).Perm heap := by
  refine (siftupAux_perm _ _ _ _ _ h).trans ?_
  rw [set_getD_self _ _ _ h]

theorem siftup_length (heap : List HeapEntry) (pos : Nat) :
    (siftup heap pos).length = heap.length :=
  siftupAux_length _ _ _ _ _

theorem heapifyAux_perm : ∀ (n : Nat) (heap : List HeapEntry), n ≤ heap.length →
    (heapifyAux heap n).Perm heap
  | 0, _, _ => List.Perm.refl _
  | n + 1, heap, h => by
    show (heapifyAux (siftup heap n) n).Perm heap
    refine (heapifyAux_perm n (siftup heap n) ?_).trans (siftup_perm heap n (by omega))
    rw [siftup_length]
    omega

theorem heapify_perm (heap : List HeapEntry) : (heapify heap).Perm heap :=
  heapifyAux_perm _ _ (Nat.div_le_self _ _)

theorem getD_append_length {α : Type} (d : α) (l : List α) (a : α) :
    (l ++ [a]).getD l.length d = a := by
  induction l with
  | nil => rfl
  | cons x l _ => simp [List.getD]

theorem set_append_length {α : Type} (l : List α) (a b : α) :
    (l ++ [a]).set l.length b = l ++ [b] := by
  induction l with
  | nil => rfl
  | cons x l ih => simp [List.set, ih]

theorem heappush_perm (heap : List HeapEntry) (item : HeapEntry) :
    (heappush heap item).Perm (item :: heap) := by
  unfold heappush siftdown
  refine (siftdownAux_perm _ _ _ _ _ (by simp)).trans ?_
  rw [getD_append_length, set_append_length]
  have h1 : (heap ++ item :: []).Perm (item :: (heap ++ [])) := List.perm_middle
  simp only [List.append_nil] at h1
  exact h1

/-! ### State accessor lemmas -/

@[simp] theorem setLevels_orders (s : EngineState) (sym : String) (sd : OrderSide)
    (lv : List (ℤ × OrderBookEntry)) : (setLevels s sym sd lv).orders = s.orders := by
  cases sd <;> rfl

@[simp] theorem setLevels_trades (s : EngineState) (sym : String) (sd : OrderSide)
    (lv : List (ℤ × OrderBookEntry)) : (setLevels s sym sd lv).trades = s.trades := by
  cases sd <;> rfl

@[simp] theorem setLevels_next_order_id (s : EngineState) (sym : String) (sd : OrderSide)
    (lv : List (ℤ × OrderBookEntry)) : (setLevels s sym sd lv).next_order_id = s.next_order_id := by
  cases sd <;> rfl

@[simp] theorem setLevels_next_trade_id (s : EngineState) (sym : String) (sd : OrderSide)
    (lv : List (ℤ × OrderBookEntry)) : (setLevels s sym sd lv).next_trade_id = s.next_trade_id := by
  cases sd <;> rfl

@[simp] theorem setLevels_order_books (s : EngineState) (sym : String) (sd : OrderSide)
    (lv : List (ℤ × OrderBookEntry)) : (setLevels s sym sd lv).order_books = s.order_books := by
  cases sd <;> rfl

@[simp] theorem setHeap_orders (s : EngineState) (sym : String) (sd : OrderSide)
    (h : List HeapEntry) : (setHeap s sym sd h).orders = s.orders := by
  cases sd <;> rfl

@[simp] theorem setHeap_trades (s : EngineState) (sym : String) (sd : OrderSide)
    (h : List HeapEntry) : (setHeap s sym sd h).trades = s.trades := by
  cases sd <;> rfl

@[simp] theorem setHeap_next_order_id (s : EngineState) (sym : String) (sd : OrderSide)
    (h : List HeapEntry) : (setHeap s sym sd h).next_order_id = s.next_order_id := by
  cases sd <;> rfl

@[simp] theorem setHeap_next_trade_id (s : EngineState) (sym : String) (sd : OrderSide)
    (h : List HeapEntry) : (setHeap s sym sd h).next_trade_id = s.next_trade_id := by
  cases sd <;> rfl

@[simp] theorem setHeap_price_levels (s : EngineState) (sym : String) (sd : OrderSide)
    (h : List HeapEntry) : (setHeap s sym sd h).price_levels = s.price_levels := by
  cases sd <;> rfl

@[simp] theorem updateOrder_price_levels (s : EngineState) (i : Nat) (o : Order) :
    (updateOrder s i o).price_levels = s.price_levels := rfl

@[simp] theorem updateOrder_order_books (s : EngineState) (i : Nat) (o : Order) :
    (updateOrder s i o).order_books = s.order_books := rfl

@[simp] theorem updateOrder_trades (s : EngineState) (i : Nat) (o : Order) :
    (updateOrder s i o).trades = s.trades := rfl

@[simp] theorem updateOrder_next_order_id (s : EngineState) (i : Nat) (o : Order) :
    (updateOrder s i o).next_order_id = s.next_order_id := rfl

@[simp] theorem updateOrder_next_trade_id (s : EngineState) (i : Nat) (o : Order) :
    (updateOrder s i o).next_trade_id = s.next_trade_id := rfl

theorem getLevels_eq (s1 s2 : EngineState) (h : s1.price_levels = s2.price_levels)
    (sym : String) (sd : OrderSide) : getLevels s1 sym sd = getLevels s2 sym sd := by
  unfold getLevels
  rw [h]

theorem getHeap_eq (s1 s2 : EngineState) (h : s1.order_books = s2.order_books)
    (sym : String) (sd : OrderSide) : getHeap s1 sym sd = getHeap s2 sym sd := by
  unfold getHeap
  rw [h]

theorem tradesOf_eq (s1 s2 : EngineState) (h : s1.trades = s2.trades)
    (sym : String) : tradesOf s1 sym = tradesOf s2 sym := by
  unfold tradesOf
  rw [h]

theorem getLevels_setLevels_same (s : EngineState) (sym : String) (sd : OrderSide)
    (lv : List (ℤ × OrderBookEntry)) : getLevels (setLevels s sym sd lv) sym sd = lv := by
  cases sd <;> simp [getLevels, setLevels, alistGet_alistSet_self]

theorem getLevels_setLevels_ne (s : EngineState) (sym sym' : String) (sd sd' : OrderSide)
    (lv : List (ℤ × OrderBookEntry)) (h : sym' ≠ sym ∨ sd' ≠ sd) :
    getLevels (setLevels s sym sd lv) sym' sd' = getLevels s sym' sd' := by
  by_cases hsym : sym' = sym
  · subst hsym
    have hsd : sd' ≠ sd := by
      rcases h with h | h
      · exact absurd rfl h
      · exact h
    rcases hal : alistGet s.price_levels sym' with _ | sl <;>
      cases sd <;> cases sd' <;>
        first
        | exact absurd rfl hsd
        | simp [getLevels, setLevels, alistGet_alistSet_self, hal]
  · cases sd <;> cases sd' <;>
      simp [getLevels, setLevels, alistGet_alistSet_ne _ _ _ _ hsym]

theorem getHeap_setHeap_same (s : EngineState) (sym : String) (sd : OrderSide)
    (hp : List HeapEntry) : getHeap (setHeap s sym sd hp) sym sd = hp := by
  cases sd <;> simp [getHeap, setHeap, alistGet_alistSet_self]

theorem getHeap_setHeap_ne (s : EngineState) (sym sym' : String) (sd sd' : OrderSide)
    (hp : List HeapEntry) (h : sym' ≠ sym ∨ sd' ≠ sd) :
    getHeap (setHeap s sym sd hp) sym' sd' = getHeap s sym' sd' := by
  by_cases hsym : sym' = sym
  · subst hsym
    have hsd : sd' ≠ sd := by
      rcases h with h | h
      · exact absurd rfl h
      · exact h
    rcases hal : alistGet s.order_books sym' with _ | sl <;>
      cases sd <;> cases sd' <;>
        first
        | exact absurd rfl hsd
        | simp [getHeap, setHeap, alistGet_alistSet_self, hal]
  · cases sd <;> cases sd' <;>
      simp [getHeap, setHeap, alistGet_alistSet_ne _ _ _ _ hsym]

@[simp] theorem getLevels_setHeap (s : EngineState) (sym0 : String) (sd0 : OrderSide)
    (h : List HeapEntry) (sym : String) (sd : OrderSide) :
    getLevels (setHeap s sym0 sd0 h) sym sd = getLevels s sym sd :=
  getLevels_eq _ _ (setHeap_price_levels _ _ _ _) _ _

@[simp] theorem getLevels_updateOrder (s : EngineState) (i : Nat) (o : Order)
    (sym : String) (sd : OrderSide) :
    getLevels (updateOrder s i o) sym sd = getLevels s sym sd := rfl

@[simp] theorem getHeap_setLevels (s : EngineState) (sym0 : String) (sd0 : OrderSide)
    (lv : List (ℤ × OrderBookEntry)) (sym : String) (sd : OrderSide) :
    getHeap (setLevels s sym0 sd0 lv) sym sd = getHeap s sym sd :=
  getHeap_eq _ _ (setLevels_order_books _ _ _ _) _ _

@[simp] theorem getHeap_updateOrder (s : EngineState) (i : Nat) (o : Order)
    (sym : String) (sd : OrderSide) :
    getHeap (updateOrder s i o) sym sd = getHeap s sym sd := rfl

@[simp] theorem tradesOf_setLevels (s : EngineState) (sym0 : String) (sd0 : OrderSide)
    (lv : List (ℤ × OrderBookEntry)) (sym : String) :
    tradesOf (setLevels s sym0 sd0 lv) sym = tradesOf s sym :=
  tradesOf_eq _ _ (setLevels_trades _ _ _ _) _

@[simp] theorem tradesOf_setHeap (s : EngineState) (sym0 : String) (sd0 : OrderSide)
    (h : List HeapEntry) (sym : String) :
    tradesOf (setHeap s sym0 sd0 h) sym = tradesOf s sym :=
  tradesOf_eq _ _ (setHeap_trades _ _ _ _) _

@[simp] theorem tradesOf_updateOrder (s : EngineState) (i : Nat) (o : Order)
    (sym : String) : tradesOf (updateOrder s i o) sym = tradesOf s sym := rfl

theorem lookupOrder_updateOrder_self (s : EngineState) (i : Nat) (o : Order) :
    lookupOrder (updateOrder s i o) i = some o :=
  alistGet_alistSet_self _ _ _

theorem lookupOrder_updateOrder_ne (s : EngineState) (i j : Nat) (o : Order)
    (h : j ≠ i) : lookupOrder (updateOrder s i o) j = lookupOrder s j :=
  alistGet_alistSet_ne _ _ _ _ h

/-! ### Frame lemmas for the book mutators -/

theorem removeFromOrderBook_orders (s : EngineState) (o : Order) :
    (removeFromOrderBook s o).orders = s.orders := by
  unfold removeFromOrderBook
  rcases hp : o.price with _ | p
  · simp [hp]
  · simp only [hp]
    rcases hal : alistGet (getLevels s o.symbol o.side) p with _ | entry
    · simp [hal]
    · simp only [hal]
      split <;> simp

theorem removeFromOrderBook_trades (s : EngineState) (o : Order) :
    (removeFromOrderBook s o).trades = s.trades := by
  unfold removeFromOrderBook
  rcases hp : o.price with _ | p
  · simp [hp]
  · simp only [hp]
    rcases hal : alistGet (getLevels s o.symbol o.side) p with _ | entry
    · simp [hal]
    · simp only [hal]
      split <;> simp

theorem removeFromOrderBook_next_order_id (s : EngineState) (o : Order) :
    (removeFromOrderBook s o).next_order_id = s.next_order_id := by
  unfold removeFromOrderBook
  rcases hp : o.price with _ | p
  · simp [hp]
  · simp only [hp]
    rcases hal : alistGet (getLevels s o.symbol o.side) p with _ | entry
    · simp [hal]
    · simp only [hal]
      split <;> simp

theorem removeFromOrderBook_next_trade_id (s : EngineState) (o : Order) :
    (removeFromOrderBook s o).next_trade_id = s.next_trade_id := by
  unfold removeFromOrderBook
  rcases hp : o.price with _ | p
  · simp [hp]
  · simp only [hp]
    rcases hal : alistGet (getLevels s o.symbol o.side) p with _ | entry
    · simp [hal]
    · simp only [hal]
      split <;> simp

theorem addToOrderBook_orders (s : EngineState) (o : Order) (p : ℤ) :
    (addToOrderBook s o p).orders = s.orders := by
  unfold addToOrderBook
  rcases hal : alistGet (getLevels s o.symbol o.side) p with _ | entry <;> simp [hal]

theorem addToOrderBook_trades (s : EngineState) (o : Order) (p : ℤ) :
    (addToOrderBook s o p).trades = s.trades := by
  unfold addToOrderBook
  rcases hal : alistGet (getLevels s o.symbol o.side) p with _ | entry <;> simp [hal]

theorem addToOrderBook_next_order_id (s : EngineState) (o : Order) (p : ℤ) :
    (addToOrderBook s o p).next_order_id = s.next_order_id := by
  unfold addToOrderBook
  rcases hal : alistGet (getLevels s o.symbol o.side) p with _ | entry <;> simp [hal]

theorem addToOrderBook_next_trade_id (s : EngineState) (o : Order) (p : ℤ) :
    (addToOrderBook s o p).next_trade_id = s.next_trade_id := by
  unfold addToOrderBook
  rcases hal : alistGet (getLevels s o.symbol o.side) p with _ | entry <;> simp [hal]

attribute [simp] removeFromOrderBook_orders removeFromOrderBook_trades
  removeFromOrderBook_next_order_id removeFromOrderBook_next_trade_id
  addToOrderBook_orders addToOrderBook_trades addToOrderBook_next_order_id
  addToOrderBook_next_trade_id

@[simp] theorem updateOrder_orders (s : EngineState) (i : Nat) (o : Order) :
    (updateOrder s i o).orders = alistSet s.orders i o := rfl

/-! ### `tradeStep` lemmas -/

theorem tradeStep_remaining (now : Nat) (sym : String) (oside : OrderSide)
    (s : EngineState) (ocur : Order) (remaining : ℤ) (mid : Nat) (m : Order) :
    (tradeStep now sym oside s ocur remaining mid m).2.2
      = remaining - tqOf remaining m := by
  unfold tradeStep tqOf
  dsimp only

theorem tradeStep_ocur (now : Nat) (sym : String) (oside : OrderSide)
    (s : EngineState) (ocur : Order) (remaining : ℤ) (mid : Nat) (m : Order) :
    (tradeStep now sym oside s ocur remaining mid m).2.1
      = tsOcur now ocur remaining m := by
  unfold tradeStep tsOcur tqOf
  dsimp only

theorem tradeStep_next_order_id (now : Nat) (sym : String) (oside : OrderSide)
    (s : EngineState) (ocur : Order) (remaining : ℤ) (mid : Nat) (m : Order) :
    (tradeStep now sym oside s ocur remaining mid m).1.next_order_id
      = s.next_order_id := by
  unfold tradeStep
  dsimp only
  split <;> (try split) <;> simp

theorem tradeStep_next_trade_id (now : Nat) (sym : String) (oside : OrderSide)
    (s : EngineState) (ocur : Order) (remaining : ℤ) (mid : Nat) (m : Order) :
    (tradeStep now sym oside s ocur remaining mid m).1.next_trade_id
      = s.next_trade_id + 1 := by
  unfold tradeStep
  dsimp only
  split <;> (try split) <;> simp

theorem tradeStep_trades (now : Nat) (sym : String) (oside : OrderSide)
    (s : EngineState) (ocur : Order) (remaining : ℤ) (mid : Nat) (m : Order) :
    (tradeStep now sym oside s ocur remaining mid m).1.trades
      = alistSet s.trades sym
          (tradesOf s sym ++ [tsTrade now sym oside s ocur remaining m]) := by
  unfold tradeStep tsTrade tqOf
  dsimp only
  split <;> (try split) <;> simp

theorem tradeStep_lookup_ocur (now : Nat) (sym : String) (oside : OrderSide)
    (s : EngineState) (ocur : Order) (remaining : ℤ) (mid : Nat) (m : Order)
    (hne : mid ≠ ocur.id) :
    lookupOrder (tradeStep now sym oside s ocur remaining mid m).1 ocur.id
      = some (tsOcur now ocur remaining m) := by
  have hne' : ocur.id ≠ mid := Ne.symm hne
  unfold tradeStep tsOcur tqOf lookupOrder
  dsimp only
  split <;> (try split) <;>
    simp [alistGet_alistSet_self, alistGet_alistSet_ne _ _ _ _ hne']

theorem tradeStep_lookup_mid (now : Nat) (sym : String) (oside : OrderSide)
    (s : EngineState) (ocur : Order) (remaining : ℤ) (mid : Nat) (m : Order) :
    lookupOrder (tradeStep now sym oside s ocur remaining mid m).1 mid
      = some (tsMatch now remaining m) := by
  unfold tradeStep tsMatch tqOf lookupOrder
  dsimp only
  split <;> (try split) <;>
    simp [alistGet_alistSet_self]

theorem tradeStep_lookup_other (now : Nat) (sym : String) (oside : OrderSide)
    (s : EngineState) (ocur : Order) (remaining : ℤ) (mid : Nat) (m : Order)
    (j : Nat) (hj1 : j ≠ mid) (hj2 : j ≠ ocur.id) :
    lookupOrder (tradeStep now sym oside s ocur remaining mid m).1 j
      = lookupOrder s j := by
  unfold tradeStep lookupOrder
  dsimp only
  split <;> (try split) <;>
    simp [alistGet_alistSet_ne _ _ _ _ hj1, alistGet_alistSet_ne _ _ _ _ hj2]

theorem alistSet_keys_of_mem {α β : Type} [DecidableEq α]
    {l : List (α × β)} {k : α} (v : β) (h : k ∈ l.map Prod.fst) :
    (alistSet l k v).map Prod.fst = l.map Prod.fst := by
  obtain ⟨w, hw⟩ := alistGet_isSome_of_mem_keys h
  exact alistSet_map_fst_of_some v hw

theorem tradeStep_orders_map_fst (now : Nat) (sym : String) (oside : OrderSide)
    (s : EngineState) (ocur : Order) (remaining : ℤ) (mid : Nat) (m : Order)
    (hocur : ocur.id ∈ s.orders.map Prod.fst)
    (hmid : mid ∈ s.orders.map Prod.fst) :
    (tradeStep now sym oside s ocur remaining mid m).1.orders.map Prod.fst
      = s.orders.map Prod.fst := by
  have key : ∀ (l : List (Nat × Order)) (v1 v2 v3 v4 v5 v6 : Order),
      ocur.id ∈ l.map Prod.fst → mid ∈ l.map Prod.fst →
      (alistSet (alistSet (alistSet (alistSet (alistSet (alistSet l
        ocur.id v1) mid v2) ocur.id v3) mid v4) ocur.id v5) mid v6).map Prod.fst
        = l.map Prod.fst := by
    intro l v1 v2 v3 v4 v5 v6 h1 h2
    have e1 := alistSet_keys_of_mem v1 h1
    have h1a : ocur.id ∈ (alistSet l ocur.id v1).map Prod.fst := by rw [e1]; exact h1
    have h2a : mid ∈ (alistSet l ocur.id v1).map Prod.fst := by rw [e1]; exact h2
    have e2 := alistSet_keys_of_mem v2 h2a
    have h1b : ocur.id ∈ (alistSet (alistSet l ocur.id v1) mid v2).map Prod.fst := by
      rw [e2]; exact h1a
    have h2b : mid ∈ (alistSet (alistSet l ocur.id v1) mid v2).map Prod.fst := by
      rw [e2]; exact h2a
    have e3 := alistSet_keys_of_mem v3 h1b
    have h1c : ocur.id ∈ (alistSet (alistSet (alistSet l ocur.id v1) mid v2)
        ocur.id v3).map Prod.fst := by rw [e3]; exact h1b
    have h2c : mid ∈ (alistSet (alistSet (alistSet l ocur.id v1) mid v2)
        ocur.id v3).map Prod.fst := by rw [e3]; exact h2b
    have e4 := alistSet_keys_of_mem v4 h2c
    have h1d : ocur.id ∈ (alistSet (alistSet (alistSet (alistSet l ocur.id v1)
        mid v2) ocur.id v3) mid v4).map Prod.fst := by rw [e4]; exact h1c
    have h2d : mid ∈ (alistSet (alistSet (alistSet (alistSet l ocur.id v1)
        mid v2) ocur.id v3) mid v4).map Prod.fst := by rw [e4]; exact h2c
    have e5 := alistSet_keys_of_mem v5 h1d
    have h2e : mid ∈ (alistSet (alistSet (alistSet (alistSet (alistSet l
        ocur.id v1) mid v2) ocur.id v3) mid v4) ocur.id v5).map Prod.fst := by
      rw [e5]; exact h2d
    have e6 := alistSet_keys_of_mem v6 h2e
    rw [e6, e5, e4, e3, e2, e1]
  unfold tradeStep
  dsimp only
  split <;> (try split) <;>
    (simp only [updateOrder_orders, removeFromOrderBook_orders]
     exact key _ _ _ _ _ _ _ hocur hmid)

/-! ### The trade-execution loop specification -/

theorem min_split (r a S : ℤ) (hr : 0 < r) (ha : 0 < a) (hS : 0 ≤ S) :
    min r a + min (r - min r a) S = min r (a + S) := by
  rcases le_total r a with h | h
  · have e1 : min r a = r := min_eq_left h
    have e2 : min r (a + S) = r := min_eq_left (by omega)
    rw [e1, e2, sub_self, min_eq_left hS]
    omega
  · have e1 : min r a = a := min_eq_right h
    rw [e1]
    rcases le_total (r - a) S with h2 | h2
    · rw [min_eq_left h2, min_eq_left (show r ≤ a + S by omega)]
      omega
    · rw [min_eq_right h2, min_eq_right (show a + S ≤ r by omega)]

theorem availSum_nonneg (s : EngineState) (ms : List Nat)
    (h : ∀ i ∈ ms, 0 < availOf s i) : 0 ≤ availSum s ms := by
  unfold availSum
  apply List.sum_nonneg
  intro x hx
  obtain ⟨i, hi, rfl⟩ := List.mem_map.1 hx
  exact le_of_lt (h i hi)

/-- Full behaviour of the execution loop on the incoming order: the loop
fills `min r S` where `S` is the total available quantity of the matching
orders, the status ends FILLED or PARTIAL according to whether the demand was
covered, and the registry entry of the incoming order tracks the returned
object. -/
theorem execTrades_spec (now : Nat) (sym : String) (oside : OrderSide) :
    ∀ (ms : List Nat) (s : EngineState) (ocur : Order) (r : ℤ),
    ocur.id ∉ ms →
    ms.Nodup →
    (∀ i ∈ ms, 0 < availOf s i) →
    lookupOrder s ocur.id = some ocur →
    r = ocur.quantity - ocur.filled_quantity →
    0 ≤ r →
    (execTrades now sym oside s ocur r ms).2.1.filled_quantity
        = ocur.filled_quantity + min r (availSum s ms) ∧
    (execTrades now sym oside s ocur r ms).2.1.quantity = ocur.quantity ∧
    (execTrades now sym oside s ocur r ms).2.1.id = ocur.id ∧
    (execTrades now sym oside s ocur r ms).2.1.status
        = (if 0 < r ∧ ms ≠ [] then
            (if r ≤ availSum s ms then OrderStatus.filled else OrderStatus.partFilled)
          else ocur.status) ∧
    lookupOrder (execTrades now sym oside s ocur r ms).1 ocur.id
        = some (execTrades now sym oside s ocur r ms).2.1 := by
  intro ms
  induction ms with
  | nil =>
    intro s ocur r _ _ _ hlook hr hr0
    refine ⟨?_, rfl, rfl, ?_, hlook⟩
    · show ocur.filled_quantity = ocur.filled_quantity + min r (availSum s [])
      have : availSum s [] = 0 := rfl
      rw [this, min_eq_right hr0]
      omega
    · show ocur.status = if 0 < r ∧ ([] : List Nat) ≠ [] then _ else ocur.status
      rw [if_neg (by simp)]
  | cons mid rest ih =>
    intro s ocur r hnotin hnodup havail hlook hr hr0
    have hmid_avail : 0 < availOf s mid := havail mid (by simp)
    obtain ⟨m, hm⟩ : ∃ m, lookupOrder s mid = some m := by
      rcases hl : lookupOrder s mid with _ | m
      · exfalso
        unfold availOf at hmid_avail
        rw [hl] at hmid_avail
        simp at hmid_avail
      · exact ⟨m, rfl⟩
    have ha : 0 < m.quantity - m.filled_quantity := by
      unfold availOf at hmid_avail
      rw [hm] at hmid_avail
      exact hmid_avail
    have hne : mid ≠ ocur.id := by
      intro hh
      apply hnotin
      rw [← hh]
      exact List.mem_cons_self _ _
    have hnotin' : ocur.id ∉ rest := fun hh => hnotin (List.mem_cons_of_mem _ hh)
    have hnodup' : rest.Nodup := (List.nodup_cons.1 hnodup).2
    have hmid_notin : mid ∉ rest := (List.nodup_cons.1 hnodup).1
    by_cases hrpos : 0 < r
    · -- the iteration executes
      have hstep : execTrades now sym oside s ocur r (mid :: rest)
          = execTrades now sym oside
              (tradeStep now sym oside s ocur r mid m).1
              (tradeStep now sym oside s ocur r mid m).2.1
              (tradeStep now sym oside s ocur r mid m).2.2 rest := by
        show (if r ≤ 0 then (s, ocur, r) else _) = _
        rw [if_neg (by omega), hm]
      set s1 := (tradeStep now sym oside s ocur r mid m).1 with hs1
      have hocur1 : (tradeStep now sym oside s ocur r mid m).2.1
          = tsOcur now ocur r m := tradeStep_ocur _ _ _ _ _ _ _ _
      have hr1 : (tradeStep now sym oside s ocur r mid m).2.2
          = r - tqOf r m := tradeStep_remaining _ _ _ _ _ _ _ _
      have htq_le_r : tqOf r m ≤ r := min_le_left _ _
      have htq_le_a : tqOf r m ≤ m.quantity - m.filled_quantity := min_le_right _ _
      have htq_pos : 0 < tqOf r m := lt_min hrpos ha
      -- facts about the stepped incoming order
      have hocur1_id : (tsOcur now ocur r m).id = ocur.id := by
        unfold tsOcur
        dsimp only
        split <;> rfl
      have hocur1_q : (tsOcur now ocur r m).quantity = ocur.quantity := by
        unfold tsOcur
        dsimp only
        split <;> rfl
      have hocur1_f : (tsOcur now ocur r m).filled_quantity
          = ocur.filled_quantity + tqOf r m := by
        unfold tsOcur
        dsimp only
        split <;> rfl
      have hlook1 : lookupOrder s1 ocur.id = some (tsOcur now ocur r m) :=
        tradeStep_lookup_ocur _ _ _ _ _ _ _ _ hne
      have hlookrest : ∀ i ∈ rest, lookupOrder s1 i = lookupOrder s i := by
        intro i hi
        exact tradeStep_lookup_other _ _ _ _ _ _ _ _ i
          (fun hh => hmid_notin (hh ▸ hi))
          (fun hh => hnotin' (hh ▸ hi))
      have havail1 : ∀ i ∈ rest, 0 < availOf s1 i := by
        intro i hi
        have : availOf s1 i = availOf s i := by
          unfold availOf
          rw [hlookrest i hi]
        rw [this]
        exact havail i (List.mem_cons_of_mem _ hi)
      have havailSum1 : availSum s1 rest = availSum s rest := by
        unfold availSum
        congr 1
        exact List.map_congr_left (fun i hi => by
          unfold availOf
          rw [hlookrest i hi])
      have hinv1 : (tradeStep now sym oside s ocur r mid m).2.2
          = (tsOcur now ocur r m).quantity - (tsOcur now ocur r m).filled_quantity := by
        rw [hr1, hocur1_q, hocur1_f]
        omega
      have hr10 : 0 ≤ (tradeStep now sym oside s ocur r mid m).2.2 := by
        rw [hr1]
        have : tqOf r m ≤ r := htq_le_r
        omega
      have hIH := ih s1 (tsOcur now ocur r m)
        ((tradeStep now sym oside s ocur r mid m).2.2)
        (by rw [hocur1_id]; exact hnotin')
        hnodup' havail1 (by rw [hocur1_id]; exact hlook1)
        hinv1 hr10
      rw [hstep]
      rw [hocur1]
      obtain ⟨ihf, ihq, ihid, ihst, ihlook⟩ := hIH
      have hS' : 0 ≤ availSum s rest :=
        availSum_nonneg s rest (fun i hi => havail i (List.mem_cons_of_mem _ hi))
      have hsum_cons : availSum s (mid :: rest)
          = (m.quantity - m.filled_quantity) + availSum s rest := by
        unfold availSum availOf
        simp [hm]
      have hminsplit : tqOf r m + min (r - tqOf r m) (availSum s rest)
          = min r (availSum s (mid :: rest)) := by
        rw [hsum_cons]
        exact min_split r (m.quantity - m.filled_quantity) (availSum s rest)
          hrpos ha hS'
      refine ⟨?_, ?_, ?_, ?_, ?_⟩
      · rw [ihf, havailSum1, hocur1_f, hr1]
        rw [show ocur.filled_quantity + tqOf r m
              + min (r - tqOf r m) (availSum s rest)
            = ocur.filled_quantity
              + (tqOf r m + min (r - tqOf r m) (availSum s rest)) by ring]
        rw [hminsplit]
      · rw [ihq, hocur1_q]
      · rw [ihid, hocur1_id]
      · rw [ihst, havailSum1, hr1]
        have hconsne : (mid :: rest : List Nat) ≠ [] := by simp
        have hchoice : tqOf r m = r ∨ tqOf r m = m.quantity - m.filled_quantity := by
          unfold tqOf
          exact min_choice _ _
        by_cases hrest : rest = []
        · subst hrest
          have hS0 : availSum s ([] : List Nat) = 0 := rfl
          have hc1 : ¬ (0 < r - tqOf r m ∧ ([] : List Nat) ≠ []) := by simp
          rw [if_neg hc1]
          have hc2 : 0 < r ∧ (mid :: ([] : List Nat)) ≠ [] := ⟨hrpos, by simp⟩
          rw [if_pos hc2]
          unfold tsOcur
          dsimp only
          by_cases hfull : r ≤ m.quantity - m.filled_quantity
          · have htq : tqOf r m = r := by
              unfold tqOf
              exact min_eq_left hfull
            have hc3 : ocur.quantity ≤ ocur.filled_quantity + tqOf r m := by
              rw [htq]; omega
            rw [if_pos hc3]
            have hc4 : r ≤ availSum s (mid :: ([] : List Nat)) := by
              rw [hsum_cons, hS0]; omega
            rw [if_pos hc4]
          · push_neg at hfull
            have htq : tqOf r m = m.quantity - m.filled_quantity := by
              unfold tqOf
              exact min_eq_right (le_of_lt hfull)
            have hc3 : ¬ ocur.quantity ≤ ocur.filled_quantity + tqOf r m := by
              rw [htq]; omega
            rw [if_neg hc3]
            have hc4 : ¬ r ≤ availSum s (mid :: ([] : List Nat)) := by
              rw [hsum_cons, hS0]; omega
            rw [if_neg hc4]
        · by_cases hr1pos : 0 < r - tqOf r m
          · have hc1 : 0 < r - tqOf r m ∧ rest ≠ [] := ⟨hr1pos, hrest⟩
            rw [if_pos hc1]
            have hc2 : 0 < r ∧ (mid :: rest : List Nat) ≠ [] := ⟨hrpos, hconsne⟩
            rw [if_pos hc2]
            have htq : tqOf r m = m.quantity - m.filled_quantity := by
              rcases hchoice with h | h
              · omega
              · exact h
            have hiff : (r - tqOf r m ≤ availSum s rest)
                ↔ (r ≤ availSum s (mid :: rest)) := by
              rw [hsum_cons]
              constructor <;> intro <;> omega
            exact if_congr hiff rfl rfl
          · have hc1 : ¬ (0 < r - tqOf r m ∧ rest ≠ []) := fun hh => hr1pos hh.1
            rw [if_neg hc1]
            have hc2 : 0 < r ∧ (mid :: rest : List Nat) ≠ [] := ⟨hrpos, hconsne⟩
            rw [if_pos hc2]
            push_neg at hr1pos
            have hra : r ≤ m.quantity - m.filled_quantity := by
              have := htq_le_a
              omega
            have htq : tqOf r m = r := by
              unfold tqOf
              exact min_eq_left hra
            unfold tsOcur
            dsimp only
            have hc3 : ocur.quantity ≤ ocur.filled_quantity + tqOf r m := by
              rw [htq]; omega
            rw [if_pos hc3]
            have hc4 : r ≤ availSum s (mid :: rest) := by
              rw [hsum_cons]
              omega
            rw [if_pos hc4]
      · rw [← hocur1_id]
        exact ihlook
    · -- remaining ≤ 0: the loop breaks immediately
      have hr00 : r = 0 := by omega
      have hstep : execTrades now sym oside s ocur r (mid :: rest) = (s, ocur, r) := by
        show (if r ≤ 0 then (s, ocur, r) else _) = _
        rw [if_pos (by omega)]
      rw [hstep]
      have hS : 0 ≤ availSum s (mid :: rest) := availSum_nonneg s _ havail
      refine ⟨?_, rfl, rfl, ?_, hlook⟩
      · show ocur.filled_quantity
            = ocur.filled_quantity + min r (availSum s (mid :: rest))
        rw [hr00, min_eq_left hS]
        omega
      · rw [if_neg (by intro hh; omega)]

/-! ### More list lemmas -/

theorem mem_cmap {α β : Type} (f : α → List β) (l : List α) (x : β) :
    x ∈ cmap f l ↔ ∃ a ∈ l, x ∈ f a := by
  induction l with
  | nil => simp [cmap]
  | cons y ys ih =>
    show x ∈ f y ++ cmap f ys ↔ _
    simp [ih]

theorem map_cmap {α β γ : Type} (g : β → γ) (f : α → List β) (l : List α) :
    (cmap f l).map g = cmap (fun a => (f a).map g) l := by
  induction l with
  | nil => rfl
  | cons y ys ih =>
    show (f y ++ cmap f ys).map g = _
    simp [ih]
    rfl

theorem cmap_congr {α β : Type} {f g : α → List β} {l : List α}
    (h : ∀ a ∈ l, f a = g a) : cmap f l = cmap g l := by
  induction l with
  | nil => rfl
  | cons y ys ih =>
    show f y ++ cmap f ys = g y ++ cmap g ys
    rw [h y (by simp), ih (fun a ha => h a (List.mem_cons_of_mem _ ha))]

theorem cmap_sublist_mono {α β : Type} {f g : α → List β} {l : List α}
    (h : ∀ a ∈ l, (f a).Sublist (g a)) : (cmap f l).Sublist (cmap g l) := by
  induction l with
  | nil => exact List.Sublist.refl _
  | cons y ys ih =>
    show (f y ++ cmap f ys).Sublist (g y ++ cmap g ys)
    exact List.Sublist.append (h y (by simp))
      (ih (fun a ha => h a (List.mem_cons_of_mem _ ha)))

theorem mem_alistSet {α β : Type} [DecidableEq α] {l : List (α × β)} {k : α}
    {v : β} {x : α × β} (h : x ∈ alistSet l k v) : x ∈ l ∨ x = (k, v) := by
  induction l with
  | nil => simpa [alistSet] using h
  | cons kv rest ih =>
    by_cases hk : kv.1 = k
    · rw [alistSet, if_pos hk] at h
      rcases List.mem_cons.1 h with h | h
      · exact Or.inr h
      · exact Or.inl (List.mem_cons_of_mem _ h)
    · rw [alistSet, if_neg hk] at h
      rcases List.mem_cons.1 h with h | h
      · exact Or.inl (by rw [h]; exact List.mem_cons_self _ _)
      · rcases ih h with h | h
        · exact Or.inl (List.mem_cons_of_mem _ h)
        · exact Or.inr h

/-! ### The matching loop only shrinks the book -/

theorem levelsSub_refl (X : EngineState) : LevelsSub X X :=
  fun _ _ pe hpe => ⟨pe, hpe, fun _ hx => hx⟩

theorem levelsSub_of_eq (X Y : EngineState) (h : X.price_levels = Y.price_levels) :
    LevelsSub X Y := by
  intro sym sd pe hpe
  rw [getLevels_eq X Y h] at hpe
  exact ⟨pe, hpe, fun _ hx => hx⟩

theorem levelsSub_trans {X Y Z : EngineState} (h1 : LevelsSub X Y)
    (h2 : LevelsSub Y Z) : LevelsSub X Z := by
  intro sym sd pe hpe
  obtain ⟨pe0, hpe0, hsub0⟩ := h1 sym sd pe hpe
  obtain ⟨pe1, hpe1, hsub1⟩ := h2 sym sd pe0 hpe0
  exact ⟨pe1, hpe1, fun x hx => hsub1 (hsub0 hx)⟩

theorem removeFromOrderBook_levelsSub (s : EngineState) (o : Order) :
    LevelsSub (removeFromOrderBook s o) s := by
  unfold removeFromOrderBook
  rcases hp : o.price with _ | p
  · exact levelsSub_refl s
  · dsimp only
    rcases hal : alistGet (getLevels s o.symbol o.side) p with _ | entry
    · exact levelsSub_refl s
    · dsimp only
      split
      · -- the level is deleted
        intro sym sd pe hpe
        rw [getLevels_setHeap] at hpe
        by_cases hslot : sym = o.symbol ∧ sd = o.side
        · obtain ⟨h1, h2⟩ := hslot
          subst h1
          subst h2
          rw [getLevels_setLevels_same] at hpe
          exact ⟨pe, List.mem_of_mem_filter hpe, fun _ hx => hx⟩
        · rw [getLevels_setLevels_ne _ _ _ _ _ _ (by tauto)] at hpe
          exact ⟨pe, hpe, fun _ hx => hx⟩
      · -- the level is updated in place
        intro sym sd pe hpe
        by_cases hslot : sym = o.symbol ∧ sd = o.side
        · obtain ⟨h1, h2⟩ := hslot
          subst h1
          subst h2
          rw [getLevels_setLevels_same] at hpe
          rcases mem_alistSet hpe with h | h
          · exact ⟨pe, h, fun _ hx => hx⟩
          · refine ⟨(p, entry), alistGet_some_mem hal, ?_⟩
            rw [h]
            exact fun x hx => List.mem_of_mem_filter hx
        · rw [getLevels_setLevels_ne _ _ _ _ _ _ (by tauto)] at hpe
          exact ⟨pe, hpe, fun _ hx => hx⟩

theorem levelsSub_updateOrder {Y : EngineState} (s : EngineState) (i : Nat)
    (o : Order) (h : LevelsSub s Y) : LevelsSub (updateOrder s i o) Y :=
  levelsSub_trans (levelsSub_of_eq _ _ rfl) h

theorem tradeStep_levelsSub (now : Nat) (sym : String) (oside : OrderSide)
    (s : EngineState) (ocur : Order) (remaining : ℤ) (mid : Nat) (m : Order) :
    LevelsSub (tradeStep now sym oside s ocur remaining mid m).1 s := by
  unfold tradeStep
  dsimp only
  split
  · split
    · exact levelsSub_updateOrder _ _ _ (levelsSub_updateOrder _ _ _
        (levelsSub_trans (removeFromOrderBook_levelsSub _ _)
          (levelsSub_of_eq _ _ rfl)))
    · exact levelsSub_of_eq _ _ rfl
  · exact levelsSub_of_eq _ _ rfl

theorem execTrades_levelsSub (now : Nat) (sym : String) (oside : OrderSide) :
    ∀ (ms : List Nat) (s : EngineState) (ocur : Order) (r : ℤ),
    LevelsSub (execTrades now sym oside s ocur r ms).1 s := by
  intro ms
  induction ms with
  | nil => intro s ocur r; exact levelsSub_refl s
  | cons mid rest ih =>
    intro s ocur r
    show LevelsSub (if r ≤ 0 then (s, ocur, r) else _).1 s
    split
    · exact levelsSub_refl s
    · rcases hm : lookupOrder s mid with _ | m
      · exact ih s ocur r
      · exact levelsSub_trans (ih _ _ _) (tradeStep_levelsSub _ _ _ _ _ _ _ _)

theorem notResident_of_levelsSub {X Y : EngineState} (h : LevelsSub X Y) (i : Nat)
    (hY : ∀ sym sd pe, pe ∈ getLevels Y sym sd → i ∉ pe.2.orders) :
    ∀ sym sd pe, pe ∈ getLevels X sym sd → i ∉ pe.2.orders := by
  intro sym sd pe hpe hin
  obtain ⟨pe0, hpe0, hsub⟩ := h sym sd pe hpe
  exact hY sym sd pe0 hpe0 (hsub hin)

/-! ### Wellformedness extraction -/

theorem filterMap_congr_own {α β : Type} {f g : α → Option β} :
    ∀ {l : List α}, (∀ a ∈ l, f a = g a) → l.filterMap f = l.filterMap g := by
  intro l
  induction l with
  | nil => intro _; rfl
  | cons x xs ih =>
    intro h
    rw [List.filterMap_cons, List.filterMap_cons, h x (by simp),
      ih (fun a ha => h a (List.mem_cons_of_mem _ ha))]

theorem sideOk_of_wf {s : EngineState} (h : WfLevels s) (sym : String)
    (sd : OrderSide) : SideOk s sym sd := by
  rcases hal : alistGet s.price_levels sym with _ | sl
  · refine ⟨?_, ?_, ?_⟩ <;>
      (unfold getLevels
       rw [hal]) <;> simp [cmap]
  · have hmem : (sym, sl) ∈ s.price_levels := alistGet_some_mem hal
    cases sd
    · exact (h _ hmem).1
    · exact (h _ hmem).2

/-- Every resident id of a wellformed state resolves to a live LIMIT order of
the level's symbol, side and price, stored under its own id below the
counter. -/
theorem resident_facts {s : EngineState} (hwfR : WfReg s) (hwfL : WfLevels s) :
    ∀ sym' sd' pe, pe ∈ getLevels s sym' sd' → ∀ j ∈ pe.2.orders,
    ∃ w, lookupOrder s j = some w ∧ w.id = j ∧ j < s.next_order_id ∧
      w.symbol = sym' ∧ w.side = sd' ∧ w.order_type = .limit ∧
      w.price = some pe.1 := by
  intro sym' sd' pe hpe j hj
  have hside := sideOk_of_wf hwfL sym' sd'
  have hlok := hside.2.2 pe hpe
  have hro := hlok.2.2.2.2.2 j hj
  unfold residentOk at hro
  rcases hl : lookupOrder s j with _ | w
  · rw [hl] at hro
    exact hro.elim
  · rw [hl] at hro
    have hmem := alistGet_some_mem hl
    have hw := hwfR.2.2 _ hmem
    exact ⟨w, rfl, hw.1, hw.2.1, hro.1, hro.2.1, hro.2.2.1, hro.2.2.2.1⟩

/-- An eligible resident of a wellformed state has strictly positive
remaining quantity. -/
theorem eligible_resident_avail {s : EngineState} (hwfR : WfReg s)
    {j : Nat} {w : Order} (hl : lookupOrder s j = some w)
    (hst : w.status = .pending ∨ w.status = .partFilled) :
    0 < w.quantity - w.filled_quantity := by
  have hko := hwfR.2.2 _ (alistGet_some_mem hl)
  rcases hst with hst | hst
  · have h1 : w.filled_quantity = 0 := hko.2.2.2.2.2.1 hst
    have h2 : 0 < w.quantity := hko.2.2.1
    omega
  · have h1 : w.filled_quantity < w.quantity := hko.2.2.2.2.2.2 hst
    omega

/-- An order produced by the eligibility filter is the registry entry of its
key, lives under its own id (in a wellformed registry) and satisfies the
filter's conditions. -/
theorem eligible_id {s : EngineState} (hwfR : WfReg s) {i : Nat} {w : Order}
    (he : eligible s i = some w) :
    w.id = i ∧ lookupOrder s i = some w ∧
    (w.status = .pending ∨ w.status = .partFilled) ∧ w.order_type = .limit := by
  unfold eligible at he
  rcases hl : lookupOrder s i with _ | w0
  · rw [hl] at he
    cases he
  · rw [hl] at he
    dsimp only at he
    by_cases hc : (w0.status = .pending ∨ w0.status = .partFilled) ∧
        w0.order_type = .limit
    · rw [if_pos hc] at he
      cases he
      have hid : w.id = i := (hwfR.2.2 _ (alistGet_some_mem hl)).1
      exact ⟨hid, rfl, hc.1, hc.2⟩
    · rw [if_neg hc] at he
      cases he

/-- With a present limit price the level loop never raises: it returns the
eligible residents of exactly the levels passing the price guard, in book
order. -/
theorem gatherLevels_some (s : EngineState) (p : ℤ) (oside2 : OrderSide) :
    ∀ lv : List (ℤ × OrderBookEntry),
    gatherLevels s (some p) oside2 lv
      = .ok (cmap (fun pe => if keepLevel p oside2 pe.1
          then pe.2.orders.filterMap (eligible s) else []) lv) := by
  intro lv
  induction lv with
  | nil => rfl
  | cons pe rest ih =>
    obtain ⟨lp, e⟩ := pe
    show gatherLevels s (some p) oside2 ((lp, e) :: rest) = _
    unfold gatherLevels
    rw [ih]
    by_cases hk : keepLevel p oside2 lp = true
    · simp [cmap, hk]
    · simp [cmap, hk]

theorem mem_alistDel {α β : Type} [DecidableEq α] {l : List (α × β)} {k : α}
    {x : α × β} (h : x ∈ alistDel l k) : x ∈ l ∧ x.1 ≠ k := by
  unfold alistDel at h
  refine ⟨List.mem_of_mem_filter h, ?_⟩
  have h2 := List.of_mem_filter h
  simpa using h2

theorem mem_alistSet_nodup {α β : Type} [DecidableEq α] {l : List (α × β)} {k : α}
    {v : β} (hnd : (l.map Prod.fst).Nodup) {x : α × β} (h : x ∈ alistSet l k v) :
    x = (k, v) ∨ (x ∈ l ∧ x.1 ≠ k) := by
  induction l with
  | nil =>
    left
    simpa [alistSet] using h
  | cons kv rest ih =>
    rw [List.map_cons, List.nodup_cons] at hnd
    by_cases hk : kv.1 = k
    · rw [alistSet, if_pos hk] at h
      rcases List.mem_cons.1 h with h | h
      · exact Or.inl h
      · right
        refine ⟨List.mem_cons_of_mem _ h, fun hxk => ?_⟩
        exact hnd.1 (by rw [hk, ← hxk]; exact List.mem_map.2 ⟨x, h, rfl⟩)
    · rw [alistSet, if_neg hk] at h
      rcases List.mem_cons.1 h with h | h
      · right
        rw [h]
        exact ⟨List.mem_cons_self _ _, hk⟩
      · rcases ih hnd.2 h with h2 | h2
        · exact Or.inl h2
        · exact Or.inr ⟨List.mem_cons_of_mem _ h2.1, h2.2⟩

/-- In a wellformed state, the order stored under `oid` can be resident only
in the level of its own symbol, side and price; that level's key is nonzero
and the order is a LIMIT order. -/
theorem resident_only_at {s : EngineState} (hwfR : WfReg s) (hwfL : WfLevels s)
    {oid : Nat} {o : Order} (hl : lookupOrder s oid = some o) :
    ∀ sym sd pe, pe ∈ getLevels s sym sd → oid ∈ pe.2.orders →
      sym = o.symbol ∧ sd = o.side ∧ o.price = some pe.1 ∧
      o.order_type = .limit ∧ pe.1 ≠ 0 := by
  intro sym sd pe hpe hin
  obtain ⟨w, hlw, hwid, hwlt, hwsym, hwsd, hwot, hwp⟩ :=
    resident_facts hwfR hwfL sym sd pe hpe oid hin
  rw [hl] at hlw
  obtain rfl := Option.some.inj hlw
  have hne0 : pe.1 ≠ 0 := ((sideOk_of_wf hwfL sym sd).2.2 pe hpe).2.1
  exact ⟨hwsym.symm, hwsd.symm, hwp, hwot, hne0⟩

/-- After the book-removal step of a successful cancellation (registry entry
`oid` replaced by `o2`, then `_remove_from_order_book` run when `o2` is a
LIMIT order with a truthy price), the cancelled id is resident in no price
level. -/
theorem remove_clears (s : EngineState) (oid : Nat) (o o2 : Order)
    (hwfR : WfReg s) (hwfL : WfLevels s) (hl : lookupOrder s oid = some o)
    (hsym : o2.symbol = o.symbol) (hsd : o2.side = o.side)
    (hpr : o2.price = o.price) (hot : o2.order_type = o.order_type)
    (hid2 : o2.id = o.id) :
    ∀ sym sd pe,
      pe ∈ getLevels (if o2.order_type = .limit ∧ truthy o2.price = true
          then removeFromOrderBook (updateOrder s oid o2) o2
          else updateOrder s oid o2) sym sd →
      oid ∉ pe.2.orders := by
  intro sym sd pe hpe hin
  by_cases hA : o2.order_type = .limit ∧ truthy o2.price = true
  · rw [if_pos hA] at hpe
    rcases hp : o2.price with _ | p
    · have hA2 := hA.2
      rw [hp] at hA2
      simp [truthy] at hA2
    · have hop : o.price = some p := by rw [← hpr]; exact hp
      unfold removeFromOrderBook at hpe
      rw [hp] at hpe
      dsimp only at hpe
      rw [getLevels_updateOrder, hsym, hsd] at hpe
      rcases hg : alistGet (getLevels s o.symbol o.side) p with _ | entry
      · rw [hg] at hpe
        dsimp only at hpe
        rw [getLevels_updateOrder] at hpe
        obtain ⟨hsym2, hsd2, hp2, _, _⟩ := resident_only_at hwfR hwfL hl sym sd pe hpe hin
        have hpe1 : pe.1 = p := by
          rw [hop] at hp2
          exact (Option.some.inj hp2).symm
        have hmem : p ∈ (getLevels s o.symbol o.side).map Prod.fst := by
          rw [← hpe1, ← hsym2, ← hsd2]
          exact List.mem_map.2 ⟨pe, hpe, rfl⟩
        obtain ⟨v, hv⟩ := alistGet_isSome_of_mem_keys hmem
        rw [hg] at hv
        cases hv
      · rw [hg] at hpe
        dsimp only at hpe
        split at hpe
        · rw [getLevels_setHeap] at hpe
          by_cases hkey : sym = o.symbol ∧ sd = o.side
          · obtain ⟨rfl, rfl⟩ := hkey
            rw [getLevels_setLevels_same] at hpe
            obtain ⟨hmem2, hne⟩ := mem_alistDel hpe
            obtain ⟨_, _, hp2, _, _⟩ := resident_only_at hwfR hwfL hl _ _ pe hmem2 hin
            rw [hop] at hp2
            exact hne (Option.some.inj hp2).symm
          · have hor : sym ≠ o.symbol ∨ sd ≠ o.side := by
              by_cases h1 : sym = o.symbol
              · exact Or.inr (fun h2 => hkey ⟨h1, h2⟩)
              · exact Or.inl h1
            rw [getLevels_setLevels_ne _ _ _ _ _ _ hor, getLevels_updateOrder] at hpe
            obtain ⟨hsym2, hsd2, _, _, _⟩ := resident_only_at hwfR hwfL hl sym sd pe hpe hin
            rcases hor with h1 | h1
            · exact h1 hsym2
            · exact h1 hsd2
        · by_cases hkey : sym = o.symbol ∧ sd = o.side
          · obtain ⟨rfl, rfl⟩ := hkey
            rw [getLevels_setLevels_same] at hpe
            have hnd : ((getLevels s o.symbol o.side).map Prod.fst).Nodup :=
              (sideOk_of_wf hwfL o.symbol o.side).1
            rcases mem_alistSet_nodup hnd hpe with h2 | h2
            · rw [h2] at hin
              have h3 := List.of_mem_filter hin
              simp only [decide_eq_true_eq] at h3
              have hoid : o.id = oid := (hwfR.2.2 _ (alistGet_some_mem hl)).1
              exact h3 (by rw [hid2, hoid])
            · obtain ⟨_, _, hp2, _, _⟩ := resident_only_at hwfR hwfL hl _ _ pe h2.1 hin
              rw [hop] at hp2
              exact h2.2 (Option.some.inj hp2).symm
          · have hor : sym ≠ o.symbol ∨ sd ≠ o.side := by
              by_cases h1 : sym = o.symbol
              · exact Or.inr (fun h2 => hkey ⟨h1, h2⟩)
              · exact Or.inl h1
            rw [getLevels_setLevels_ne _ _ _ _ _ _ hor, getLevels_updateOrder] at hpe
            obtain ⟨hsym2, hsd2, _, _, _⟩ := resident_only_at hwfR hwfL hl sym sd pe hpe hin
            rcases hor with h1 | h1
            · exact h1 hsym2
            · exact h1 hsd2
  · rw [if_neg hA] at hpe
    rw [getLevels_updateOrder] at hpe
    obtain ⟨_, _, hp2, hot2, hne0⟩ := resident_only_at hwfR hwfL hl sym sd pe hpe hin
    apply hA
    refine ⟨by rw [hot]; exact hot2, ?_⟩
    rw [hpr, hp2]
    simp [truthy, hne0]

/-! ### Facts about the MARKET matching candidates -/

theorem market_gather_facts (s : EngineState) (o : Order)
    (hwfR : WfReg s) (hwfL : WfLevels s)
    (ho : o.id = s.next_order_id) (sym : String) (sd2 : OrderSide) (q : ℤ) :
    o.id ∉ getMatchingOrders (insertFresh s o) sym sd2 q ∧
    (getMatchingOrders (insertFresh s o) sym sd2 q).Nodup ∧
    (∀ i ∈ getMatchingOrders (insertFresh s o) sym sd2 q,
      0 < availOf (insertFresh s o) i) ∧
    availSum (insertFresh s o) (getMatchingOrders (insertFresh s o) sym sd2 q)
      = ((cmap (fun pe => pe.2.orders.filterMap (eligible s))
          (getLevels s sym sd2)).map availQ).sum := by
  set s1 : EngineState := insertFresh s o with hs1
  have hres := resident_facts hwfR hwfL
  have hlookup_eq : ∀ j, j < s.next_order_id → lookupOrder s1 j = lookupOrder s j := by
    intro j hj
    exact alistGet_alistSet_ne _ _ _ _ (by omega)
  have hlev1 : getLevels s1 sym sd2 = getLevels s sym sd2 := rfl
  set G := cmap (fun pe => pe.2.orders.filterMap (eligible s)) (getLevels s sym sd2)
    with hG
  have hgather_eq : cmap (fun pe => pe.2.orders.filterMap (eligible s1))
      (getLevels s1 sym sd2) = G := by
    rw [hlev1, hG]
    apply cmap_congr
    intro pe hpe
    apply filterMap_congr_own
    intro j hj
    obtain ⟨w, hl, hwid, hjlt, _⟩ := hres sym sd2 pe hpe j hj
    unfold eligible
    rw [hlookup_eq j hjlt]
  have hmemG : ∀ ord ∈ G, ∃ pe ∈ getLevels s sym sd2,
      ∃ j ∈ pe.2.orders, eligible s j = some ord := by
    intro ord hord
    rw [hG] at hord
    obtain ⟨pe, hpe, hord2⟩ := (mem_cmap _ _ _).1 hord
    obtain ⟨j, hj, he⟩ := List.mem_filterMap.1 hord2
    exact ⟨pe, hpe, j, hj, he⟩
  have hGfacts : ∀ ord ∈ G, lookupOrder s ord.id = some ord ∧
      ord.id < s.next_order_id ∧ 0 < ord.quantity - ord.filled_quantity := by
    intro ord hord
    obtain ⟨pe, hpe, j, hj, he⟩ := hmemG ord hord
    obtain ⟨w, hl, hwid, hjlt, _⟩ := hres sym sd2 pe hpe j hj
    unfold eligible at he
    rw [hl] at he
    dsimp only at he
    by_cases hc : (w.status = .pending ∨ w.status = .partFilled) ∧
        w.order_type = .limit
    · rw [if_pos hc] at he
      cases he
      refine ⟨?_, ?_, ?_⟩
      · rw [hwid]
        exact hl
      · rw [hwid]
        exact hjlt
      · exact eligible_resident_avail hwfR hl hc.1
    · rw [if_neg hc] at he
      cases he
  have hlookG : ∀ ord ∈ G, lookupOrder s1 ord.id = some ord := by
    intro ord hord
    rw [hlookup_eq _ (hGfacts ord hord).2.1]
    exact (hGfacts ord hord).1
  have hcands : getMatchingOrders s1 sym sd2 q
      = (if sd2 = .sell then stableSort ltAsc G else stableSort ltDesc G).map
          (fun x => x.id) := by
    unfold getMatchingOrders
    rw [hgather_eq]
  have hsorted_perm : (if sd2 = .sell then stableSort ltAsc G
      else stableSort ltDesc G).Perm G := by
    split
    · exact stableSort_perm _ _
    · exact stableSort_perm _ _
  have hmem_cands : ∀ i ∈ getMatchingOrders s1 sym sd2 q,
      ∃ ord ∈ G, ord.id = i := by
    intro i hi
    rw [hcands] at hi
    obtain ⟨ord, hord, hid⟩ := List.mem_map.1 hi
    exact ⟨ord, hsorted_perm.mem_iff.1 hord, hid⟩
  refine ⟨?_, ?_, ?_, ?_⟩
  · intro hin
    obtain ⟨ord, hord, hid⟩ := hmem_cands _ hin
    have := (hGfacts ord hord).2.1
    omega
  · rw [hcands]
    have hperm2 := hsorted_perm.map (fun x : Order => x.id)
    rw [hperm2.nodup_iff]
    have hmapG : G.map (fun x : Order => x.id)
        = cmap (fun pe => (pe.2.orders.filterMap (eligible s)).map
            (fun x : Order => x.id)) (getLevels s sym sd2) := by
      rw [hG]
      exact map_cmap _ _ _
    rw [hmapG]
    have hsub : (cmap (fun pe => (pe.2.orders.filterMap (eligible s)).map
        (fun x : Order => x.id)) (getLevels s sym sd2)).Sublist
        (cmap (fun pe => pe.2.orders) (getLevels s sym sd2)) := by
      apply cmap_sublist_mono
      intro pe hpe
      have hids : ∀ j ∈ pe.2.orders, ∀ ord, eligible s j = some ord → ord.id = j := by
        intro j hj ord he
        obtain ⟨w, hl, hwid, _⟩ := hres sym sd2 pe hpe j hj
        unfold eligible at he
        rw [hl] at he
        dsimp only at he
        by_cases hc : (w.status = .pending ∨ w.status = .partFilled) ∧
            w.order_type = .limit
        · rw [if_pos hc] at he
          cases he
          exact hwid
        · rw [if_neg hc] at he
          cases he
      have key : ∀ ids : List Nat,
          (∀ j ∈ ids, ∀ ord, eligible s j = some ord → ord.id = j) →
          ((ids.filterMap (eligible s)).map (fun x : Order => x.id)).Sublist ids := by
        intro ids
        induction ids with
        | nil => intro _; exact List.Sublist.refl _
        | cons j rest ih =>
          intro hids2
          have hids' : ∀ j2 ∈ rest, ∀ ord, eligible s j2 = some ord → ord.id = j2 :=
            fun j2 hj2 => hids2 j2 (List.mem_cons_of_mem _ hj2)
          rcases he : eligible s j with _ | ord
          · rw [List.filterMap_cons, he]
            exact (ih hids').cons j
          · rw [List.filterMap_cons, he, List.map_cons,
              hids2 j (List.mem_cons_self _ _) ord he]
            exact (ih hids').cons₂ j
      exact key pe.2.orders hids
    exact ((sideOk_of_wf hwfL sym sd2).2.1).sublist hsub
  · intro i hi
    obtain ⟨ord, hord, hid⟩ := hmem_cands i hi
    unfold availOf
    rw [← hid, hlookG ord hord]
    exact (hGfacts ord hord).2.2
  · rw [hcands]
    unfold availSum
    rw [List.map_map]
    have hpt : (if sd2 = .sell then stableSort ltAsc G
        else stableSort ltDesc G).map ((availOf s1) ∘ (fun x : Order => x.id))
        = (if sd2 = .sell then stableSort ltAsc G
        else stableSort ltDesc G).map availQ := by
      apply List.map_congr_left
      intro ord hord
      have hordG : ord ∈ G := hsorted_perm.mem_iff.1 hord
      show availOf s1 ord.id = availQ ord
      unfold availOf availQ
      rw [hlookG ord hordG]
    rw [hpt]
    exact (hsorted_perm.map availQ).sum_eq

/-! ### Structural description of `_add_to_order_book` -/

theorem opposite_ne (sd : OrderSide) : opposite sd ≠ sd := by
  cases sd <;> simp [opposite]

theorem addToOrderBook_levels_same (s : EngineState) (o : Order) (p : ℤ) :
    getLevels (addToOrderBook s o p) o.symbol o.side
      = (match alistGet (getLevels s o.symbol o.side) p with
         | none => alistSet (getLevels s o.symbol o.side) p
             ⟨p, o.quantity, 1, [o.id]⟩
         | some entry => alistSet (getLevels s o.symbol o.side) p
             ⟨entry.price, entry.total_quantity + o.quantity,
              entry.order_count + 1, entry.orders ++ [o.id]⟩) := by
  unfold addToOrderBook
  rcases hal : alistGet (getLevels s o.symbol o.side) p with _ | entry <;>
    dsimp only <;> rw [hal] <;> dsimp only
  · rw [getLevels_setHeap, getLevels_setLevels_same]
  · rw [getLevels_setLevels_same]

theorem addToOrderBook_levels_ne (s : EngineState) (o : Order) (p : ℤ)
    (sym : String) (sd : OrderSide) (h : sym ≠ o.symbol ∨ sd ≠ o.side) :
    getLevels (addToOrderBook s o p) sym sd = getLevels s sym sd := by
  unfold addToOrderBook
  rcases hal : alistGet (getLevels s o.symbol o.side) p with _ | entry <;>
    dsimp only <;> rw [hal] <;> dsimp only
  · rw [getLevels_setHeap, getLevels_setLevels_ne _ _ _ _ _ _ h]
  · rw [getLevels_setLevels_ne _ _ _ _ _ _ h]

theorem addToOrderBook_heap_same (s : EngineState) (o : Order) (p : ℤ) :
    getHeap (addToOrderBook s o p) o.symbol o.side
      = (match alistGet (getLevels s o.symbol o.side) p with
         | none => heappush (getHeap s o.symbol o.side)
             (if o.side = .buy then -p else p, p)
         | some _ => getHeap s o.symbol o.side) := by
  unfold addToOrderBook
  rcases hal : alistGet (getLevels s o.symbol o.side) p with _ | entry <;>
    dsimp only <;> rw [hal] <;> dsimp only
  · rw [getHeap_setHeap_same, getHeap_setLevels]
  · rw [getHeap_setLevels]

theorem addToOrderBook_heap_ne (s : EngineState) (o : Order) (p : ℤ)
    (sym : String) (sd : OrderSide) (h : sym ≠ o.symbol ∨ sd ≠ o.side) :
    getHeap (addToOrderBook s o p) sym sd = getHeap s sym sd := by
  unfold addToOrderBook
  rcases hal : alistGet (getLevels s o.symbol o.side) p with _ | entry <;>
    dsimp only <;> rw [hal] <;> dsimp only
  · rw [getHeap_setHeap_ne _ _ _ _ _ _ h, getHeap_setLevels]
  · rw [getHeap_setLevels]

/-- Splitting view of an in-place `alistSet` at a present key. -/
theorem alistSet_split {α β : Type} [DecidableEq α] :
    ∀ (l : List (α × β)) (k : α) (w : β), alistGet l k = some w →
    ∀ v, ∃ pre post, l = pre ++ (k, w) :: post ∧
      alistSet l k v = pre ++ (k, v) :: post ∧ k ∉ pre.map Prod.fst := by
  intro l
  induction l with
  | nil =>
    intro k w h v
    simp [alistGet] at h
  | cons kv rest ih =>
    intro k w h v
    obtain ⟨k1, v1⟩ := kv
    by_cases hk : k1 = k
    · rw [alistGet, if_pos hk] at h
      cases h
      subst hk
      exact ⟨[], rest, rfl, by rw [alistSet, if_pos rfl]; rfl, by simp⟩
    · rw [alistGet, if_neg hk] at h
      obtain ⟨pre, post, he1, he2, he3⟩ := ih k w h v
      refine ⟨(k1, v1) :: pre, post, by rw [he1]; rfl, ?_, ?_⟩
      · rw [alistSet, if_neg hk, he2]
        rfl
      · simp only [List.map_cons, List.mem_cons]
        rintro (h2 | h2)
        · exact hk h2.symm
        · exact he3 h2

theorem cmap_append_cons {α β : Type} (f : α → List β) (pre : List α) (x : α)
    (post : List α) :
    cmap f (pre ++ x :: post) = cmap f pre ++ f x ++ cmap f post := by
  rw [cmap_append]
  show cmap f pre ++ (f x ++ cmap f post) = _
  rw [List.append_assoc]

theorem levelQuantitySum_congr {X s : EngineState} (ids : List Nat)
    (h : ∀ i ∈ ids, lookupOrder X i = lookupOrder s i) :
    levelQuantitySum X ids = levelQuantitySum s ids := by
  unfold levelQuantitySum
  rw [filterMap_congr_own h]

theorem levelQuantitySum_append (s : EngineState) (l1 l2 : List Nat) :
    levelQuantitySum s (l1 ++ l2) = levelQuantitySum s l1 + levelQuantitySum s l2 := by
  unfold levelQuantitySum
  rw [List.filterMap_append, List.map_append, List.sum_append]

theorem levelQuantitySum_nonneg {s : EngineState} (hwfR : WfReg s) (ids : List Nat) :
    0 ≤ levelQuantitySum s ids := by
  unfold levelQuantitySum
  apply List.sum_nonneg
  intro x hx
  obtain ⟨w, hw, rfl⟩ := List.mem_map.1 hx
  obtain ⟨i, _, hwl⟩ := List.mem_filterMap.1 hw
  have hpos : 0 < w.quantity := (hwfR.2.2 _ (alistGet_some_mem hwl)).2.2.1
  exact le_of_lt hpos

theorem levelQuantitySum_pos {s : EngineState} (hwfR : WfReg s) (ids : List Nat)
    (hne : ids ≠ []) (hres : ∀ i ∈ ids, (lookupOrder s i).isSome) :
    0 < levelQuantitySum s ids := by
  cases ids with
  | nil => exact absurd rfl hne
  | cons i rest =>
    have hs := hres i (by simp)
    rcases hl : lookupOrder s i with _ | w
    · rw [hl] at hs
      simp at hs
    · have h1 : levelQuantitySum s (i :: rest)
          = w.quantity + levelQuantitySum s rest := by
        unfold levelQuantitySum
        rw [List.filterMap_cons, hl]
        rw [List.map_cons, List.sum_cons]
      have h2 : 0 ≤ levelQuantitySum s rest := levelQuantitySum_nonneg hwfR rest
      have h3 : 0 < w.quantity := (hwfR.2.2 _ (alistGet_some_mem hl)).2.2.1
      rw [h1]
      omega

theorem levelOk_congr {s X : EngineState} {sym : String} {sd : OrderSide}
    {pe : ℤ × OrderBookEntry}
    (hlook : ∀ i ∈ pe.2.orders, lookupOrder X i = lookupOrder s i)
    (h : LevelOk s sym sd pe) : LevelOk X sym sd pe := by
  obtain ⟨l1, l2, l3, l4, l5, l6⟩ := h
  refine ⟨l1, l2, l3, l4, ?_, ?_⟩
  · rw [l5]
    exact (levelQuantitySum_congr pe.2.orders hlook).symm
  · intro i hi
    have hr := l6 i hi
    unfold residentOk at hr ⊢
    rw [hlook i hi]
    exact hr

theorem sideOk_congr {s X : EngineState} (sym : String) (sd : OrderSide)
    (hlev : getLevels X sym sd = getLevels s sym sd)
    (hlook : ∀ pe ∈ getLevels s sym sd, ∀ i ∈ pe.2.orders,
      lookupOrder X i = lookupOrder s i)
    (h : SideOk s sym sd) : SideOk X sym sd := by
  obtain ⟨h1, h2, h3⟩ := h
  refine ⟨by rw [hlev]; exact h1, by rw [hlev]; exact h2, ?_⟩
  intro pe hpe
  rw [hlev] at hpe
  exact levelOk_congr (hlook pe hpe) (h3 pe hpe)

theorem heapSubAt_of_wf {s : EngineState} (h : WfHeapSub s) (sym : String)
    (sd : OrderSide) : HeapSubAt s sym sd := by
  rcases hal : alistGet s.order_books sym with _ | hb
  · intro e he
    unfold getHeap at he
    rw [hal] at he
    cases sd <;> simp at he
  · have hmem : (sym, hb) ∈ s.order_books := alistGet_some_mem hal
    cases sd
    · exact (h _ hmem).1
    · exact (h _ hmem).2

theorem subAdd_lookup_old (s : EngineState) (sb : Sub) (j : Nat)
    (hj : j ≠ s.next_order_id) :
    lookupOrder (addToOrderBook (insertFresh s (subOrder s sb)) (subOrder s sb)
      sb.price) j = lookupOrder s j := by
  show alistGet (addToOrderBook (insertFresh s (subOrder s sb)) (subOrder s sb)
      sb.price).orders j = _
  rw [addToOrderBook_orders]
  exact alistGet_alistSet_ne _ _ _ _ hj

theorem subAdd_lookup_self (s : EngineState) (sb : Sub) :
    lookupOrder (addToOrderBook (insertFresh s (subOrder s sb)) (subOrder s sb)
      sb.price) s.next_order_id = some (subOrder s sb) := by
  show alistGet (addToOrderBook (insertFresh s (subOrder s sb)) (subOrder s sb)
      sb.price).orders s.next_order_id = _
  rw [addToOrderBook_orders]
  exact alistGet_alistSet_self _ _ _

theorem nodup_insert_middle {α : Type} {P E Q : List α} {x : α}
    (h : (P ++ E ++ Q).Nodup) (hx : x ∉ P ++ E ++ Q) :
    (P ++ (E ++ [x]) ++ Q).Nodup := by
  have heq1 : P ++ (E ++ [x]) ++ Q = P ++ (E ++ ([x] ++ Q)) := by
    rw [List.append_assoc, List.append_assoc]
  have heq2 : (P ++ E ++ Q) ++ [x] = P ++ (E ++ (Q ++ [x])) := by
    rw [List.append_assoc, List.append_assoc]
  have hperm : (P ++ (E ++ [x]) ++ Q).Perm ((P ++ E ++ Q) ++ [x]) := by
    rw [heq1, heq2]
    exact List.Perm.append_left _ (List.Perm.append_left _ List.perm_append_comm)
  rw [hperm.nodup_iff]
  apply List.nodup_append.2
  refine ⟨h, by simp, ?_⟩
  intro a ha
  simp only [List.mem_singleton]
  intro hb
  rw [hb] at ha
  exact hx ha

theorem subAdd_WfReg (s : EngineState) (sb : Sub) (hwfR : WfReg s)
    (hq : 0 < sb.quantity) :
    WfReg (addToOrderBook (insertFresh s (subOrder s sb)) (subOrder s sb)
      sb.price) := by
  obtain ⟨h1, h2, h3⟩ := hwfR
  have hfresh : alistGet s.orders s.next_order_id = none := by
    rcases hg : alistGet s.orders s.next_order_id with _ | w
    · rfl
    · have hmem := alistGet_some_mem hg
      have hlt : s.next_order_id < s.next_order_id := (h3 _ hmem).2.1
      omega
  have hset : alistSet s.orders (subOrder s sb).id (subOrder s sb)
      = s.orders ++ [((subOrder s sb).id, subOrder s sb)] :=
    alistSet_of_none _ hfresh
  refine ⟨?_, ?_, ?_⟩
  · show 1 ≤ (addToOrderBook (insertFresh s (subOrder s sb)) (subOrder s sb)
        sb.price).next_order_id
    rw [addToOrderBook_next_order_id]
    show 1 ≤ s.next_order_id + 1
    omega
  · show ((addToOrderBook (insertFresh s (subOrder s sb)) (subOrder s sb)
        sb.price).orders.map Prod.fst).Nodup
    rw [addToOrderBook_orders]
    show ((alistSet s.orders (subOrder s sb).id (subOrder s sb)).map Prod.fst).Nodup
    rw [hset, List.map_append]
    apply List.nodup_append.2
    refine ⟨h2, by simp, ?_⟩
    intro a ha hb
    simp only [List.map_cons, List.map_nil, List.mem_singleton] at hb
    have hb2 : a = s.next_order_id := hb
    obtain ⟨kw, hmem0, hk0⟩ := List.mem_map.1 ha
    have hlt : kw.1 < s.next_order_id := (h3 _ hmem0).2.1
    omega
  · intro ko hko
    have hko2 : ko ∈ s.orders ++ [((subOrder s sb).id, subOrder s sb)] := by
      rw [← hset]
      have hh : ko ∈ (addToOrderBook (insertFresh s (subOrder s sb)) (subOrder s sb)
          sb.price).orders := hko
      rw [addToOrderBook_orders] at hh
      exact hh
    have hnext : (addToOrderBook (insertFresh s (subOrder s sb)) (subOrder s sb)
        sb.price).next_order_id = s.next_order_id + 1 :=
      addToOrderBook_next_order_id _ _ _
    rw [hnext]
    rcases List.mem_append.1 hko2 with hm | hm
    · obtain ⟨g1, g2, g3, g4, g5, g6, g7⟩ := h3 ko hm
      exact ⟨g1, by omega, g3, g4, g5, g6, g7⟩
    · simp only [List.mem_singleton] at hm
      subst hm
      have hidn : (subOrder s sb).id = s.next_order_id := rfl
      exact ⟨rfl, by omega, hq, le_refl (0 : ℤ), le_of_lt hq, fun _ => rfl,
        fun _ => hq⟩

theorem subAdd_WfLevels (s : EngineState) (sb : Sub) (hwfR : WfReg s)
    (hwfL : WfLevels s) (hq : 0 < sb.quantity) (hp0 : sb.price ≠ 0) :
    WfLevels (addToOrderBook (insertFresh s (subOrder s sb)) (subOrder s sb)
      sb.price) := by
  set o : Order := subOrder s sb with ho
  set A : EngineState := addToOrderBook (insertFresh s o) o sb.price with hA
  have hres := resident_facts hwfR hwfL
  have hlook_lv : ∀ sym sd, ∀ pe ∈ getLevels s sym sd, ∀ i ∈ pe.2.orders,
      lookupOrder A i = lookupOrder s i := by
    intro sym sd pe hpe i hi
    obtain ⟨w, _, _, hlt, _⟩ := hres sym sd pe hpe i hi
    exact subAdd_lookup_old s sb i (by omega)
  have hself : lookupOrder A o.id = some o := subAdd_lookup_self s sb
  have hside : ∀ sym sd, SideOk A sym sd := by
    intro sym sd
    by_cases hkey : sym = sb.symbol ∧ sd = sb.side
    · obtain ⟨rfl, rfl⟩ := hkey
      have hsame : getLevels A sb.symbol sb.side
          = (match alistGet (getLevels s sb.symbol sb.side) sb.price with
             | none => alistSet (getLevels s sb.symbol sb.side) sb.price
                 ⟨sb.price, o.quantity, 1, [o.id]⟩
             | some entry => alistSet (getLevels s sb.symbol sb.side) sb.price
                 ⟨entry.price, entry.total_quantity + o.quantity,
                  entry.order_count + 1, entry.orders ++ [o.id]⟩) :=
        addToOrderBook_levels_same (insertFresh s o) o sb.price
      obtain ⟨hs1, hs2, hs3⟩ := sideOk_of_wf hwfL sb.symbol sb.side
      have hfreshid : ∀ pe ∈ getLevels s sb.symbol sb.side, o.id ∉ pe.2.orders := by
        intro pe hpe hin
        obtain ⟨w, _, _, hlt, _⟩ := hres sb.symbol sb.side pe hpe o.id hin
        have hh : o.id = s.next_order_id := rfl
        omega
      have hq1 : levelQuantitySum A [o.id] = o.quantity := by
        unfold levelQuantitySum
        rw [List.filterMap_cons, hself]
        simp
      rcases hal : alistGet (getLevels s sb.symbol sb.side) sb.price with _ | entry
      · rw [hal] at hsame
        dsimp only at hsame
        have hnotin : sb.price ∉ (getLevels s sb.symbol sb.side).map Prod.fst := by
          intro hmem
          obtain ⟨v, hv⟩ := alistGet_isSome_of_mem_keys hmem
          rw [hal] at hv
          cases hv
        have happ : alistSet (getLevels s sb.symbol sb.side) sb.price
            (⟨sb.price, o.quantity, 1, [o.id]⟩ : OrderBookEntry)
            = getLevels s sb.symbol sb.side
              ++ [(sb.price, ⟨sb.price, o.quantity, 1, [o.id]⟩)] :=
          alistSet_of_none _ hal
        rw [happ] at hsame
        refine ⟨?_, ?_, ?_⟩
        · rw [hsame, List.map_append]
          apply List.nodup_append.2
          refine ⟨hs1, by simp, ?_⟩
          intro a ha hb
          simp only [List.map_cons, List.map_nil, List.mem_singleton] at hb
          have hb2 : a = sb.price := hb
          rw [hb2] at ha
          exact hnotin ha
        · rw [hsame, cmap_append]
          apply List.nodup_append.2
          refine ⟨hs2, ?_, ?_⟩
          · show (([o.id] : List Nat) ++ []).Nodup
            simp
          · intro a ha hb
            have hb2 : a ∈ ([o.id] : List Nat) := by
              have hb3 : a ∈ ([o.id] : List Nat) ++ [] := hb
              simpa using hb3
            simp only [List.mem_singleton] at hb2
            obtain ⟨pe, hpe, hain⟩ := (mem_cmap _ _ _).1 ha
            rw [hb2] at hain
            exact hfreshid pe hpe hain
        · intro pe hpe
          rw [hsame] at hpe
          rcases List.mem_append.1 hpe with hm | hm
          · exact levelOk_congr (hlook_lv sb.symbol sb.side pe hm) (hs3 pe hm)
          · simp only [List.mem_singleton] at hm
            subst hm
            refine ⟨rfl, hp0, by simp, by simp, ?_, ?_⟩
            · show o.quantity = levelQuantitySum A [o.id]
              rw [hq1]
            · intro i hi
              simp only [List.mem_singleton] at hi
              subst hi
              unfold residentOk
              rw [hself]
              exact ⟨rfl, rfl, rfl, rfl, by simp [ho, subOrder]⟩
      · rw [hal] at hsame
        dsimp only at hsame
        obtain ⟨pre, post, hsp1, hsp2, _⟩ :=
          alistSet_split (getLevels s sb.symbol sb.side) sb.price entry hal
            (⟨entry.price, entry.total_quantity + o.quantity,
              entry.order_count + 1, entry.orders ++ [o.id]⟩ : OrderBookEntry)
        rw [hsp2] at hsame
        have hmem_old : (sb.price, entry) ∈ getLevels s sb.symbol sb.side := by
          rw [hsp1]
          exact List.mem_append.2 (Or.inr (List.mem_cons_self _ _))
        have hLold := hs3 (sb.price, entry) hmem_old
        obtain ⟨g1, g2, g3, g4, g5, g6⟩ := hLold
        refine ⟨?_, ?_, ?_⟩
        · have hkeys : ((pre ++ (sb.price,
              (⟨entry.price, entry.total_quantity + o.quantity,
                entry.order_count + 1, entry.orders ++ [o.id]⟩ : OrderBookEntry))
              :: post).map Prod.fst)
              = (getLevels s sb.symbol sb.side).map Prod.fst := by
            rw [hsp1]
            simp [List.map_append]
          rw [hsame, hkeys]
          exact hs1
        · rw [hsame, cmap_append_cons]
          have hflat_old : (cmap (fun pe => pe.2.orders)
              (getLevels s sb.symbol sb.side)).Nodup := hs2
          rw [hsp1, cmap_append_cons] at hflat_old
          have hxnot : o.id ∉ cmap (fun pe => pe.2.orders) pre
              ++ (sb.price, entry).2.orders ++ cmap (fun pe => pe.2.orders) post := by
            intro hin
            rw [← cmap_append_cons, ← hsp1] at hin
            obtain ⟨pe, hpe, hain⟩ := (mem_cmap _ _ _).1 hin
            exact hfreshid pe hpe hain
          have hgoal := nodup_insert_middle hflat_old hxnot
          exact hgoal
        · intro pe hpe
          rw [hsame] at hpe
          rcases List.mem_append.1 hpe with hm | hm
          · have hold : pe ∈ getLevels s sb.symbol sb.side := by
              rw [hsp1]
              exact List.mem_append.2 (Or.inl hm)
            exact levelOk_congr (hlook_lv sb.symbol sb.side pe hold) (hs3 pe hold)
          · rcases List.mem_cons.1 hm with hm2 | hm2
            · subst hm2
              have hlook_ent : ∀ i ∈ entry.orders, lookupOrder A i = lookupOrder s i :=
                hlook_lv sb.symbol sb.side (sb.price, entry) hmem_old
              have hpr : entry.price = sb.price := g1
              refine ⟨hpr, hp0, by simp, ?_, ?_, ?_⟩
              · show entry.order_count + 1 = ((entry.orders ++ [o.id]).length : Int)
                have hc : entry.order_count = (entry.orders.length : Int) := g4
                rw [hc]
                simp [List.length_append]
              · show entry.total_quantity + o.quantity
                    = levelQuantitySum A (entry.orders ++ [o.id])
                rw [levelQuantitySum_append, hq1,
                  levelQuantitySum_congr entry.orders hlook_ent]
                have ht : entry.total_quantity = levelQuantitySum s entry.orders := g5
                rw [ht]
              · intro i hi
                rcases List.mem_append.1 hi with hi2 | hi2
                · have hr := g6 i hi2
                  unfold residentOk at hr ⊢
                  rw [hlook_ent i hi2]
                  exact hr
                · simp only [List.mem_singleton] at hi2
                  subst hi2
                  unfold residentOk
                  rw [hself]
                  exact ⟨rfl, rfl, rfl, rfl, by simp [ho, subOrder]⟩
            · have hold : pe ∈ getLevels s sb.symbol sb.side := by
                rw [hsp1]
                exact List.mem_append.2 (Or.inr (List.mem_cons_of_mem _ hm2))
              exact levelOk_congr (hlook_lv sb.symbol sb.side pe hold) (hs3 pe hold)
    · have hne : sym ≠ o.symbol ∨ sd ≠ o.side := by
        by_cases h1 : sym = sb.symbol
        · right
          intro h2
          exact hkey ⟨h1, h2⟩
        · left
          intro h2
          exact h1 h2
      have hlev : getLevels A sym sd = getLevels s sym sd := by
        rw [hA, addToOrderBook_levels_ne _ _ _ _ _ hne]
        rfl
      exact sideOk_congr sym sd hlev (hlook_lv sym sd) (sideOk_of_wf hwfL sym sd)
  intro sl _
  exact ⟨hside sl.1 .buy, hside sl.1 .sell⟩

theorem subAdd_WfHeapSub (s : EngineState) (sb : Sub) (hwfH : WfHeapSub s) :
    WfHeapSub (addToOrderBook (insertFresh s (subOrder s sb)) (subOrder s sb)
      sb.price) := by
  set o : Order := subOrder s sb with ho
  set A : EngineState := addToOrderBook (insertFresh s o) o sb.price with hA
  have hhs : ∀ sym sd, HeapSubAt A sym sd := by
    intro sym sd
    by_cases hkey : sym = sb.symbol ∧ sd = sb.side
    · obtain ⟨rfl, rfl⟩ := hkey
      have hheap : getHeap A sb.symbol sb.side
          = (match alistGet (getLevels s sb.symbol sb.side) sb.price with
             | none => heappush (getHeap s sb.symbol sb.side)
                 (if o.side = .buy then -sb.price else sb.price, sb.price)
             | some _ => getHeap s sb.symbol sb.side) :=
        addToOrderBook_heap_same (insertFresh s o) o sb.price
      have hsame : getLevels A sb.symbol sb.side
          = (match alistGet (getLevels s sb.symbol sb.side) sb.price with
             | none => alistSet (getLevels s sb.symbol sb.side) sb.price
                 ⟨sb.price, o.quantity, 1, [o.id]⟩
             | some entry => alistSet (getLevels s sb.symbol sb.side) sb.price
                 ⟨entry.price, entry.total_quantity + o.quantity,
                  entry.order_count + 1, entry.orders ++ [o.id]⟩) :=
        addToOrderBook_levels_same (insertFresh s o) o sb.price
      intro e he
      rcases hal : alistGet (getLevels s sb.symbol sb.side) sb.price with _ | entry
      · rw [hal] at hheap hsame
        dsimp only at hheap hsame
        rw [hheap] at he
        have hmem := (heappush_perm _ _).mem_iff.1 he
        have hkeysA : (getLevels A sb.symbol sb.side).map Prod.fst
            = (getLevels s sb.symbol sb.side).map Prod.fst ++ [sb.price] := by
          rw [hsame, alistSet_of_none _ hal, List.map_append]
          rfl
        rw [hkeysA]
        rcases List.mem_cons.1 hmem with hm | hm
        · rw [hm]
          exact List.mem_append.2 (Or.inr (by simp))
        · exact List.mem_append.2 (Or.inl (heapSubAt_of_wf hwfH sb.symbol sb.side e hm))
      · rw [hal] at hheap hsame
        dsimp only at hheap hsame
        rw [hheap] at he
        have hkeysA : (getLevels A sb.symbol sb.side).map Prod.fst
            = (getLevels s sb.symbol sb.side).map Prod.fst := by
          rw [hsame]
          exact alistSet_map_fst_of_some _ hal
        rw [hkeysA]
        exact heapSubAt_of_wf hwfH sb.symbol sb.side e he
    · have hne : sym ≠ o.symbol ∨ sd ≠ o.side := by
        by_cases h1 : sym = sb.symbol
        · right
          intro h2
          exact hkey ⟨h1, h2⟩
        · left
          intro h2
          exact h1 h2
      intro e he
      have hh : getHeap A sym sd = getHeap s sym sd := by
        rw [hA, addToOrderBook_heap_ne _ _ _ _ _ hne]
        rfl
      have hl : getLevels A sym sd = getLevels s sym sd := by
        rw [hA, addToOrderBook_levels_ne _ _ _ _ _ hne]
        rfl
      rw [hl]
      rw [hh] at he
      exact heapSubAt_of_wf hwfH sym sd e he
  intro hb _
  exact ⟨hhs hb.1 .buy, hhs hb.1 .sell⟩

theorem alistGet_append_right {α β : Type} [DecidableEq α] {l1 : List (α × β)}
    {k : α} (h : alistGet l1 k = none) (l2 : List (α × β)) :
    alistGet (l1 ++ l2) k = alistGet l2 k := by
  induction l1 with
  | nil => rfl
  | cons kv rest ih =>
    by_cases hk : kv.1 = k
    · rw [alistGet, if_pos hk] at h
      cases h
    · rw [alistGet, if_neg hk] at h
      show alistGet (kv :: (rest ++ l2)) k = _
      rw [alistGet, if_neg hk]
      exact ih h

theorem alistSet_alistSet {α β : Type} [DecidableEq α] :
    ∀ (l : List (α × β)) (k : α) (v w : β),
    alistSet (alistSet l k v) k w = alistSet l k w := by
  intro l
  induction l with
  | nil =>
    intro k v w
    show alistSet [(k, v)] k w = [(k, w)]
    rw [alistSet, if_pos rfl]
  | cons kv rest ih =>
    intro k v w
    by_cases hk : kv.1 = k
    · rw [alistSet, if_pos hk]
      show alistSet ((k, v) :: rest) k w = _
      rw [alistSet, if_pos rfl, alistSet, if_pos hk]
    · rw [alistSet, if_neg hk]
      show alistSet (kv :: alistSet rest k v) k w = _
      rw [alistSet, if_neg hk, alistSet, if_neg hk, ih]

/-- The level-deletion branch of `_remove_from_order_book`. -/
theorem removeFromOrderBook_delete (X : EngineState) (o2 : Order) (p : ℤ)
    (hpr : o2.price = some p) (entry : OrderBookEntry)
    (hget : alistGet (getLevels X o2.symbol o2.side) p = some entry)
    (hdel : entry.total_quantity - o2.quantity ≤ 0 ∨ entry.order_count - 1 ≤ 0) :
    removeFromOrderBook X o2
      = setHeap (setLevels X o2.symbol o2.side
            (alistDel (getLevels X o2.symbol o2.side) p))
          o2.symbol o2.side
          (heapify ((getHeap X o2.symbol o2.side).filter (fun e => e.2 ≠ p))) := by
  unfold removeFromOrderBook
  rw [hpr]
  dsimp only
  rw [hget]
  dsimp only
  rw [if_pos hdel, getHeap_setLevels]

/-- The level-update branch of `_remove_from_order_book`. -/
theorem removeFromOrderBook_keep (X : EngineState) (o2 : Order) (p : ℤ)
    (hpr : o2.price = some p) (entry : OrderBookEntry)
    (hget : alistGet (getLevels X o2.symbol o2.side) p = some entry)
    (hkeep : ¬ (entry.total_quantity - o2.quantity ≤ 0 ∨ entry.order_count - 1 ≤ 0)) :
    removeFromOrderBook X o2
      = setLevels X o2.symbol o2.side
          (alistSet (getLevels X o2.symbol o2.side) p
            ⟨entry.price, entry.total_quantity - o2.quantity, entry.order_count - 1,
             entry.orders.filter (fun i => i ≠ o2.id)⟩) := by
  unfold removeFromOrderBook
  rw [hpr]
  dsimp only
  rw [hget]
  dsimp only
  rw [if_neg hkeep]

/-- `_match_order` is the identity on the state when the candidate collection
comes back empty. -/
theorem matchOrder_noncross (A : EngineState) (now : Nat) (o : Order)
    (hst : o.status = .pending) (hot : o.order_type ≠ .market)
    (hok : getMatchingOrdersWithPrice A o.symbol (opposite o.side) o.quantity
      o.price o.side = .ok []) :
    matchOrder A now o = (.ok (), A) := by
  unfold matchOrder
  rw [if_neg (fun h => h hst)]
  dsimp only
  rw [if_neg hot, hok]
  rfl

/-- A non-crossing LIMIT submission reduces to: store the fresh order, insert
it into its book side, and return it; the matching pass is a no-op. -/
theorem add_order_noncross (s : EngineState) (sb : Sub)
    (hwfR : WfReg s) (hwfL : WfLevels s) (hp0 : sb.price ≠ 0) (hnc : NoCross s sb) :
    subAdd s sb
      = (.ok (subOrder s sb),
         addToOrderBook (insertFresh s (subOrder s sb)) (subOrder s sb) sb.price) := by
  have htr : truthy (some sb.price) = true := by simp [truthy, hp0]
  set o : Order := subOrder s sb with ho
  set A : EngineState := addToOrderBook (insertFresh s o) o sb.price with hAdef
  have hlevA : getLevels A sb.symbol (opposite sb.side)
      = getLevels s sb.symbol (opposite sb.side) := by
    rw [hAdef]
    rw [addToOrderBook_levels_ne (insertFresh s o) o sb.price sb.symbol
      (opposite sb.side) (Or.inr (opposite_ne sb.side))]
    rfl
  have hlookA : ∀ j, j < s.next_order_id → lookupOrder A j = lookupOrder s j := by
    intro j hj
    rw [hAdef]
    show alistGet (addToOrderBook (insertFresh s o) o sb.price).orders j = _
    rw [addToOrderBook_orders]
    exact alistGet_alistSet_ne _ _ _ _ (by show j ≠ s.next_order_id; omega)
  have hself : lookupOrder A o.id = some o := by
    rw [hAdef]
    show alistGet (addToOrderBook (insertFresh s o) o sb.price).orders o.id = _
    rw [addToOrderBook_orders]
    exact alistGet_alistSet_self _ _ _
  have hok : getMatchingOrdersWithPrice A sb.symbol (opposite sb.side) sb.quantity
      (some sb.price) sb.side = .ok [] := by
    have hcm : cmap (fun pe => if keepLevel sb.price sb.side pe.1
        then pe.2.orders.filterMap (eligible A) else [])
        (getLevels A sb.symbol (opposite sb.side))
        = cmap (fun pe => if keepLevel sb.price sb.side pe.1
          then pe.2.orders.filterMap (eligible s) else [])
          (getLevels s sb.symbol (opposite sb.side)) := by
      rw [hlevA]
      apply cmap_congr
      intro pe hpe
      by_cases hk : keepLevel sb.price sb.side pe.1 = true
      · rw [if_pos hk, if_pos hk]
        apply filterMap_congr_own
        intro j hj
        obtain ⟨w, hl, hwid, hjlt, _⟩ :=
          resident_facts hwfR hwfL sb.symbol (opposite sb.side) pe hpe j hj
        unfold eligible
        rw [hlookA j hjlt]
      · rw [if_neg hk, if_neg hk]
    have hg : getMatchingOrdersWithPrice A sb.symbol (opposite sb.side) sb.quantity
        (some sb.price) sb.side
        = getMatchingOrdersWithPrice s sb.symbol (opposite sb.side) sb.quantity
          (some sb.price) sb.side := by
      unfold getMatchingOrdersWithPrice
      rw [gatherLevels_some, gatherLevels_some, hcm]
    rw [hg]
    exact hnc
  have hok2 : getMatchingOrdersWithPrice A o.symbol (opposite o.side) o.quantity
      o.price o.side = .ok [] := hok
  have hmo : matchOrder A sb.now o = (.ok (), A) :=
    matchOrder_noncross A sb.now o rfl (by simp [ho, subOrder]) hok2
  show add_order s sb.now sb.user_id sb.symbol sb.side .limit sb.quantity
      (some sb.price) none = (.ok o, A)
  have hc : (OrderType.limit = OrderType.limit ∧ truthy (some sb.price) = true) :=
    ⟨rfl, htr⟩
  unfold add_order
  dsimp only
  rw [if_pos hc]
  show (match matchOrder A sb.now o with
    | (.error e, s3) => ((.error e : Except PyErr Order), s3)
    | (.ok _, s3) => (.ok ((lookupOrder s3 o.id).getD o), s3)) = (.ok o, A)
  rw [hmo]
  dsimp only
  rw [hself]
  rfl

/-- Cancelling a freshly admitted non-crossing LIMIT order at any later state
`t` whose book equals the post-admission book (levels exactly, heaps up to
permutation) and which still stores the order untouched, succeeds and
restores the pre-admission book: levels exactly, heaps up to permutation. -/
theorem cancel_restores (s : EngineState) (sb : Sub) (t : EngineState) (now2 : Nat)
    (hwfR : WfReg s) (hwfL : WfLevels s) (hwfH : WfHeapSub s)
    (hq : 0 < sb.quantity) (hp0 : sb.price ≠ 0)
    (hlev : ∀ sym sd, getLevels t sym sd
      = getLevels (addToOrderBook (insertFresh s (subOrder s sb)) (subOrder s sb)
          sb.price) sym sd)
    (hheap : ∀ sym sd, (getHeap t sym sd).Perm
      (getHeap (addToOrderBook (insertFresh s (subOrder s sb)) (subOrder s sb)
          sb.price) sym sd))
    (hlookt : lookupOrder t s.next_order_id = some (subOrder s sb)) :
    (cancel_order t now2 s.next_order_id sb.user_id).1
        = .ok { subOrder s sb with status := .cancelled, updated_at := now2 } ∧
    (∀ sym sd, getLevels (cancel_order t now2 s.next_order_id sb.user_id).2 sym sd
        = getLevels s sym sd) ∧
    (∀ sym sd, (getHeap (cancel_order t now2 s.next_order_id sb.user_id).2 sym sd).Perm
        (getHeap s sym sd)) ∧
    (∀ k, k ≠ s.next_order_id →
      lookupOrder (cancel_order t now2 s.next_order_id sb.user_id).2 k
        = lookupOrder t k) := by
  set o : Order := subOrder s sb with ho
  set A : EngineState := addToOrderBook (insertFresh s o) o sb.price with hA
  set o2 : Order := { o with status := .cancelled, updated_at := now2 } with ho2
  have h1 : ¬ (o.user_id ≠ sb.user_id) := fun h => h rfl
  have h2 : ¬ (o.status = .filled ∨ o.status = .cancelled) := by
    rintro (h | h) <;> simp [ho, subOrder] at h
  have hA2 : o2.order_type = .limit ∧ truthy o2.price = true := by
    refine ⟨rfl, ?_⟩
    show truthy (some sb.price) = true
    simp [truthy, hp0]
  have hcv : cancel_order t now2 s.next_order_id sb.user_id
      = (.ok o2, if o2.order_type = .limit ∧ truthy o2.price = true
          then removeFromOrderBook (updateOrder t s.next_order_id o2) o2
          else updateOrder t s.next_order_id o2) := by
    unfold cancel_order
    rw [hlookt]
    dsimp only
    rw [if_neg h1, if_neg h2]
  have hfin : (cancel_order t now2 s.next_order_id sb.user_id).2
      = removeFromOrderBook (updateOrder t s.next_order_id o2) o2 := by
    rw [hcv]
    show (if o2.order_type = .limit ∧ truthy o2.price = true
        then removeFromOrderBook (updateOrder t s.next_order_id o2) o2
        else updateOrder t s.next_order_id o2) = _
    rw [if_pos hA2]
  set T1 : EngineState := updateOrder t s.next_order_id o2 with hT1
  have hlvT1 : ∀ sym sd, getLevels T1 sym sd = getLevels A sym sd := by
    intro sym sd
    rw [hT1, getLevels_updateOrder]
    exact hlev sym sd
  have hhpT1 : ∀ sym sd, (getHeap T1 sym sd).Perm (getHeap A sym sd) := by
    intro sym sd
    rw [hT1, getHeap_updateOrder]
    exact hheap sym sd
  have hAsame : getLevels A o2.symbol o2.side
      = (match alistGet (getLevels s o2.symbol o2.side) sb.price with
         | none => alistSet (getLevels s o2.symbol o2.side) sb.price
             ⟨sb.price, o.quantity, 1, [o.id]⟩
         | some entry => alistSet (getLevels s o2.symbol o2.side) sb.price
             ⟨entry.price, entry.total_quantity + o.quantity,
              entry.order_count + 1, entry.orders ++ [o.id]⟩) :=
    addToOrderBook_levels_same (insertFresh s o) o sb.price
  have hheapAsame : getHeap A o2.symbol o2.side
      = (match alistGet (getLevels s o2.symbol o2.side) sb.price with
         | none => heappush (getHeap s o2.symbol o2.side)
             (if o.side = .buy then -sb.price else sb.price, sb.price)
         | some _ => getHeap s o2.symbol o2.side) :=
    addToOrderBook_heap_same (insertFresh s o) o sb.price
  have hpr2 : o2.price = some sb.price := rfl
  have hid2 : o2.id = s.next_order_id := rfl
  have hres := resident_facts hwfR hwfL
  have hlookfin : ∀ k, k ≠ s.next_order_id →
      lookupOrder (cancel_order t now2 s.next_order_id sb.user_id).2 k
        = lookupOrder t k := by
    intro k hk
    rw [hfin]
    show alistGet (removeFromOrderBook T1 o2).orders k = _
    rw [removeFromOrderBook_orders]
    show alistGet (alistSet t.orders s.next_order_id o2) k = _
    exact alistGet_alistSet_ne _ _ _ _ hk
  have hmain : (∀ sym sd, getLevels (removeFromOrderBook T1 o2) sym sd
        = getLevels s sym sd) ∧
      (∀ sym sd, (getHeap (removeFromOrderBook T1 o2) sym sd).Perm
        (getHeap s sym sd)) := by
    rcases hal : alistGet (getLevels s o2.symbol o2.side) sb.price with _ | entry
    · rw [hal] at hAsame hheapAsame
      dsimp only at hAsame hheapAsame
      have hnotkeys : sb.price ∉ (getLevels s o2.symbol o2.side).map Prod.fst :=
        (alistGet_eq_none_iff _ _).1 hal
      have happ : alistSet (getLevels s o2.symbol o2.side) sb.price
          (⟨sb.price, o.quantity, 1, [o.id]⟩ : OrderBookEntry)
          = getLevels s o2.symbol o2.side
            ++ [(sb.price, ⟨sb.price, o.quantity, 1, [o.id]⟩)] := alistSet_of_none _ hal
      rw [happ] at hAsame
      have hget : alistGet (getLevels T1 o2.symbol o2.side) sb.price
          = some (⟨sb.price, o.quantity, 1, [o.id]⟩ : OrderBookEntry) := by
        rw [hlvT1, hAsame, alistGet_append_right hal]
        rw [alistGet, if_pos rfl]
      have hdel : (⟨sb.price, o.quantity, 1, [o.id]⟩ : OrderBookEntry).total_quantity
            - o2.quantity ≤ 0
          ∨ (⟨sb.price, o.quantity, 1, [o.id]⟩ : OrderBookEntry).order_count - 1 ≤ 0 := by
        left
        show o.quantity - o2.quantity ≤ 0
        have hqq : o2.quantity = o.quantity := rfl
        omega
      have hrm := removeFromOrderBook_delete T1 o2 sb.price hpr2 _ hget hdel
      constructor
      · intro sym sd
        rw [hrm, getLevels_setHeap]
        by_cases hks : sym = o2.symbol ∧ sd = o2.side
        · obtain ⟨rfl, rfl⟩ := hks
          rw [getLevels_setLevels_same, hlvT1, hAsame,
            alistDel_append_fresh _ hnotkeys]
        · have hne2 : sym ≠ o2.symbol ∨ sd ≠ o2.side := by
            by_cases hx : sym = o2.symbol
            · exact Or.inr (fun hy => hks ⟨hx, hy⟩)
            · exact Or.inl hx
          have hne3 : sym ≠ o.symbol ∨ sd ≠ o.side := hne2
          rw [getLevels_setLevels_ne _ _ _ _ _ _ hne2, hlvT1, hA,
            addToOrderBook_levels_ne _ _ _ _ _ hne3]
          rfl
      · intro sym sd
        rw [hrm]
        by_cases hks : sym = o2.symbol ∧ sd = o2.side
        · obtain ⟨rfl, rfl⟩ := hks
          rw [getHeap_setHeap_same]
          refine (heapify_perm _).trans ?_
          have hp1 : (getHeap T1 o2.symbol o2.side).Perm
              ((if o.side = .buy then -sb.price else sb.price, sb.price)
                :: getHeap s o2.symbol o2.side) := by
            refine (hhpT1 _ _).trans ?_
            rw [hheapAsame]
            exact heappush_perm _ _
          refine (hp1.filter _).trans ?_
          rw [List.filter_cons]
          rw [if_neg (by simp)]
          have hfs : List.filter (fun e => decide (e.2 ≠ sb.price))
              (getHeap s o2.symbol o2.side) = getHeap s o2.symbol o2.side := by
            apply List.filter_eq_self.2
            intro e he
            have hk := heapSubAt_of_wf hwfH o2.symbol o2.side e he
            simp only [decide_eq_true_eq]
            intro heq
            rw [heq] at hk
            exact hnotkeys hk
          rw [hfs]
        · have hne2 : sym ≠ o2.symbol ∨ sd ≠ o2.side := by
            by_cases hx : sym = o2.symbol
            · exact Or.inr (fun hy => hks ⟨hx, hy⟩)
            · exact Or.inl hx
          have hne3 : sym ≠ o.symbol ∨ sd ≠ o.side := hne2
          rw [getHeap_setHeap_ne _ _ _ _ _ _ hne2, getHeap_setLevels]
          refine (hhpT1 sym sd).trans ?_
          rw [hA, addToOrderBook_heap_ne _ _ _ _ _ hne3]
          exact List.Perm.refl _
    · obtain ⟨ep, et, ec, eo⟩ := entry
      rw [hal] at hAsame hheapAsame
      dsimp only at hAsame hheapAsame
      have hget : alistGet (getLevels T1 o2.symbol o2.side) sb.price
          = some (⟨ep, et + o.quantity, ec + 1, eo ++ [o.id]⟩ : OrderBookEntry) := by
        rw [hlvT1, hAsame]
        exact alistGet_alistSet_self _ _ _
      have hmem_old : (sb.price, (⟨ep, et, ec, eo⟩ : OrderBookEntry))
          ∈ getLevels s o2.symbol o2.side := alistGet_some_mem hal
      obtain ⟨g1, g2, g3, g4, g5, g6⟩ :=
        (sideOk_of_wf hwfL o2.symbol o2.side).2.2 _ hmem_old
      have hep : ep = sb.price := g1
      have hcount : ec = (eo.length : Int) := g4
      have htot : et = levelQuantitySum s eo := g5
      have heo_ne : eo ≠ [] := g3
      have hres_eo : ∀ i ∈ eo, (lookupOrder s i).isSome := by
        intro i hi
        have hr := g6 i hi
        unfold residentOk at hr
        rcases hl : lookupOrder s i with _ | w
        · rw [hl] at hr
          exact hr.elim
        · rfl
      have htpos : 0 < et := by
        rw [htot]
        exact levelQuantitySum_pos hwfR eo heo_ne hres_eo
      have hcpos : 0 < ec := by
        have hlp : 0 < eo.length := List.length_pos.2 heo_ne
        rw [hcount]
        omega
      have hqq : o2.quantity = o.quantity := rfl
      have hkeep : ¬ ((et + o.quantity) - o2.quantity ≤ 0 ∨ (ec + 1) - 1 ≤ 0) := by
        have hoq : o.quantity = sb.quantity := rfl
        omega
      have hrm := removeFromOrderBook_keep T1 o2 sb.price hpr2 _ hget hkeep
      have horders : (eo ++ [o.id]).filter (fun i => i ≠ o2.id) = eo := by
        rw [List.filter_append]
        have hfe : eo.filter (fun i => i ≠ o2.id) = eo := by
          apply List.filter_eq_self.2
          intro a ha
          obtain ⟨w, _, _, hlt, _⟩ := hres o2.symbol o2.side _ hmem_old a ha
          simp only [decide_eq_true_eq]
          show a ≠ o2.id
          rw [hid2]
          omega
        have hfx : ([o.id] : List Nat).filter (fun i => i ≠ o2.id) = [] := by
          simp [show o2.id = o.id from rfl]
        rw [hfe, hfx, List.append_nil]
      have hentry_eq : (⟨ep, (et + o.quantity) - o2.quantity, (ec + 1) - 1,
          (eo ++ [o.id]).filter (fun i => i ≠ o2.id)⟩ : OrderBookEntry)
          = ⟨ep, et, ec, eo⟩ := by
        rw [horders]
        simp only [OrderBookEntry.mk.injEq]
        exact ⟨trivial, by omega, by omega, trivial⟩
      have hlv_final : alistSet (getLevels T1 o2.symbol o2.side) sb.price
          (⟨ep, (et + o.quantity) - o2.quantity, (ec + 1) - 1,
            (eo ++ [o.id]).filter (fun i => i ≠ o2.id)⟩ : OrderBookEntry)
          = getLevels s o2.symbol o2.side := by
        rw [hentry_eq, hlvT1, hAsame, alistSet_alistSet]
        exact alistSet_self hal
      constructor
      · intro sym sd
        rw [hrm]
        by_cases hks : sym = o2.symbol ∧ sd = o2.side
        · obtain ⟨rfl, rfl⟩ := hks
          rw [getLevels_setLevels_same]
          exact hlv_final
        · have hne2 : sym ≠ o2.symbol ∨ sd ≠ o2.side := by
            by_cases hx : sym = o2.symbol
            · exact Or.inr (fun hy => hks ⟨hx, hy⟩)
            · exact Or.inl hx
          have hne3 : sym ≠ o.symbol ∨ sd ≠ o.side := hne2
          rw [getLevels_setLevels_ne _ _ _ _ _ _ hne2, hlvT1, hA,
            addToOrderBook_levels_ne _ _ _ _ _ hne3]
          rfl
      · intro sym sd
        rw [hrm, getHeap_setLevels]
        refine (hhpT1 sym sd).trans ?_
        by_cases hks : sym = o2.symbol ∧ sd = o2.side
        · obtain ⟨rfl, rfl⟩ := hks
          rw [hheapAsame]
        · have hne2 : sym ≠ o2.symbol ∨ sd ≠ o2.side := by
            by_cases hx : sym = o2.symbol
            · exact Or.inr (fun hy => hks ⟨hx, hy⟩)
            · exact Or.inl hx
          have hne3 : sym ≠ o.symbol ∨ sd ≠ o.side := hne2
          rw [hA, addToOrderBook_heap_ne _ _ _ _ _ hne3]
          exact List.Perm.refl _
  refine ⟨by rw [hcv], ?_, ?_, hlookfin⟩
  · intro sym sd
    rw [hfin]
    exact hmain.1 sym sd
  · intro sym sd
    rw [hfin]
    exact hmain.2 sym sd

theorem submitAll_cons (s : EngineState) (sb : Sub) (rest : List Sub) :
    submitAll s (sb :: rest)
      = ((submitAll (subAdd s sb).2 rest).1,
         (s.next_order_id, sb.user_id) :: (submitAll (subAdd s sb).2 rest).2) := rfl

theorem cancelAll_append : ∀ (l1 l2 : List (Nat × Nat)) (s : EngineState),
    cancelAll s (l1 ++ l2)
      = ((cancelAll s l1).1 ++ (cancelAll (cancelAll s l1).2 l2).1,
         (cancelAll (cancelAll s l1).2 l2).2) := by
  intro l1
  induction l1 with
  | nil =>
    intro l2 s
    rfl
  | cons iu rest ih =>
    intro l2 s
    show ((cancel_order s 0 iu.1 iu.2).1
        :: (cancelAll (cancel_order s 0 iu.1 iu.2).2 (rest ++ l2)).1,
          (cancelAll (cancel_order s 0 iu.1 iu.2).2 (rest ++ l2)).2)
      = (((cancel_order s 0 iu.1 iu.2).1
            :: (cancelAll (cancel_order s 0 iu.1 iu.2).2 rest).1)
          ++ (cancelAll (cancelAll (cancel_order s 0 iu.1 iu.2).2 rest).2 l2).1,
         (cancelAll (cancelAll (cancel_order s 0 iu.1 iu.2).2 rest).2 l2).2)
    rw [ih]
    rfl

theorem roundTrip_cons (s : EngineState) (sb : Sub) (rest : List Sub) :
    roundTrip s (sb :: rest)
      = cancelAll (submitAll (subAdd s sb).2 rest).1
          ((submitAll (subAdd s sb).2 rest).2.reverse
            ++ [(s.next_order_id, sb.user_id)]) := by
  show cancelAll (submitAll s (sb :: rest)).1 (submitAll s (sb :: rest)).2.reverse = _
  rw [submitAll_cons, List.reverse_cons]

theorem roundTrip_nil (s : EngineState) : roundTrip s [] = ([], s) := rfl

/-- The submit/cancel round trip restores the book: levels exactly, heaps up
to permutation; previously stored orders are untouched and every cancellation
returns a CANCELLED order. -/
theorem roundTrip_restore : ∀ (subs : List Sub) (s : EngineState),
    WfReg s → WfLevels s → WfHeapSub s → NcRun s subs →
    (∀ sb ∈ subs, 0 < sb.quantity ∧ sb.price ≠ 0) →
    (∀ sym sd, getLevels (roundTrip s subs).2 sym sd = getLevels s sym sd) ∧
    (∀ sym sd, ((getHeap (roundTrip s subs).2 sym sd).Perm (getHeap s sym sd))) ∧
    (∀ k, k < s.next_order_id →
      lookupOrder (roundTrip s subs).2 k = lookupOrder s k) ∧
    (∀ r ∈ (roundTrip s subs).1, ∃ oc, r = .ok oc ∧ oc.status = .cancelled) := by
  intro subs
  induction subs with
  | nil =>
    intro s _ _ _ _ _
    rw [roundTrip_nil]
    exact ⟨fun _ _ => rfl, fun _ _ => List.Perm.refl _, fun _ _ => rfl,
      fun r hr => absurd hr (by simp)⟩
  | cons sb rest ih =>
    intro s hwfR hwfL hwfH hnc hsubs
    obtain ⟨hq, hp0⟩ := hsubs sb (List.mem_cons_self _ _)
    have hsubs' : ∀ sb2 ∈ rest, 0 < sb2.quantity ∧ sb2.price ≠ 0 :=
      fun sb2 h => hsubs sb2 (List.mem_cons_of_mem _ h)
    have heq1 : subAdd s sb
        = (.ok (subOrder s sb),
           addToOrderBook (insertFresh s (subOrder s sb)) (subOrder s sb) sb.price) :=
      add_order_noncross s sb hwfR hwfL hp0 hnc.1
    set A : EngineState :=
      addToOrderBook (insertFresh s (subOrder s sb)) (subOrder s sb) sb.price with hA
    have hs1 : (subAdd s sb).2 = A := by
      rw [heq1]
    have hwfRA : WfReg A := subAdd_WfReg s sb hwfR hq
    have hwfLA : WfLevels A := subAdd_WfLevels s sb hwfR hwfL hq hp0
    have hwfHA : WfHeapSub A := subAdd_WfHeapSub s sb hwfH
    have hncA : NcRun A rest := by
      have h2 := hnc.2
      rw [hs1] at h2
      exact h2
    have hAnext : A.next_order_id = s.next_order_id + 1 :=
      addToOrderBook_next_order_id _ _ _
    obtain ⟨ihlev, ihheap, ihlook, ihres⟩ := ih A hwfRA hwfLA hwfHA hncA hsubs'
    have hrtA : roundTrip A rest
        = cancelAll (submitAll A rest).1 (submitAll A rest).2.reverse := rfl
    set t : EngineState := (roundTrip A rest).2 with ht
    have hlookt : lookupOrder t s.next_order_id = some (subOrder s sb) := by
      rw [ht, ihlook s.next_order_id (by omega)]
      exact subAdd_lookup_self s sb
    obtain ⟨hc1, hc2, hc3, hc4⟩ :=
      cancel_restores s sb t 0 hwfR hwfL hwfH hq hp0
        (fun sym sd => ihlev sym sd) (fun sym sd => ihheap sym sd) hlookt
    have hsplit : roundTrip s (sb :: rest)
        = ((roundTrip A rest).1 ++ [(cancel_order t 0 s.next_order_id sb.user_id).1],
           (cancel_order t 0 s.next_order_id sb.user_id).2) := by
      rw [roundTrip_cons]
      have hsub2 : submitAll (subAdd s sb).2 rest = submitAll A rest := by
        rw [hs1]
      rw [hsub2, cancelAll_append]
      have hrt1 : cancelAll (submitAll A rest).1 (submitAll A rest).2.reverse
          = roundTrip A rest := rfl
      rw [hrt1]
      rfl
    refine ⟨?_, ?_, ?_, ?_⟩
    · intro sym sd
      rw [hsplit]
      exact hc2 sym sd
    · intro sym sd
      rw [hsplit]
      exact hc3 sym sd
    · intro k hk
      rw [hsplit]
      show lookupOrder (cancel_order t 0 s.next_order_id sb.user_id).2 k = _
      rw [hc4 k (by omega)]
      rw [ht, ihlook k (by omega)]
      exact subAdd_lookup_old s sb k (by omega)
    · intro r hr
      rw [hsplit] at hr
      rcases List.mem_append.1 hr with hm | hm
      · exact ihres r hm
      · simp only [List.mem_singleton] at hm
        rw [hm, hc1]
        exact ⟨_, rfl, rfl⟩

/-! ### The identifier discipline is preserved by every operation -/

theorem cmap_snd_alistSet_append {α τ : Type} [DecidableEq α] :
    ∀ (l : List (α × List τ)) (k : α) (ts : List τ),
    (cmap (fun kv => kv.2) (alistSet l k ((alistGet l k).getD [] ++ ts))).Perm
      (cmap (fun kv => kv.2) l ++ ts) := by
  intro l
  induction l with
  | nil =>
    intro k ts
    simp [alistGet, alistSet, cmap]
  | cons kv rest ih =>
    intro k ts
    by_cases hk : kv.1 = k
    · simp only [alistGet, alistSet, if_pos hk, Option.getD_some]
      show ((kv.2 ++ ts) ++ cmap (fun kv => kv.2) rest).Perm
        ((kv.2 ++ cmap (fun kv => kv.2) rest) ++ ts)
      rw [List.append_assoc, List.append_assoc]
      exact List.Perm.append_left _ List.perm_append_comm
    · simp only [alistGet, alistSet, if_neg hk]
      show (kv.2 ++ cmap (fun kv => kv.2)
          (alistSet rest k ((alistGet rest k).getD [] ++ ts))).Perm
        ((kv.2 ++ cmap (fun kv => kv.2) rest) ++ ts)
      refine (List.Perm.append_left kv.2 (ih k ts)).trans ?_
      rw [List.append_assoc]

theorem tsOcur_id (now : Nat) (ocur : Order) (remaining : ℤ) (m : Order) :
    (tsOcur now ocur remaining m).id = ocur.id := by
  unfold tsOcur
  dsimp only
  split <;> rfl

/-- Equal registries-by-keys, trade tables and counters transport the
identifier discipline. -/
theorem IdInv_congr_keys {s s2 : EngineState}
    (ho : s2.orders.map Prod.fst = s.orders.map Prod.fst)
    (ht : s2.trades = s.trades) (hn1 : s2.next_order_id = s.next_order_id)
    (hn2 : s2.next_trade_id = s.next_trade_id) (hinv : IdInv s) : IdInv s2 := by
  unfold IdInv tradePool allTradeIds tradePool at hinv ⊢
  rw [ho, ht, hn1, hn2]
  exact hinv

theorem tradeStep_IdInv (now : Nat) (sym : String) (oside : OrderSide)
    (s : EngineState) (ocur : Order) (remaining : ℤ) (mid : Nat) (m : Order)
    (hocur : ocur.id ∈ s.orders.map Prod.fst)
    (hmid : mid ∈ s.orders.map Prod.fst)
    (hinv : IdInv s) : IdInv (tradeStep now sym oside s ocur remaining mid m).1 := by
  obtain ⟨h1, h2, h3, h4, h5, h6, h7⟩ := hinv
  have hkeys := tradeStep_orders_map_fst now sym oside s ocur remaining mid m hocur hmid
  have hnO := tradeStep_next_order_id now sym oside s ocur remaining mid m
  have hnT := tradeStep_next_trade_id now sym oside s ocur remaining mid m
  have htr := tradeStep_trades now sym oside s ocur remaining mid m
  set tr := tsTrade now sym oside s ocur remaining m with htrdef
  have htrid : tr.id = s.next_trade_id := rfl
  have holdbd : ∀ t ∈ tradesOf s sym, t.id < s.next_trade_id := by
    intro t ht
    refine (h6 t ?_).2
    unfold tradesOf at ht
    rcases hg : alistGet s.trades sym with _ | ts0
    · rw [hg] at ht
      simp at ht
    · rw [hg] at ht
      exact (mem_cmap _ _ _).2 ⟨(sym, ts0), alistGet_some_mem hg, ht⟩
  have hpool : (tradePool (tradeStep now sym oside s ocur remaining mid m).1).Perm
      (tradePool s ++ [tr]) := by
    unfold tradePool
    rw [htr]
    exact cmap_snd_alistSet_append s.trades sym [tr]
  refine ⟨?_, ?_, ?_, ?_, ?_, ?_, ?_⟩
  · rw [hnO]
    exact h1
  · rw [hnT]
    omega
  · rw [hkeys]
    exact h3
  · rw [hkeys, hnO]
    intro k hk
    have := h4 k hk
    omega
  · intro st hst
    rw [htr] at hst
    rcases mem_alistSet hst with hmem | heq
    · exact h5 st hmem
    · rw [heq]
      show ((tradesOf s sym ++ [tr]).map (fun t => t.id)).Pairwise (· < ·)
      rw [List.map_append]
      apply List.pairwise_append.2
      have holdpw : ((tradesOf s sym).map (fun t => t.id)).Pairwise (· < ·) := by
        unfold tradesOf
        rcases hg : alistGet s.trades sym with _ | ts0
        · simp
        · exact h5 (sym, ts0) (alistGet_some_mem hg)
      refine ⟨holdpw, by simp, ?_⟩
      intro a ha b hb
      simp only [List.map_cons, List.map_nil, List.mem_singleton] at hb
      obtain ⟨t, ht, rfl⟩ := List.mem_map.1 ha
      rw [hb, htrid]
      exact holdbd t ht
  · intro t ht
    rcases List.mem_append.1 (hpool.mem_iff.1 ht) with hold | hnew
    · have hb := h6 t hold
      rw [hnT]
      omega
    · have ht2 : t = tr := by simpa using hnew
      rw [ht2, htrid, hnT]
      exact ⟨h2, by omega⟩
  · unfold allTradeIds
    have hmp := hpool.map (fun t => t.id)
    rw [hmp.nodup_iff, List.map_append]
    apply List.nodup_append.2
    refine ⟨h7, by simp, ?_⟩
    intro a ha
    simp only [List.map_cons, List.map_nil, List.mem_singleton]
    intro hb
    obtain ⟨t, ht, rfl⟩ := List.mem_map.1 ha
    have := (h6 t ht).2
    rw [hb, htrid] at this
    omega

theorem execTrades_IdInv (now : Nat) (sym : String) (oside : OrderSide) :
    ∀ (ms : List Nat) (s : EngineState) (ocur : Order) (r : ℤ),
    ocur.id ∈ s.orders.map Prod.fst → IdInv s →
    IdInv (execTrades now sym oside s ocur r ms).1 := by
  intro ms
  induction ms with
  | nil =>
    intro s ocur r _ hinv
    exact hinv
  | cons mid rest ih =>
    intro s ocur r hocur hinv
    show IdInv (if r ≤ 0 then (s, ocur, r) else _).1
    split
    · exact hinv
    · rcases hm : lookupOrder s mid with _ | m
      · exact ih s ocur r hocur hinv
      · have hmid : mid ∈ s.orders.map Prod.fst := mem_keys_of_alistGet_some hm
        have hkeys := tradeStep_orders_map_fst now sym oside s ocur r mid m hocur hmid
        apply ih
        · rw [hkeys, tradeStep_ocur, tsOcur_id]
          exact hocur
        · exact tradeStep_IdInv now sym oside s ocur r mid m hocur hmid hinv

theorem insertFresh_IdInv (s : EngineState) (o : Order) (ho : o.id = s.next_order_id)
    (hinv : IdInv s) : IdInv (insertFresh s o) := by
  obtain ⟨h1, h2, h3, h4, h5, h6, h7⟩ := hinv
  have hfresh : lookupOrder s o.id = none := by
    rcases hg : lookupOrder s o.id with _ | w
    · rfl
    · have := h4 o.id (mem_keys_of_alistGet_some hg)
      omega
  have hset : alistSet s.orders o.id o = s.orders ++ [(o.id, o)] :=
    alistSet_of_none o hfresh
  refine ⟨?_, h2, ?_, ?_, h5, h6, h7⟩
  · show 1 ≤ s.next_order_id + 1
    omega
  · show ((alistSet s.orders o.id o).map Prod.fst).Pairwise (· < ·)
    rw [hset, List.map_append]
    apply List.pairwise_append.2
    refine ⟨h3, by simp, ?_⟩
    intro a ha b hb
    simp only [List.map_cons, List.map_nil, List.mem_singleton] at hb
    have := h4 a ha
    omega
  · intro k hk
    show 1 ≤ k ∧ k < s.next_order_id + 1
    have hk2 : k ∈ (alistSet s.orders o.id o).map Prod.fst := hk
    rw [hset, List.map_append] at hk2
    rcases List.mem_append.1 hk2 with hk | hk
    · have := h4 k hk
      omega
    · simp only [List.map_cons, List.map_nil, List.mem_singleton] at hk
      omega

theorem add_order_IdInv (s : EngineState) (now uid : Nat) (sym : String)
    (sd : OrderSide) (ot : OrderType) (q : ℤ) (pr spr : Option ℤ)
    (hinv : IdInv s) : IdInv (add_order s now uid sym sd ot q pr spr).2 := by
  set o : Order :=
    { id := s.next_order_id, user_id := uid, symbol := sym, side := sd,
      order_type := ot, quantity := q, filled_quantity := 0, price := pr,
      stop_price := spr, status := .pending, created_at := now,
      updated_at := now } with ho
  set s1 : EngineState := insertFresh s o with hs1
  set s2 : EngineState := if ot = .limit ∧ truthy pr = true
      then addToOrderBook s1 o (pr.getD 0) else s1 with hs2
  have hinv1 : IdInv s1 := insertFresh_IdInv s o rfl hinv
  have hmem1 : o.id ∈ s1.orders.map Prod.fst :=
    mem_keys_of_alistGet_some (alistGet_alistSet_self s.orders o.id o)
  have hinv2 : IdInv s2 := by
    rw [hs2]
    split
    · exact IdInv_congr_keys (by rw [addToOrderBook_orders])
        (addToOrderBook_trades _ _ _) (addToOrderBook_next_order_id _ _ _)
        (addToOrderBook_next_trade_id _ _ _) hinv1
    · exact hinv1
  have hoid : o.id ∈ s2.orders.map Prod.fst := by
    rw [hs2]
    split
    · rw [addToOrderBook_orders]
      exact hmem1
    · exact hmem1
  have hsplit : (add_order s now uid sym sd ot q pr spr).2 = (matchOrder s2 now o).2 := by
    show (match matchOrder s2 now o with
      | (.error e, s3) => ((.error e : Except PyErr Order), s3)
      | (.ok _, s3) => (.ok ((lookupOrder s3 o.id).getD o), s3)).2
        = (matchOrder s2 now o).2
    rcases matchOrder s2 now o with ⟨res, s3⟩
    rcases res with e | u <;> rfl
  rw [hsplit]
  by_cases hmkt : ot = .market
  · subst hmkt
    have hred : (matchOrder s2 now o).2
        = (execTrades now sym sd s2 o q (getMatchingOrders s2 sym (opposite sd) q)).1 :=
      rfl
    rw [hred]
    exact execTrades_IdInv now sym sd (getMatchingOrders s2 sym (opposite sd) q)
      s2 o q hoid hinv2
  · have hpend : ¬ (o.status ≠ OrderStatus.pending) := fun h => h rfl
    have hmkt2 : ¬ (o.order_type = OrderType.market) := fun h => hmkt h
    unfold matchOrder
    rw [if_neg hpend]
    dsimp only
    rw [if_neg hmkt2]
    rcases hc : getMatchingOrdersWithPrice s2 o.symbol (opposite o.side) o.quantity
        o.price o.side with e | ms
    · dsimp only
      exact hinv2
    · dsimp only
      exact execTrades_IdInv now o.symbol o.side ms s2 o o.quantity hoid hinv2

theorem cancel_IdInv (s : EngineState) (now oid uid : Nat) (hinv : IdInv s) :
    IdInv (cancel_order s now oid uid).2 := by
  unfold cancel_order
  rcases hl : lookupOrder s oid with _ | o
  · exact hinv
  · dsimp only
    by_cases h1 : o.user_id ≠ uid
    · rw [if_pos h1]
      exact hinv
    · rw [if_neg h1]
      by_cases h2 : o.status = .filled ∨ o.status = .cancelled
      · rw [if_pos h2]
        exact hinv
      · rw [if_neg h2]
        have hmemo : oid ∈ s.orders.map Prod.fst := mem_keys_of_alistGet_some hl
        have hupd : IdInv (updateOrder s oid
            { o with status := .cancelled, updated_at := now }) :=
          IdInv_congr_keys (alistSet_keys_of_mem _ hmemo) rfl rfl rfl hinv
        dsimp only
        split
        · exact IdInv_congr_keys (by rw [removeFromOrderBook_orders])
            (removeFromOrderBook_trades _ _) (removeFromOrderBook_next_order_id _ _)
            (removeFromOrderBook_next_trade_id _ _) hupd
        · exact hupd

theorem stepOp_IdInv (s : EngineState) (op : EVOp) (hinv : IdInv s) :
    IdInv (stepOp s op) := by
  cases op with
  | add now uid sym sd ot q pr spr => exact add_order_IdInv s now uid sym sd ot q pr spr hinv
  | cancel now oid uid => exact cancel_IdInv s now oid uid hinv

/-! ### Claim theorems: concrete scenario evidence -/

/-- C1.  Scenario S1 (cross at resting price) evaluated on the code: after
submitting LIMIT SELL 1.0@30000 (u1) and LIMIT BUY 1.0@30000 (u2) on an empty
book, exactly the claimed trade is produced and both orders end FILLED — but
the book is NOT empty: `add_order` inserts the incoming LIMIT BUY into the bid
side BEFORE matching and never removes it when it fills, so a bid level at
30000 holding the FILLED order 2 survives (with its quantity still counted in
the level total), while the ask side is empty as claimed. -/
theorem c1_s1_cross_code_result :
    tradesOf (add_order (add_order initState 0 1 "BTC/USD" .sell .limit 1
          (some 30000) none).2 1 2 "BTC/USD" .buy .limit 1 (some 30000) none).2
        "BTC/USD" =
      [⟨1, "BTC/USD", 2, 1, 1, some 30000, 1⟩] ∧
    (lookupOrder (add_order (add_order initState 0 1 "BTC/USD" .sell .limit 1
          (some 30000) none).2 1 2 "BTC/USD" .buy .limit 1 (some 30000) none).2
        1).map Order.status = some .filled ∧
    (lookupOrder (add_order (add_order initState 0 1 "BTC/USD" .sell .limit 1
          (some 30000) none).2 1 2 "BTC/USD" .buy .limit 1 (some 30000) none).2
        2).map Order.status = some .filled ∧
    getLevels (add_order (add_order initState 0 1 "BTC/USD" .sell .limit 1
          (some 30000) none).2 1 2 "BTC/USD" .buy .limit 1 (some 30000) none).2
        "BTC/USD" .sell = [] ∧
    getLevels (add_order (add_order initState 0 1 "BTC/USD" .sell .limit 1
          (some 30000) none).2 1 2 "BTC/USD" .buy .limit 1 (some 30000) none).2
        "BTC/USD" .buy = [(30000, ⟨30000, 1, 1, [2]⟩)] := by
  decide

/-- C2.  A partial fill of a resting order does not touch its level's
aggregates: after LIMIT SELL 2.0@30000 is hit by LIMIT BUY 1.0@30000, the ask
level still stores `total_quantity = 2` while the sum of remaining quantities
over its residents is `1` — the source never updates `total_quantity` on a
fill (and `_remove_from_order_book` subtracts the FULL quantity), so the
claimed invariant `total_quantity = Σ (quantity − filled_quantity)` fails. -/
theorem c2_partial_fill_keeps_full_total :
    (alistGet (getLevels (add_order (add_order initState 0 1 "BTC/USD" .sell .limit 2
          (some 30000) none).2 1 2 "BTC/USD" .buy .limit 1 (some 30000) none).2
        "BTC/USD" .sell) 30000).map OrderBookEntry.total_quantity = some 2 ∧
    (alistGet (getLevels (add_order (add_order initState 0 1 "BTC/USD" .sell .limit 2
          (some 30000) none).2 1 2 "BTC/USD" .buy .limit 1 (some 30000) none).2
        "BTC/USD" .sell) 30000).map
      (fun e => levelResidual (add_order (add_order initState 0 1 "BTC/USD" .sell .limit 2
          (some 30000) none).2 1 2 "BTC/USD" .buy .limit 1 (some 30000) none).2
        e.orders) = some 1 ∧
    (lookupOrder (add_order (add_order initState 0 1 "BTC/USD" .sell .limit 2
          (some 30000) none).2 1 2 "BTC/USD" .buy .limit 1 (some 30000) none).2
        1).map Order.status = some .partFilled := by
  decide

/-- C10.  A schema-valid STOP order (stop_price given, price absent) submitted
while the opposite side holds a resting order makes `add_order` raise
`TypeError`: `_get_matching_orders_with_price` evaluates `level_price > None`.
The conjunct `schemaOk … = true` records that the input satisfies the
schema-level preconditions of the claim. -/
theorem c10_stop_without_price_raises_typeerror :
    (add_order (add_order initState 0 1 "BTC/USD" .sell .limit 1 (some 30000) none).2
        1 2 "BTC/USD" .buy .stop 1 none (some 29000)).1 = .error .typeError ∧
    schemaOk ⟨"BTC/USD", .buy, .stop, 1, none, some 29000⟩ = true := by
  decide

/-- C3 counterexample.  Scenario S5: against a book holding only ask 1.0@100,
a MARKET BUY of 2.0 fills 1.0 and the trade prints as expected — but the
incoming order ends with status PARTIAL, not CANCELLED: the source has no code
path that cancels the unfilled remainder of a market order. -/
theorem c3_market_remainder_stays_partial :
    (match (add_order (add_order initState 0 1 "BTC/USD" .sell .limit 1 (some 100) none).2
        1 2 "BTC/USD" .buy .market 2 none none).1 with
      | .ok o => (o.status, o.filled_quantity)
      | .error _ => (.pending, 0)) = (OrderStatus.partFilled, 1) ∧
    tradesOf (add_order (add_order initState 0 1 "BTC/USD" .sell .limit 1 (some 100) none).2
        1 2 "BTC/USD" .buy .market 2 none none).2 "BTC/USD" =
      [⟨1, "BTC/USD", 2, 1, 1, some 100, 1⟩] ∧
    OrderStatus.partFilled ≠ OrderStatus.cancelled := by
  decide

/-- C5 counterexample.  A submission that fails admission validation (LIMIT
without a price, passing the schema) is NOT stored with a REJECTED status and
returned: the service raises HTTP 400 and stores nothing — and the engine's
`OrderStatus` has no REJECTED member at all (its values are exactly PENDING,
PARTIAL, FILLED, CANCELLED). -/
theorem c5_no_rejected_order_stored :
    (submitRequest initState 0 1 ⟨"BTC/USD", .buy, .limit, 1, none, none⟩).1
        = .error (.badRequest "Limit orders must have a price") ∧
    (submitRequest initState 0 1 ⟨"BTC/USD", .buy, .limit, 1, none, none⟩).2.orders = [] ∧
    ∀ st : OrderStatus,
      st = .pending ∨ st = .partFilled ∨ st = .filled ∨ st = .cancelled := by
  refine ⟨by decide, by decide, ?_⟩
  intro st
  cases st
  · exact Or.inl rfl
  · exact Or.inr (Or.inl rfl)
  · exact Or.inr (Or.inr (Or.inl rfl))
  · exact Or.inr (Or.inr (Or.inr rfl))

/-- C5 amended.  Every submission that fails admission validation
(non-positive quantity, LIMIT without a positive price, or STOP without a
positive stop_price) fails with an HTTP error — 422 from the pydantic schema
or 400 from `OrderService.create_order` — and the engine state is returned
untouched: no order is stored (with any status) and no book state is mutated.
(The in-memory engine of the source publishes no events at all, so no events
are emitted on any path.)  There is no REJECTED storage: the engine status
enum has no such member (see the counterexample theorem). -/
theorem c5_failed_validation_rejects_without_storing
    (s : EngineState) (now uid : Nat) (d : OrderCreate)
    (h : d.quantity ≤ 0 ∨ (d.order_type = .limit ∧ posPrice d.price = false) ∨
      (d.order_type = .stop ∧ posPrice d.stop_price = false)) :
    (∃ e, (submitRequest s now uid d).1 = Except.error e) ∧
    (submitRequest s now uid d).2 = s := by
  unfold submitRequest
  by_cases hs : schemaOk d
  · rw [if_neg (by simpa using hs)]
    have hq : 0 < d.quantity := by
      have := hs
      unfold schemaOk at this
      simp only [Bool.and_eq_true, decide_eq_true_eq] at this
      exact this.1.1
    unfold create_order
    rcases h with h | h | h
    · omega
    · have hnone : d.price = none := by
        rcases hp : d.price with _ | p
        · rfl
        · exfalso
          have := hs
          unfold schemaOk at this
          rw [hp] at this
          simp only [Bool.and_eq_true, decide_eq_true_eq] at this
          have h2 := h.2
          rw [hp] at h2
          simp only [posPrice, decide_eq_false_iff_not] at h2
          omega
      rw [if_pos ⟨h.1, by rw [hnone]; decide⟩]
      exact ⟨⟨_, rfl⟩, rfl⟩
    · have hnone : d.stop_price = none := by
        rcases hp : d.stop_price with _ | p
        · rfl
        · exfalso
          have := hs
          unfold schemaOk at this
          rw [hp] at this
          simp only [Bool.and_eq_true, decide_eq_true_eq] at this
          have h2 := h.2
          rw [hp] at h2
          simp only [posPrice, decide_eq_false_iff_not] at h2
          omega
      have hnotlimit : ¬ (d.order_type = .limit ∧ ¬ truthy d.price = true) := by
        rintro ⟨hl, _⟩
        rw [h.1] at hl
        cases hl
      rw [if_neg hnotlimit, if_pos ⟨h.1, by rw [hnone]; decide⟩]
      exact ⟨⟨_, rfl⟩, rfl⟩
  · rw [if_pos (by simpa using hs)]
    exact ⟨⟨_, rfl⟩, rfl⟩

/-- Witness for the C5 amended theorem at a concrete failing input. -/
theorem c5_failed_validation_witness :
    (∃ e, (submitRequest initState 0 1 ⟨"BTC/USD", .buy, .limit, 1, none, none⟩).1
        = Except.error e) ∧
    (submitRequest initState 0 1 ⟨"BTC/USD", .buy, .limit, 1, none, none⟩).2 = initState :=
  c5_failed_validation_rejects_without_storing initState 0 1
    ⟨"BTC/USD", .buy, .limit, 1, none, none⟩ (Or.inr (Or.inl (by decide)))

/-- C7 counterexample.  A STOP order submitted WITH a price (the schema allows
`price` on a STOP order) runs the LIMIT matching path on admission: against a
resting ask 1.0@100, STOP BUY 1.0 stop 90 price 100 produces a trade and
empties the ask side — refuting "runs no matching on admission (no trades are
produced and no book side or price level is mutated)". -/
theorem c7_stop_with_price_matches_on_admission :
    tradesOf (add_order (add_order initState 0 1 "BTC/USD" .sell .limit 1 (some 100) none).2
        1 2 "BTC/USD" .buy .stop 1 (some 100) (some 90)).2 "BTC/USD" ≠ [] ∧
    getLevels (add_order (add_order initState 0 1 "BTC/USD" .sell .limit 1 (some 100) none).2
        1 2 "BTC/USD" .buy .stop 1 (some 100) (some 90)).2 "BTC/USD" .sell = [] ∧
    getLevels (add_order initState 0 1 "BTC/USD" .sell .limit 1 (some 100) none).2
        "BTC/USD" .sell ≠ [] ∧
    schemaOk ⟨"BTC/USD", .buy, .stop, 1, some 100, some 90⟩ = true := by
  decide

/-- C8 counterexample.  Submitting one non-crossing LIMIT SELL at the fresh
price 5 into a book whose ask heap array is `[(10,10),(30,30),(20,20)]` and
then cancelling it restores the price-level table exactly, but the heap array
comes back as `[(10,10),(20,20),(30,30)]`: `_remove_from_order_book` rebuilds
the heap with `heapify` after filtering, which may permute the array, so the
book's price indices are NOT identical to the pre-state. -/
theorem c8_heap_array_not_restored :
    NcRun (add_order (add_order (add_order initState 0 1 "H" .sell .limit 1 (some 10) none).2
        0 1 "H" .sell .limit 1 (some 30) none).2 0 1 "H" .sell .limit 1 (some 20) none).2
      [⟨0, 1, "H", .sell, 1, 5⟩] ∧
    getLevels (roundTrip (add_order (add_order (add_order initState 0 1 "H" .sell .limit 1
          (some 10) none).2 0 1 "H" .sell .limit 1 (some 30) none).2
        0 1 "H" .sell .limit 1 (some 20) none).2 [⟨0, 1, "H", .sell, 1, 5⟩]).2 "H" .sell
      = getLevels (add_order (add_order (add_order initState 0 1 "H" .sell .limit 1
          (some 10) none).2 0 1 "H" .sell .limit 1 (some 30) none).2
        0 1 "H" .sell .limit 1 (some 20) none).2 "H" .sell ∧
    getHeap (roundTrip (add_order (add_order (add_order initState 0 1 "H" .sell .limit 1
          (some 10) none).2 0 1 "H" .sell .limit 1 (some 30) none).2
        0 1 "H" .sell .limit 1 (some 20) none).2 [⟨0, 1, "H", .sell, 1, 5⟩]).2 "H" .sell
      = [(10, 10), (20, 20), (30, 30)] ∧
    getHeap (add_order (add_order (add_order initState 0 1 "H" .sell .limit 1
          (some 10) none).2 0 1 "H" .sell .limit 1 (some 30) none).2
        0 1 "H" .sell .limit 1 (some 20) none).2 "H" .sell
      = [(10, 10), (30, 30), (20, 20)] := by
  decide

/-- **C3** (amended).  Every MARKET order with quantity `q > 0` submitted to a
wellformed book fills exactly `min q L`, where `L` is the opposite-side
liquidity (the sum of remaining quantities over resting eligible LIMIT
orders).  It ends FILLED when `L ≥ q`; when `0 < L < q` it ends PARTIAL and
when `L = 0` it stays PENDING — no code path ever CANCELS the unfilled
remainder — and in all cases the market order never rests on the book: its id
appears in no price level of the post-state. -/
theorem c3_market_fill (s : EngineState) (now uid : Nat) (sym : String)
    (oside : OrderSide) (q : ℤ) (pr spr : Option ℤ)
    (hwfR : WfReg s) (hwfL : WfLevels s) (hq : 0 < q) :
    ∃ fin : Order,
      (add_order s now uid sym oside .market q pr spr).1 = .ok fin ∧
      fin.quantity = q ∧
      fin.filled_quantity = min q (oppLiquidity s sym oside) ∧
      (q ≤ oppLiquidity s sym oside → fin.status = .filled) ∧
      (0 < oppLiquidity s sym oside → oppLiquidity s sym oside < q →
        fin.status = .partFilled) ∧
      (oppLiquidity s sym oside ≤ 0 → fin.status = .pending) ∧
      ∀ sym2 sd pe,
        pe ∈ getLevels (add_order s now uid sym oside .market q pr spr).2 sym2 sd →
        fin.id ∉ pe.2.orders := by
  set o : Order :=
    { id := s.next_order_id, user_id := uid, symbol := sym, side := oside,
      order_type := .market, quantity := q, filled_quantity := 0, price := pr,
      stop_price := spr, status := .pending, created_at := now,
      updated_at := now } with ho
  set s1 : EngineState := insertFresh s o with hs1
  set cands : List Nat := getMatchingOrders s1 sym (opposite oside) q with hcs
  have hunf : add_order s now uid sym oside .market q pr spr
      = (.ok ((lookupOrder (execTrades now sym oside s1 o q cands).1 o.id).getD o),
         (execTrades now sym oside s1 o q cands).1) := rfl
  obtain ⟨hni, hnd, hav, hsum⟩ :=
    market_gather_facts s o hwfR hwfL rfl sym (opposite oside) q
  have hni2 : o.id ∉ cands := hni
  have hnd2 : cands.Nodup := hnd
  have hav2 : ∀ i ∈ cands, 0 < availOf s1 i := hav
  have hSL : availSum s1 cands = oppLiquidity s sym oside := hsum
  have hlook1 : lookupOrder s1 o.id = some o := alistGet_alistSet_self _ _ _
  obtain ⟨hfq, hqq, hid, hst, hlook2⟩ :=
    execTrades_spec now sym oside cands s1 o q hni2 hnd2 hav2 hlook1
      (sub_zero q).symm (le_of_lt hq)
  refine ⟨(execTrades now sym oside s1 o q cands).2.1, ?_, ?_, ?_, ?_, ?_, ?_, ?_⟩
  · rw [hunf]
    show Except.ok ((lookupOrder (execTrades now sym oside s1 o q cands).1 o.id).getD o)
        = _
    rw [hlook2]
    rfl
  · exact hqq
  · have h0 : o.filled_quantity = 0 := rfl
    rw [hfq, hSL, h0, zero_add]
  · intro hle
    have hne : cands ≠ [] := by
      intro hemp
      rw [hemp] at hSL
      have h0 : availSum s1 ([] : List Nat) = 0 := rfl
      omega
    have hc : 0 < q ∧ cands ≠ [] := ⟨hq, hne⟩
    have hc2 : q ≤ availSum s1 cands := by
      rw [hSL]
      exact hle
    rw [hst, if_pos hc, if_pos hc2]
  · intro hpos hlt
    have hne : cands ≠ [] := by
      intro hemp
      rw [hemp] at hSL
      have h0 : availSum s1 ([] : List Nat) = 0 := rfl
      omega
    have hc : 0 < q ∧ cands ≠ [] := ⟨hq, hne⟩
    have hc2 : ¬ q ≤ availSum s1 cands := by
      rw [hSL]
      omega
    rw [hst, if_pos hc, if_neg hc2]
  · intro hle0
    have hemp : cands = [] := by
      cases hc : cands with
      | nil => rfl
      | cons i rest =>
        exfalso
        have hi : 0 < availOf s1 i := hav2 i (by rw [hc]; exact List.mem_cons_self _ _)
        have hrest : 0 ≤ availSum s1 rest :=
          availSum_nonneg s1 rest
            (fun j hj => hav2 j (by rw [hc]; exact List.mem_cons_of_mem _ hj))
        have hsplit : availSum s1 cands = availOf s1 i + availSum s1 rest := by
          rw [hc]
          show (availOf s1 i :: rest.map (availOf s1)).sum = _
          rw [List.sum_cons]
          rfl
        omega
    have hcf : ¬ (0 < q ∧ cands ≠ []) := fun h => h.2 hemp
    rw [hst, if_neg hcf]
  · intro sym2 sd pe hpe
    have hsub : LevelsSub (add_order s now uid sym oside .market q pr spr).2 s1 :=
      execTrades_levelsSub now sym oside cands s1 o q
    have hbase : ∀ sym3 sd3 pe3, pe3 ∈ getLevels s1 sym3 sd3 → o.id ∉ pe3.2.orders := by
      intro sym3 sd3 pe3 hpe3 hin
      obtain ⟨w, _, _, hjlt, _⟩ := resident_facts hwfR hwfL sym3 sd3 pe3 hpe3 o.id hin
      have hoid : o.id = s.next_order_id := rfl
      omega
    rw [hid]
    exact notResident_of_levelsSub hsub o.id hbase sym2 sd pe hpe

/-- Witness for C3: a MARKET BUY of quantity 2 against a book holding one
resting LIMIT SELL of quantity 1; all hypotheses hold by computation. -/
theorem c3_market_fill_witness :
    ∃ fin : Order,
      (add_order c3State 2 2 "BTC/USD" .buy .market 2 none none).1 = .ok fin ∧
      fin.quantity = 2 ∧
      fin.filled_quantity = min 2 (oppLiquidity c3State "BTC/USD" .buy) ∧
      (2 ≤ oppLiquidity c3State "BTC/USD" .buy → fin.status = .filled) ∧
      (0 < oppLiquidity c3State "BTC/USD" .buy →
        oppLiquidity c3State "BTC/USD" .buy < 2 → fin.status = .partFilled) ∧
      (oppLiquidity c3State "BTC/USD" .buy ≤ 0 → fin.status = .pending) ∧
      ∀ sym2 sd pe,
        pe ∈ getLevels (add_order c3State 2 2 "BTC/USD" .buy .market 2 none none).2 sym2 sd →
        fin.id ∉ pe.2.orders :=
  c3_market_fill c3State 2 2 "BTC/USD" .buy 2 none none
    (by decide) (by decide) (by decide)

/-- **C4**.  Time priority within a price level: the matching-candidate list
of `_get_matching_orders_with_price` preserves the within-level queue order —
whenever `i1` precedes `i2` in a level's queue and both are eligible and the
level passes the price guard, `i1` precedes `i2` among the candidates, so the
execution loop consumes them in admission order (level prices are distinct and
equal-price elements keep their order under Python's stable sort).
Concretely (S3): with two resting LIMIT SELLs of quantity 1 at 30000 admitted
at t=0 (user 1) and t=1 (user 2), an incoming crossing LIMIT BUY of
quantity 1 at 30000 trades against order 1 (the older), order 1 ends FILLED
and order 2 remains PENDING and resting alone at the 30000 ask level. -/
theorem c4_time_priority :
    (∀ (s : EngineState) (sym : String) (sd2 : OrderSide) (q p : ℤ)
        (oside : OrderSide) (pe : ℤ × OrderBookEntry) (i1 i2 : Nat) (w1 w2 : Order),
      WfReg s → WfLevels s → pe ∈ getLevels s sym sd2 →
      List.Sublist [i1, i2] pe.2.orders →
      eligible s i1 = some w1 → eligible s i2 = some w2 →
      keepLevel p oside pe.1 = true →
      ∃ ms, getMatchingOrdersWithPrice s sym sd2 q (some p) oside = Except.ok ms ∧
        List.Sublist [i1, i2] ms) ∧
    ((tradesOf (add_order c4State 2 3 "BTC/USD" .buy .limit 1 (some 30000) none).2
        "BTC/USD").map (fun t => (t.buy_order_id, t.sell_order_id, t.quantity, t.price))
      = [(3, 1, 1, some 30000)] ∧
     (lookupOrder (add_order c4State 2 3 "BTC/USD" .buy .limit 1 (some 30000) none).2
        1).map (fun o => o.status) = some OrderStatus.filled ∧
     (lookupOrder (add_order c4State 2 3 "BTC/USD" .buy .limit 1 (some 30000) none).2
        2).map (fun o => o.status) = some OrderStatus.pending ∧
     (getLevels (add_order c4State 2 3 "BTC/USD" .buy .limit 1 (some 30000) none).2
        "BTC/USD" .sell).map (fun pe => (pe.1, pe.2.orders)) = [(30000, [2])]) := by
  constructor
  · intro s sym sd2 q p oside pe i1 i2 w1 w2 hwfR hwfL hpe hsub he1 he2 hkeep
    obtain ⟨hid1, hl1, hst1, hot1⟩ := eligible_id hwfR he1
    obtain ⟨hid2, hl2, hst2, hot2⟩ := eligible_id hwfR he2
    have hin1 : i1 ∈ pe.2.orders := hsub.subset (by simp)
    obtain ⟨v1, hlv1, hvid1, hvlt1, hvsym1, hvsd1, hvot1, hvp1⟩ :=
      resident_facts hwfR hwfL sym sd2 pe hpe i1 hin1
    have hin2 : i2 ∈ pe.2.orders := hsub.subset (by simp)
    obtain ⟨v2, hlv2, hvid2, hvlt2, hvsym2, hvsd2, hvot2, hvp2⟩ :=
      resident_facts hwfR hwfL sym sd2 pe hpe i2 hin2
    rw [hl1] at hlv1
    obtain rfl := Option.some.inj hlv1
    rw [hl2] at hlv2
    obtain rfl := Option.some.inj hlv2
    set Gp := cmap (fun pe2 => if keepLevel p oside pe2.1
        then pe2.2.orders.filterMap (eligible s) else []) (getLevels s sym sd2) with hGp
    have hfm : List.Sublist [w1, w2] (pe.2.orders.filterMap (eligible s)) := by
      have h1 := hsub.filterMap (eligible s)
      simp only [List.filterMap_cons, List.filterMap_nil, he1, he2] at h1
      exact h1
    have hsubG : List.Sublist [w1, w2] Gp := by
      apply sublist_cmap_of_mem _ hpe
      show List.Sublist [w1, w2]
        (if keepLevel p oside pe.1 = true then pe.2.orders.filterMap (eligible s) else [])
      rw [hkeep, if_pos rfl]
      exact hfm
    have hGeq : getMatchingOrdersWithPrice s sym sd2 q (some p) oside
        = Except.ok ((if sd2 = .sell then stableSort ltAsc Gp
            else stableSort ltDesc Gp).map (fun o => o.id)) := by
      unfold getMatchingOrdersWithPrice
      rw [gatherLevels_some]
    have hpair : List.Sublist [w1, w2]
        (if sd2 = .sell then stableSort ltAsc Gp else stableSort ltDesc Gp) := by
      by_cases hsd : sd2 = .sell
      · rw [if_pos hsd]
        refine stableSort_pair ltAsc hsubG ?_
        simp [ltAsc, priceLt, hvp1, hvp2]
      · rw [if_neg hsd]
        refine stableSort_pair ltDesc hsubG ?_
        simp [ltDesc, priceLt, hvp1, hvp2]
    refine ⟨_, hGeq, ?_⟩
    have hmap := hpair.map (fun o : Order => o.id)
    simp only [List.map_cons, List.map_nil] at hmap
    rw [hid1, hid2] at hmap
    exact hmap
  · exact ⟨by decide, by decide, by decide, by decide⟩

/-- Witness for C4: in scenario S3's book the matching candidates for the
crossing LIMIT BUY keep resident 1 ahead of resident 2. -/
theorem c4_time_priority_witness :
    ∃ ms, getMatchingOrdersWithPrice c4State "BTC/USD" OrderSide.sell 1 (some 30000)
        OrderSide.buy = Except.ok ms ∧ List.Sublist [1, 2] ms :=
  c4_time_priority.1 c4State "BTC/USD" .sell 1 30000 .buy
    (30000, { price := 30000, total_quantity := 2, order_count := 2, orders := [1, 2] })
    1 2
    { id := 1, user_id := 1, symbol := "BTC/USD", side := .sell, order_type := .limit,
      quantity := 1, filled_quantity := 0, price := some 30000, stop_price := none,
      status := .pending, created_at := 0, updated_at := 0 }
    { id := 2, user_id := 2, symbol := "BTC/USD", side := .sell, order_type := .limit,
      quantity := 1, filled_quantity := 0, price := some 30000, stop_price := none,
      status := .pending, created_at := 1, updated_at := 1 }
    (by decide) (by decide) (by decide) (List.Sublist.refl _)
    (by decide) (by decide) (by decide)

/-- **C6**.  Cancellation semantics and atomicity: an unknown order id fails
with `ValueError("Order not found")`, a known order of another user with
`ValueError("Order does not belong to user")`, and a known own order in a
terminal status with `ValueError("Cannot cancel order with status: ...")` —
the engine's status enum has no REJECTED member, so the terminal statuses are
exactly FILLED and CANCELLED; in every failure case the returned state is the
input state unchanged.  Otherwise the order is returned and re-stored with
status CANCELLED and `updated_at` refreshed to `now`, and (in a wellformed
book) its id is no longer resident in any price level. -/
theorem c6_cancel_semantics (s : EngineState) (now oid uid : Nat) :
    (lookupOrder s oid = none →
      cancel_order s now oid uid = (.error (.valueError "Order not found"), s)) ∧
    (∀ o, lookupOrder s oid = some o → o.user_id ≠ uid →
      cancel_order s now oid uid
        = (.error (.valueError "Order does not belong to user"), s)) ∧
    (∀ o, lookupOrder s oid = some o → o.user_id = uid →
      (o.status = .filled ∨ o.status = .cancelled) →
      cancel_order s now oid uid
        = (.error (.valueError ("Cannot cancel order with status: "
              ++ statusRepr o.status)), s)) ∧
    (∀ o, lookupOrder s oid = some o → o.user_id = uid →
      o.status ≠ .filled → o.status ≠ .cancelled →
      (cancel_order s now oid uid).1
          = .ok { o with status := .cancelled, updated_at := now } ∧
      lookupOrder (cancel_order s now oid uid).2 oid
          = some { o with status := .cancelled, updated_at := now } ∧
      (WfReg s → WfLevels s →
        ∀ sym sd pe, pe ∈ getLevels (cancel_order s now oid uid).2 sym sd →
          oid ∉ pe.2.orders)) := by
  refine ⟨?_, ?_, ?_, ?_⟩
  · intro h
    unfold cancel_order
    rw [h]
  · intro o hl hne
    unfold cancel_order
    rw [hl]
    dsimp only
    rw [if_pos hne]
  · intro o hl huid hterm
    unfold cancel_order
    rw [hl]
    dsimp only
    rw [if_neg (fun h => h huid), if_pos hterm]
  · intro o hl huid hnf hnc
    have h1 : ¬ o.user_id ≠ uid := fun h => h huid
    have h2 : ¬ (o.status = .filled ∨ o.status = .cancelled) := by
      rintro (h | h)
      · exact hnf h
      · exact hnc h
    set o2 : Order := { o with status := .cancelled, updated_at := now } with ho2
    have hcv : cancel_order s now oid uid
        = (.ok o2, if o2.order_type = .limit ∧ truthy o2.price = true
            then removeFromOrderBook (updateOrder s oid o2) o2
            else updateOrder s oid o2) := by
      unfold cancel_order
      rw [hl]
      dsimp only
      rw [if_neg h1, if_neg h2]
    refine ⟨?_, ?_, ?_⟩
    · rw [hcv]
    · rw [hcv]
      by_cases hA : o2.order_type = .limit ∧ truthy o2.price = true
      · rw [if_pos hA]
        show alistGet (removeFromOrderBook (updateOrder s oid o2) o2).orders oid
            = some o2
        rw [removeFromOrderBook_orders]
        exact alistGet_alistSet_self _ _ _
      · rw [if_neg hA]
        exact lookupOrder_updateOrder_self _ _ _
    · intro hwfR hwfL sym sd pe hpe
      rw [hcv] at hpe
      exact remove_clears s oid o o2 hwfR hwfL hl rfl rfl rfl rfl rfl sym sd pe hpe

/-- Witness for C6: cancelling the resting LIMIT SELL (id 1, user 1) of
`c3State` at time 9 returns it CANCELLED with `updated_at = 9` and re-stores
it. -/
theorem c6_cancel_semantics_witness :
    (cancel_order c3State 9 1 1).1 = .ok
      { id := 1, user_id := 1, symbol := "BTC/USD", side := .sell,
        order_type := .limit, quantity := 1, filled_quantity := 0,
        price := some 30000, stop_price := none, status := .cancelled,
        created_at := 1, updated_at := 9 } ∧
    lookupOrder (cancel_order c3State 9 1 1).2 1 = some
      { id := 1, user_id := 1, symbol := "BTC/USD", side := .sell,
        order_type := .limit, quantity := 1, filled_quantity := 0,
        price := some 30000, stop_price := none, status := .cancelled,
        created_at := 1, updated_at := 9 } := by
  have h := (c6_cancel_semantics c3State 9 1 1).2.2.2
    { id := 1, user_id := 1, symbol := "BTC/USD", side := .sell,
      order_type := .limit, quantity := 1, filled_quantity := 0,
      price := some 30000, stop_price := none, status := .pending,
      created_at := 1, updated_at := 1 }
    (by decide) (by decide) (by decide) (by decide)
  exact ⟨h.1, h.2.1⟩

/-- **C9**.  Identifier monotonicity: after any sequence of engine operations
starting from a fresh `OrderBook`, the registry holds the admitted orders
under strictly increasing positive keys (each below `next_order_id`, so each
admission takes a fresh id and the successive ids strictly increase), every
symbol's trade list carries strictly increasing positive trade ids below
`next_trade_id`, and no trade id is ever assigned twice across the whole
engine. -/
theorem c9_id_monotonicity : ∀ ops : List EVOp, IdInv (runOps initState ops) := by
  have hinit : IdInv initState := by
    refine ⟨Nat.le_refl 1, Nat.le_refl 1, ?_, ?_, ?_, ?_, ?_⟩ <;>
      simp [initState, tradePool, allTradeIds, cmap]
  have hrun : ∀ (ops : List EVOp) (s : EngineState), IdInv s → IdInv (runOps s ops) := by
    intro ops
    induction ops with
    | nil =>
      intro s h
      exact h
    | cons op rest ih =>
      intro s h
      exact ih _ (stepOp_IdInv s op h)
  intro ops
  exact hrun ops initState hinit

/-- **C8** (amended).  Submit/cancel round trip: submitting N non-crossing
LIMIT orders with positive quantities and prices and then cancelling them all
(most recent first) returns every cancellation as a CANCELLED order and leaves
every side's price-level table identical to the pre-state; every side's price
index (heap) is restored as a multiset, though not necessarily as an array
(`_remove_from_order_book` rebuilds it with `heapify`, which may permute it —
see the counterexample theorem). -/
theorem c8_round_trip (s : EngineState) (subs : List Sub)
    (hwfR : WfReg s) (hwfL : WfLevels s) (hwfH : WfHeapSub s)
    (hnc : NcRun s subs)
    (hsubs : ∀ sb ∈ subs, 0 < sb.quantity ∧ 0 < sb.price) :
    (∀ sym sd, getLevels (roundTrip s subs).2 sym sd = getLevels s sym sd) ∧
    (∀ sym sd, ((getHeap (roundTrip s subs).2 sym sd).Perm (getHeap s sym sd))) ∧
    (∀ r ∈ (roundTrip s subs).1, ∃ oc, r = .ok oc ∧ oc.status = .cancelled) := by
  obtain ⟨h1, h2, _, h4⟩ := roundTrip_restore subs s hwfR hwfL hwfH hnc
    (fun sb h => ⟨(hsubs sb h).1, ne_of_gt (hsubs sb h).2⟩)
  exact ⟨h1, h2, h4⟩

/-- Witness for C8: the three-order book `c8Base` with one non-crossing
LIMIT SELL at the fresh price 5 round-trips back to its level table and (up
to permutation) its heap. -/
theorem c8_round_trip_witness :
    getLevels (roundTrip c8Base [⟨0, 1, "H", .sell, 1, 5⟩]).2 "H" OrderSide.sell
      = getLevels c8Base "H" OrderSide.sell ∧
    (getHeap (roundTrip c8Base [⟨0, 1, "H", .sell, 1, 5⟩]).2 "H" OrderSide.sell).Perm
      (getHeap c8Base "H" OrderSide.sell) := by
  have h := c8_round_trip c8Base [⟨0, 1, "H", .sell, 1, 5⟩]
    (by decide) (by decide) (by decide) (by decide) (by decide)
  exact ⟨h.1 "H" .sell, h.2.1 "H" .sell⟩

/-- **C7** (amended).  STOP admission: the order is stored and its id never
rests in any price level, in every outcome of the admission (error or not);
and with no limit price against an empty opposite side the admission is fully
inert — it returns the stored PENDING STOP order and changes nothing but the
registry and the id counter (price levels, heap index and trades are
untouched).  The matching pass itself still runs (a STOP order with a price
can trade immediately — see the counterexample theorem — and one without a
price raises TypeError against a nonempty opposite side, see C10). -/
theorem c7_stop_admission :
    (∀ (s : EngineState) (now uid : Nat) (sym : String) (oside : OrderSide)
        (q : ℤ) (pr spr : Option ℤ), WfReg s → WfLevels s →
      ∀ sym2 sd pe,
        pe ∈ getLevels (add_order s now uid sym oside .stop q pr spr).2 sym2 sd →
        s.next_order_id ∉ pe.2.orders) ∧
    (∀ (s : EngineState) (now uid : Nat) (sym : String) (oside : OrderSide)
        (q : ℤ) (spr : Option ℤ),
      getLevels s sym (opposite oside) = [] →
      ∃ o : Order,
        add_order s now uid sym oside .stop q none spr = (.ok o, insertFresh s o) ∧
        o.id = s.next_order_id ∧ o.user_id = uid ∧ o.symbol = sym ∧
        o.side = oside ∧ o.order_type = .stop ∧ o.quantity = q ∧
        o.filled_quantity = 0 ∧ o.price = none ∧ o.stop_price = spr ∧
        o.status = .pending ∧
        (insertFresh s o).price_levels = s.price_levels ∧
        (insertFresh s o).order_books = s.order_books ∧
        (insertFresh s o).trades = s.trades) := by
  constructor
  · intro s now uid sym oside q pr spr hwfR hwfL sym2 sd pe hpe
    set o : Order :=
      { id := s.next_order_id, user_id := uid, symbol := sym, side := oside,
        order_type := .stop, quantity := q, filled_quantity := 0, price := pr,
        stop_price := spr, status := .pending, created_at := now,
        updated_at := now } with ho
    set s1 : EngineState := insertFresh s o with hs1
    have hbase : ∀ sym3 sd3 pe3, pe3 ∈ getLevels s1 sym3 sd3 →
        s.next_order_id ∉ pe3.2.orders := by
      intro sym3 sd3 pe3 hpe3 hin
      obtain ⟨w, _, _, hjlt, _⟩ :=
        resident_facts hwfR hwfL sym3 sd3 pe3 hpe3 s.next_order_id hin
      omega
    have hpend : ¬ (o.status ≠ OrderStatus.pending) := fun h => h rfl
    have hm2 : ¬ (o.order_type = OrderType.market) := by
      simp [ho]
    rcases hc : getMatchingOrdersWithPrice s1 sym (opposite oside) q pr oside
        with e | ms
    · have hc2 : getMatchingOrdersWithPrice s1 o.symbol (opposite o.side) o.quantity
          o.price o.side = .error e := hc
      have hmo : matchOrder s1 now o = (.error e, s1) := by
        unfold matchOrder
        rw [if_neg hpend]
        dsimp only
        rw [if_neg hm2, hc2]
      have hst : (add_order s now uid sym oside .stop q pr spr).2 = s1 := by
        show (match matchOrder s1 now o with
          | (.error e, s3) => ((.error e : Except PyErr Order), s3)
          | (.ok _, s3) => (.ok ((lookupOrder s3 o.id).getD o), s3)).2 = s1
        rw [hmo]
      rw [hst] at hpe
      exact hbase sym2 sd pe hpe
    · have hc2 : getMatchingOrdersWithPrice s1 o.symbol (opposite o.side) o.quantity
          o.price o.side = .ok ms := hc
      have hmo : matchOrder s1 now o
          = (.ok (), (execTrades now sym oside s1 o q ms).1) := by
        unfold matchOrder
        rw [if_neg hpend]
        dsimp only
        rw [if_neg hm2, hc2]
      have hst : (add_order s now uid sym oside .stop q pr spr).2
          = (execTrades now sym oside s1 o q ms).1 := by
        show (match matchOrder s1 now o with
          | (.error e, s3) => ((.error e : Except PyErr Order), s3)
          | (.ok _, s3) => (.ok ((lookupOrder s3 o.id).getD o), s3)).2 = _
        rw [hmo]
      rw [hst] at hpe
      exact notResident_of_levelsSub (execTrades_levelsSub now sym oside ms s1 o q)
        s.next_order_id hbase sym2 sd pe hpe
  · intro s now uid sym oside q spr hemp
    set o : Order :=
      { id := s.next_order_id, user_id := uid, symbol := sym, side := oside,
        order_type := .stop, quantity := q, filled_quantity := 0, price := none,
        stop_price := spr, status := .pending, created_at := now,
        updated_at := now } with ho
    have hmow : getMatchingOrdersWithPrice (insertFresh s o) sym (opposite oside) q
        none oside = .ok [] := by
      unfold getMatchingOrdersWithPrice
      have hlv : getLevels (insertFresh s o) sym (opposite oside)
          = getLevels s sym (opposite oside) := rfl
      rw [hlv, hemp]
      cases oside <;> rfl
    have hok2 : getMatchingOrdersWithPrice (insertFresh s o) o.symbol
        (opposite o.side) o.quantity o.price o.side = .ok [] := hmow
    have hmo : matchOrder (insertFresh s o) now o = (.ok (), insertFresh s o) :=
      matchOrder_noncross (insertFresh s o) now o rfl (by simp [ho]) hok2
    have hself : lookupOrder (insertFresh s o) o.id = some o :=
      alistGet_alistSet_self _ _ _
    refine ⟨o, ?_, rfl, rfl, rfl, rfl, rfl, rfl, rfl, rfl, rfl, rfl, rfl, rfl, rfl⟩
    show (match matchOrder (insertFresh s o) now o with
      | (.error e, s3) => ((.error e : Except PyErr Order), s3)
      | (.ok _, s3) => (.ok ((lookupOrder s3 o.id).getD o), s3))
        = (.ok o, insertFresh s o)
    rw [hmo]
    dsimp only
    rw [hself]
    rfl

/-- Witness for C7: a STOP BUY with a stop price but no limit price admitted
into the empty book. -/
theorem c7_stop_admission_witness :
    ∃ o : Order,
      add_order initState 3 7 "BTC/USD" OrderSide.buy .stop 2 none (some 29000)
        = (.ok o, insertFresh initState o) ∧
      o.id = initState.next_order_id ∧ o.user_id = 7 ∧ o.symbol = "BTC/USD" ∧
      o.side = OrderSide.buy ∧ o.order_type = .stop ∧ o.quantity = 2 ∧
      o.filled_quantity = 0 ∧ o.price = none ∧ o.stop_price = some 29000 ∧
      o.status = .pending ∧
      (insertFresh initState o).price_levels = initState.price_levels ∧
      (insertFresh initState o).order_books = initState.order_books ∧
      (insertFresh initState o).trades = initState.trades :=
  c7_stop_admission.2 initState 3 7 "BTC/USD" .buy 2 (some 29000) (by decide)

end OB
